import Mathlib

/-!
# Verification of the ruby (furigana) annotation parser

A shallow embedding of `src/parser.ts` from the logseq-furigana-ruby
repository.  Strings are modelled as `List Char` (one entry per Unicode
code point, matching the code's use of `Array.from` for character
counting; the scanner's UTF-16 indices coincide with code-point indices
on all inputs considered here).  Index-based scanning loops from the
source are embedded as fuel-indexed structural recursions where the fuel
is exactly the number of remaining loop iterations in the source, so
every definition is executable by the kernel.
-/

set_option maxRecDepth 10000

namespace Ruby

/-- JavaScript strings, modelled as lists of code points. -/
abbrev Str := List Char

/-- Literal helper: a Lean string literal as a `Str`. -/
def lit (s : String) : Str := s.toList

/-- The character class matched by JavaScript's `\s` regex escape
(whitespace and line terminators), by code point. -/
def isJsSpace (c : Char) : Bool :=
  let n := c.toNat
  n = 0x20 || n = 0x09 || n = 0x0a || n = 0x0d || n = 0x0b || n = 0x0c ||
  n = 0xa0 || n = 0x1680 || (0x2000 ≤ n && n ≤ 0x200a) || n = 0x2028 ||
  n = 0x2029 || n = 0x202f || n = 0x205f || n = 0x3000 || n = 0xfeff

/-- JavaScript line terminators (the characters the regex `.` does not
match), by code point. -/
def isLineTerm (c : Char) : Bool :=
  let n := c.toNat
  n = 0x0a || n = 0x0d || n = 0x2028 || n = 0x2029

/-- `countBackslashes input i` is the length of the maximal run of
backslashes of `input` ending just before index `i`
(the counting loop of `isEscaped` in parser.ts). -/
def countBackslashes (input : Str) : Nat → Nat
  | 0 => 0
  | j + 1 => if input[j]? = some '\\' then countBackslashes input j + 1 else 0

/-- parser.ts `isEscaped`: the character at index `i` is preceded by an
odd number of backslashes. -/
def isEscaped (input : Str) (i : Nat) : Bool :=
  countBackslashes input i % 2 = 1

/-- parser.ts `unescape`: `input.replace(/\\(.)/g, "$1")`.  The regex dot
does not match line terminators, so a backslash before a line terminator
is left in place. -/
def unescape : Str → Str
  | [] => []
  | [c] => [c]
  | c1 :: c2 :: rest =>
      if c1 = '\\' && !isLineTerm c2 then c2 :: unescape rest
      else c1 :: unescape (c2 :: rest)

/-- Loop of parser.ts `splitByUnescapedPipe`; the fuel is the number of
remaining indices (`input.length - i`). -/
def splitByUnescapedPipeAux (input : Str) : Nat → Nat → Str → List Str
  | 0, _, buf => [buf.reverse]
  | fuel + 1, i, buf =>
    match input[i]? with
    | none => [buf.reverse]
    | some c =>
        if c = '|' && !isEscaped input i then
          buf.reverse :: splitByUnescapedPipeAux input fuel (i + 1) []
        else
          splitByUnescapedPipeAux input fuel (i + 1) (c :: buf)

/-- parser.ts `splitByUnescapedPipe`. -/
def splitByUnescapedPipe (input : Str) : List Str :=
  splitByUnescapedPipeAux input input.length 0 []

/-- Loop of parser.ts `findCloseParen` (fuel = remaining indices);
returns `none` for the source's `-1`. -/
def findCloseParenAux (input : Str) : Nat → Nat → Option Nat
  | 0, _ => none
  | fuel + 1, i =>
    match input[i]? with
    | none => none
    | some c =>
        if c = '\n' || c = '\r' then none
        else if c = ')' && !isEscaped input i then some i
        else findCloseParenAux input fuel (i + 1)

/-- parser.ts `findCloseParen`. -/
def findCloseParen (input : Str) (start : Nat) : Option Nat :=
  findCloseParenAux input (input.length - start) start

/-- Backward loop of parser.ts `findOpenBracket`: the argument is one
past the index currently examined (`0` means the loop ran out). -/
def findOpenBracketAux (input : Str) : Nat → Option Nat
  | 0 => none
  | j + 1 =>
    match input[j]? with
    | none => findOpenBracketAux input j
    | some c =>
        if c = '\n' || c = '\r' then none
        else if c = '[' && !isEscaped input j then some j
        else findOpenBracketAux input j

/-- parser.ts `findOpenBracket`: scan backward from `closeBracketIdx - 1`. -/
def findOpenBracket (input : Str) (closeBracketIdx : Nat) : Option Nat :=
  findOpenBracketAux input closeBracketIdx

/-- `OP_REGEX` (`/\^(?:\^|_)\(/`) matches at index `j`. -/
def isOpAt (input : Str) (j : Nat) : Bool :=
  input[j]? = some '^' &&
  (input[j + 1]? = some '^' || input[j + 1]? = some '_') &&
  input[j + 2]? = some '('

/-- Search loop for the next `OP_REGEX` match at index ≥ `j`. -/
def findOpAux (input : Str) : Nat → Nat → Option Nat
  | 0, _ => none
  | fuel + 1, j => if isOpAt input j then some j else findOpAux input fuel (j + 1)

/-- `OP_REGEX.lastIndex = i; OP_REGEX.exec(input)`: index of the first
operator token at or after `i`. -/
def findOp (input : Str) (i : Nat) : Option Nat :=
  findOpAux input (input.length - i) i

/-- JavaScript `input.slice(a, b)` (for `0 ≤ a`, `0 ≤ b`). -/
def slice (input : Str) (a b : Nat) : Str := (input.take b).drop a

/-- JavaScript `hay.includes(needle)`. -/
def strContains : Str → Str → Bool
  | hay, needle =>
    needle.isPrefixOf hay ||
      match hay with
      | [] => false
      | _ :: t => strContains t needle

/-- parser.ts `hasRuby`. -/
def hasRuby (text : Str) : Bool :=
  strContains text (lit "^^(") || strContains text (lit "^_(")


/-- parser.ts `RubyOp` (`"^^"` or `"^_"`). -/
inductive RubyOp where
  | over
  | under
deriving DecidableEq, Repr

/-- The opposite operator (`op === "^^" ? "^_" : "^^"`). -/
def RubyOp.flip : RubyOp → RubyOp
  | .over => .under
  | .under => .over

/-- parser.ts `UnderlineStyle`. -/
inductive UnderlineStyle where
  | solid
  | wavy
  | double
deriving DecidableEq, Repr

/-- parser.ts `getUnderlineStyle` (lookup in `UNDERLINE_STYLES`). -/
def getUnderlineStyle (pattern : Str) : Option UnderlineStyle :=
  if pattern = lit ".-" then some .solid
  else if pattern = lit ".~" then some .wavy
  else if pattern = lit ".=" then some .double
  else none

/-- parser.ts `underlineClasses`. -/
def underlineClasses : UnderlineStyle → Str
  | .solid => lit "ls-ruby-underline"
  | .wavy => lit "ls-ruby-underline ls-ruby-underline-wavy"
  | .double => lit "ls-ruby-underline ls-ruby-underline-double"

/-- parser.ts `STYLE_BOUTEN_OVER`. -/
def STYLE_BOUTEN_OVER : Str :=
  lit "text-emphasis:filled dot;-webkit-text-emphasis:filled dot;text-emphasis-position:over right;-webkit-text-emphasis-position:over right"

/-- parser.ts `STYLE_BOUTEN_UNDER`. -/
def STYLE_BOUTEN_UNDER : Str :=
  lit "text-decoration:underline dotted;text-underline-offset:0.15em"

/-- parser.ts `STYLE_RUBY_UNDER`. -/
def STYLE_RUBY_UNDER : Str := lit "ruby-position:under"

/-- parser.ts `underlineInlineStyle`. -/
def underlineInlineStyle (style : UnderlineStyle) : Str :=
  let s := lit "text-decoration-line:underline;text-underline-offset:0.15em"
  match style with
  | .wavy => s ++ lit ";text-decoration-style:wavy"
  | .double => s ++ lit ";text-decoration-style:double"
  | .solid => s

/-- parser.ts `boutenInlineStyle`. -/
def boutenInlineStyle (op : RubyOp) : Str :=
  match op with
  | .over => STYLE_BOUTEN_OVER
  | .under => STYLE_BOUTEN_UNDER

/-- parser.ts `rubyPosAttr`. -/
def rubyPosAttr (pos : Str) : Str :=
  if pos = lit "ls-ruby-under" then lit " style=\"" ++ STYLE_RUBY_UNDER ++ lit "\"" else []

/-- The `<ruby class="ls-ruby ${pos}"${rubyPosAttr(pos)}>…` element template
used throughout `renderRuby` (with the content and annotation filled in). -/
def rubyUnit (pos : Str) (content : Str) (ann : Str) : Str :=
  lit "<ruby class=\"ls-ruby " ++ pos ++ lit "\"" ++ rubyPosAttr pos ++ lit ">" ++
  content ++ lit "<rp>(</rp><rt>" ++ ann ++ lit "</rt><rp>)</rp></ruby>"

/-- parser.ts `emptyRuby`. -/
def emptyRuby (c : Char) (pos : Str) : Str := rubyUnit pos [c] []

/-- The nested two-level wrapper
`<ruby class="ls-ruby ${outerPos} ls-ruby-double"${rubyPosAttr(outerPos)}>…inner…<rp>(</rp><rt>${outerAnn}</rt><rp>)</rp></ruby>`. -/
def doubleWrap (outerPos : Str) (innerHtml : Str) (outerAnn : Str) : Str :=
  lit "<ruby class=\"ls-ruby " ++ outerPos ++ lit " ls-ruby-double\"" ++ rubyPosAttr outerPos ++
  lit ">" ++ innerHtml ++ lit "<rp>(</rp><rt>" ++ outerAnn ++ lit "</rt><rp>)</rp></ruby>"

/-- `[…].filter(Boolean).join(";")` over style fragments. -/
def joinStyles (parts : List Str) : Str :=
  List.intercalate (lit ";") (parts.filter (fun p => !p.isEmpty))

/-- parser.ts `renderBouten`. -/
def renderBouten (base : Str) (op : RubyOp) : Str :=
  let pos := match op with
    | .over => lit "ls-ruby-bouten-over"
    | .under => lit "ls-ruby-bouten-under"
  lit "<span class=\"ls-ruby-bouten " ++ pos ++ lit "\" style=\"" ++ boutenInlineStyle op ++
  lit "\">" ++ unescape base ++ lit "</span>"

/-- parser.ts `renderBoutenBoth`. -/
def renderBoutenBoth (base : Str) : Str :=
  lit "<span class=\"ls-ruby-bouten ls-ruby-bouten-over ls-ruby-bouten-under\" style=\"" ++
  STYLE_BOUTEN_OVER ++ lit ";" ++ STYLE_BOUTEN_UNDER ++ lit "\">" ++ unescape base ++ lit "</span>"

/-- parser.ts `renderUnderline`. -/
def renderUnderline (base : Str) (style : UnderlineStyle) : Str :=
  lit "<span class=\"" ++ underlineClasses style ++ lit "\" style=\"" ++
  underlineInlineStyle style ++ lit "\">" ++ unescape base ++ lit "</span>"

/-- parser.ts `renderRubyWithBouten`. -/
def renderRubyWithBouten (base : Str) (rubyText : Str) (rubyOp boutenOp : RubyOp) : Str :=
  let safeBase := unescape base
  let rubyPos := match rubyOp with
    | .over => lit "ls-ruby-over"
    | .under => lit "ls-ruby-under"
  let boutenPos := match boutenOp with
    | .over => lit "over"
    | .under => lit "under"
  let styles := joinStyles
    [if rubyPos = lit "ls-ruby-under" then STYLE_RUBY_UNDER else [], boutenInlineStyle boutenOp]
  lit "<ruby class=\"ls-ruby ls-ruby-mixed " ++ rubyPos ++ lit " ls-ruby-bouten-" ++ boutenPos ++
  lit "\" style=\"" ++ styles ++ lit "\">" ++ safeBase ++ lit "<rp>(</rp><rt>" ++ rubyText ++
  lit "</rt><rp>)</rp></ruby>"

/-- parser.ts `renderRubyWithUnderline`. -/
def renderRubyWithUnderline (base : Str) (rubyText : Str) (rubyOp : RubyOp)
    (style : UnderlineStyle) : Str :=
  let safeBase := unescape base
  let rubyPos := match rubyOp with
    | .over => lit "ls-ruby-over"
    | .under => lit "ls-ruby-under"
  let styles := joinStyles
    [if rubyPos = lit "ls-ruby-under" then STYLE_RUBY_UNDER else [], underlineInlineStyle style]
  lit "<ruby class=\"ls-ruby ls-ruby-mixed " ++ rubyPos ++ lit " " ++ underlineClasses style ++
  lit "\" style=\"" ++ styles ++ lit "\">" ++ safeBase ++ lit "<rp>(</rp><rt>" ++ rubyText ++
  lit "</rt><rp>)</rp></ruby>"

/-- The bouten + underline combination span emitted inline in
`rubyToHTMLPass` (both in the chained case and the pipe-level case). -/
def boutenUnderlineCombo (base : Str) (boutenOp : RubyOp) (style : UnderlineStyle) : Str :=
  let comboStyle := joinStyles [boutenInlineStyle boutenOp, underlineInlineStyle style]
  let pos := match boutenOp with
    | .over => lit "over"
    | .under => lit "under"
  lit "<span class=\"ls-ruby-bouten ls-ruby-bouten-" ++ pos ++ lit " " ++ underlineClasses style ++
  lit "\" style=\"" ++ comboStyle ++ lit "\">" ++ unescape base ++ lit "</span>"

/-- parser.ts `splitBySpaces` (`text.split(/\s+/).filter(Boolean)`): the
maximal runs of non-whitespace characters. -/
def splitBySpacesAux : Str → Str → List Str
  | [], buf => if buf.isEmpty then [] else [buf.reverse]
  | c :: rest, buf =>
      if isJsSpace c then
        if buf.isEmpty then splitBySpacesAux rest []
        else buf.reverse :: splitBySpacesAux rest []
      else splitBySpacesAux rest (c :: buf)

/-- parser.ts `splitBySpaces`. -/
def splitBySpaces (text : Str) : List Str := splitBySpacesAux text []

/-- parser.ts `countCharacters` (`Array.from(text).length`): in the
code-point model this is the list length. -/
def countCharacters (text : Str) : Nat := text.length

/-- parser.ts `shouldHideAnnotation` (a one-character base string
compared with the annotation segment). -/
def shouldHideAnnotation (baseChar : Char) (ann : Str) : Bool :=
  [baseChar] = ann

/-- The per-character rendering loop of the single-aligned branches of
`renderRuby` (used with `innerPos`, `outerPos` or `pos` as in the source). -/
def renderPerChar1 (pos : Str) : List Char → List Str → Str
  | c :: cs, a :: rest =>
      (if shouldHideAnnotation c a then emptyRuby c pos else rubyUnit pos [c] a) ++
      renderPerChar1 pos cs rest
  | _, _ => []

/-- The per-character rendering loop of the both-aligned branch of
`renderRuby`. -/
def renderPerChar2 (innerPos outerPos : Str) : List Char → List Str → List Str → Str
  | c :: cs, a1 :: rest1, a2 :: rest2 =>
      (let hide1 := shouldHideAnnotation c a1
       let hide2 := shouldHideAnnotation c a2
       if hide1 && hide2 then emptyRuby c innerPos
       else if hide1 then rubyUnit outerPos [c] a2
       else if hide2 then rubyUnit innerPos [c] a1
       else doubleWrap outerPos (rubyUnit innerPos [c] a1) a2) ++
      renderPerChar2 innerPos outerPos cs rest1 rest2
  | _, _, _ => []

/-- parser.ts `renderRuby`.  The `[]` case corresponds to the source
falling through to the bottom template with `capped[0]`/`capped[1]`
undefined (JavaScript renders them as the string `"undefined"`); it is
unreachable from the callers, which always pass at least one level. -/
def renderRuby (base : Str) (op : RubyOp) (levels : List Str) : Str :=
  let safeBase := unescape base
  let capped := levels.take 2
  let baseChars := safeBase
  let innerPos := match op with
    | .over => lit "ls-ruby-over"
    | .under => lit "ls-ruby-under"
  let outerPos := match op with
    | .over => lit "ls-ruby-under"
    | .under => lit "ls-ruby-over"
  match capped with
  | [l0, l1] =>
    let ann1Parts : Option (List Str) :=
      if l0.contains ' ' then some (splitBySpaces l0) else none
    let ann2Parts : Option (List Str) :=
      if l1.contains ' ' then some (splitBySpaces l1) else none
    let can1Align := match ann1Parts with
      | some ps => ps.length = baseChars.length
      | none => false
    let can2Align := match ann2Parts with
      | some ps => ps.length = baseChars.length
      | none => false
    if can1Align && can2Align then
      renderPerChar2 innerPos outerPos baseChars (ann1Parts.getD []) (ann2Parts.getD [])
    else if can1Align then
      doubleWrap outerPos (renderPerChar1 innerPos baseChars (ann1Parts.getD [])) l1
    else if can2Align then
      doubleWrap innerPos (renderPerChar1 outerPos baseChars (ann2Parts.getD [])) l0
    else
      doubleWrap outerPos (rubyUnit innerPos safeBase l0) l1
  | [l0] =>
    if l0.contains ' ' && (splitBySpaces l0).length = baseChars.length then
      renderPerChar1 innerPos baseChars (splitBySpaces l0)
    else
      rubyUnit innerPos safeBase l0
  | _ =>
    doubleWrap outerPos (rubyUnit innerPos safeBase (lit "undefined")) (lit "undefined")

/-- The backward bare-token scan of `rubyToHTMLPass` (`let k = opStart - 1;
while …`); returns the resulting `baseStart = k + 1`.  The argument is one
past the index currently examined. -/
def scanBareAux (input : Str) : Nat → Nat
  | 0 => 0
  | k + 1 =>
    match input[k]? with
    | none => scanBareAux input k
    | some ch =>
        if isJsSpace ch then k + 1
        else if (ch = '[' || ch = ']') && !isEscaped input k then k + 1
        else scanBareAux input k

/-- Chained-second-operator detection of `rubyToHTMLPass` (the block
computing `rawAnn2`, `op2`, `finalEnd`): returns `(rawAnn2, op2, finalEnd)`
on success. -/
def chainDetect (input : Str) (op : RubyOp) (next : Nat) : Option (Str × RubyOp × Nat) :=
  if next + 2 < input.length && input[next]? = some '^' &&
     (input[next + 1]? = some '^' || input[next + 1]? = some '_') &&
     input[next + 2]? = some '(' then
    let nextOp : RubyOp :=
      if input[next + 1]? = some '^' then .over else .under
    if nextOp ≠ op then
      match findCloseParen input (next + 3) with
      | some annEnd2 =>
          let cand := slice input (next + 3) annEnd2
          if cand.isEmpty then none else some (cand, nextOp, annEnd2 + 1)
      | none => none
    else none
  else none

/-- The resolve-and-render part of one `rubyToHTMLPass` loop iteration
(parser.ts lines 417-583): everything after a non-empty `rawAnn` has been
extracted.  Returns the chunk appended to `out` and the next scan index. -/
def renderMatch (input : Str) (op : RubyOp) (consumedFrom baseStart annEnd : Nat)
    (baseHtml rawAnn : Str) : Str × Nat :=
  let next := annEnd + 1
  let chain0 := chainDetect input op next
  let finalEnd := match chain0 with
    | some (_, _, e) => e
    | none => annEnd + 1
  let chain : Option (Str × RubyOp) :=
    match chain0 with
    | some (c2, o2, _) =>
        if 1 < (splitByUnescapedPipe rawAnn).length then none else some (c2, o2)
    | none => none
  let rawAnn2 : Option Str := chain.map (fun c => c.1)
  let op2 : Option RubyOp := chain.map (fun c => c.2)
  let isBouten1 := rawAnn = lit ".."
  let isBouten2 := rawAnn2 = some (lit "..")
  let ulStyle1 : Option UnderlineStyle :=
    if op = .under then getUnderlineStyle rawAnn else none
  let ulStyle2 : Option UnderlineStyle :=
    if op2 = some .under then getUnderlineStyle (rawAnn2.getD []) else none
  let isUnderline1 := ulStyle1.isSome
  let isUnderline2 := ulStyle2.isSome
  let isSpecial1 := isBouten1 || isUnderline1
  let isSpecial2 := isBouten2 || isUnderline2
  if isSpecial1 && isSpecial2 then
    let rendered :=
      if (isBouten1 && isUnderline2) || (isUnderline1 && isBouten2) then
        let boutenOp := if isBouten1 then op else op2.getD .over
        let ulSt := if isUnderline1 then ulStyle1.getD .solid else ulStyle2.getD .solid
        boutenUnderlineCombo baseHtml boutenOp ulSt
      else if isBouten1 && isBouten2 then renderBoutenBoth baseHtml
      else renderUnderline baseHtml (ulStyle1.getD .solid)
    (slice input consumedFrom baseStart ++ rendered, finalEnd)
  else if isSpecial1 && rawAnn2.isNone then
    let rendered :=
      if isBouten1 then renderBouten baseHtml op
      else renderUnderline baseHtml (ulStyle1.getD .solid)
    (slice input consumedFrom baseStart ++ rendered, annEnd + 1)
  else if rawAnn2.isSome && (isSpecial1 || isSpecial2) then
    let rendered :=
      if isSpecial1 && !isSpecial2 then
        let rubyText := unescape (rawAnn2.getD [])
        if isBouten1 then
          renderRubyWithBouten baseHtml rubyText (op2.getD .over) op
        else
          renderRubyWithUnderline baseHtml rubyText (op2.getD .over) (ulStyle1.getD .solid)
      else if !isSpecial1 && isSpecial2 then
        let rubyText := unescape rawAnn
        if isBouten2 then
          renderRubyWithBouten baseHtml rubyText op (op2.getD .over)
        else
          renderRubyWithUnderline baseHtml rubyText op (ulStyle2.getD .solid)
      else []
    (slice input consumedFrom baseStart ++ rendered, finalEnd)
  else
    let levels := (splitByUnescapedPipe rawAnn).map unescape ++
      (match rawAnn2 with
       | some r2 => (splitByUnescapedPipe r2).map unescape
       | none => [])
    match levels, rawAnn2 with
    | [lv0, lv1], none =>
      let innerOp := op
      let outerOp := op.flip
      let isInnerBouten := lv0 = lit ".."
      let isOuterBouten := lv1 = lit ".."
      let innerUlStyle : Option UnderlineStyle :=
        if innerOp = .under then getUnderlineStyle lv0 else none
      let outerUlStyle : Option UnderlineStyle :=
        if outerOp = .under then getUnderlineStyle lv1 else none
      let isInnerUnderline := innerUlStyle.isSome
      let isOuterUnderline := outerUlStyle.isSome
      let isInnerSpecial := isInnerBouten || isInnerUnderline
      let isOuterSpecial := isOuterBouten || isOuterUnderline
      if isInnerSpecial || isOuterSpecial then
        let rendered :=
          if isInnerSpecial && isOuterSpecial then
            if isInnerBouten && isOuterBouten then renderBoutenBoth baseHtml
            else if (isInnerBouten || isOuterBouten) &&
                    (isInnerUnderline || isOuterUnderline) then
              let boutenOp := if isInnerBouten then innerOp else outerOp
              let pipeUlStyle :=
                if isInnerUnderline then innerUlStyle.getD .solid
                else outerUlStyle.getD .solid
              boutenUnderlineCombo baseHtml boutenOp pipeUlStyle
            else renderUnderline baseHtml (innerUlStyle.getD .solid)
          else if isInnerSpecial then
            if isInnerBouten then renderRubyWithBouten baseHtml lv1 outerOp innerOp
            else renderRubyWithUnderline baseHtml lv1 outerOp (innerUlStyle.getD .solid)
          else
            if isOuterBouten then renderRubyWithBouten baseHtml lv0 innerOp outerOp
            else renderRubyWithUnderline baseHtml lv0 innerOp (outerUlStyle.getD .solid)
        (slice input consumedFrom baseStart ++ rendered, finalEnd)
      else
        (slice input consumedFrom baseStart ++ renderRuby baseHtml op levels, finalEnd)
    | _, _ =>
      (slice input consumedFrom baseStart ++ renderRuby baseHtml op levels, finalEnd)

/-- parser.ts main scanning loop of `rubyToHTMLPass`.  The fuel bounds the
number of loop iterations; since the scan index strictly increases on every
iteration, `input.length + 1` is always sufficient. -/
def passLoop (input : Str) : Nat → Nat → Str → Str
  | 0, _, out => out
  | fuel + 1, i, out =>
    if i < input.length then
      match findOp input i with
      | none => out ++ slice input i input.length
      | some opStart =>
        let op : RubyOp := if input[opStart + 1]? = some '^' then .over else .under
        let consumedFrom := i
        let bracketBase :=
          decide (0 < opStart) && (input[opStart - 1]? = some ']') &&
          !isEscaped input (opStart - 1)
        let baseInfo : Option (Nat × Str) :=
          if bracketBase then
            match findOpenBracket input (opStart - 1) with
            | some openIdx =>
                if consumedFrom ≤ openIdx then
                  some (openIdx, slice input (openIdx + 1) (opStart - 1))
                else none
            | none => none
          else
            let k := scanBareAux input opStart
            some (k, slice input k opStart)
        match baseInfo with
        | none =>
            passLoop input fuel (opStart + 1) (out ++ slice input i (opStart + 1))
        | some (baseStart, baseHtml) =>
          if baseStart < consumedFrom || baseHtml.isEmpty then
            passLoop input fuel (opStart + 1) (out ++ slice input i (opStart + 1))
          else
            let annStart := opStart + 3
            match findCloseParen input annStart with
            | none => out ++ slice input i input.length
            | some annEnd =>
              let rawAnn := slice input annStart annEnd
              if rawAnn.isEmpty then
                passLoop input fuel (annEnd + 1) (out ++ slice input i (annEnd + 1))
              else
                let step := renderMatch input op consumedFrom baseStart annEnd baseHtml rawAnn
                passLoop input fuel step.2 (out ++ step.1)
    else out

/-- parser.ts `rubyToHTMLPass`. -/
def rubyToHTMLPass (input : Str) : Str :=
  if hasRuby input then passLoop input (input.length + 1) 0 [] else input

/-- The bounded driver loop of parser.ts `rubyToHTML`
(`for (let pass = 0; pass < 5; pass++) …`). -/
def rubyLoop : Nat → Str → Str
  | 0, result => result
  | fuel + 1, result =>
      let next := rubyToHTMLPass result
      if next = result then result
      else if hasRuby next then rubyLoop fuel next
      else next

/-- parser.ts `rubyToHTML`. -/
def rubyToHTML (input : Str) : Str :=
  if hasRuby input then rubyLoop 5 input else input

/-- `k`-fold application of `rubyToHTMLPass`. -/
def passIter : Nat → Str → Str
  | 0, s => s
  | k + 1, s => passIter k (rubyToHTMLPass s)

/-- The driver loop `rubyLoop` runs some number `k ≤ fuel` of passes and
stops early on a fixed point or when no operator occurrence remains. -/
theorem rubyLoop_spec (fuel : Nat) :
    ∀ r : Str, ∃ k, k ≤ fuel ∧ rubyLoop fuel r = passIter k r ∧
      (rubyToHTMLPass (passIter k r) = passIter k r ∨
        hasRuby (passIter k r) = false ∨ k = fuel) := by
  induction fuel with
  | zero =>
      intro r
      exact ⟨0, Nat.le_refl 0, rfl, Or.inr (Or.inr rfl)⟩
  | succ f ih =>
      intro r
      by_cases hfix : rubyToHTMLPass r = r
      · refine ⟨0, Nat.zero_le _, ?_, Or.inl hfix⟩
        simp [rubyLoop, hfix, passIter]
      · by_cases hr : hasRuby (rubyToHTMLPass r) = true
        · obtain ⟨k, hk, heq, hstop⟩ := ih (rubyToHTMLPass r)
          refine ⟨k + 1, Nat.succ_le_succ hk, ?_, ?_⟩
          · simp only [rubyLoop, if_neg hfix, hr, if_pos rfl]
            exact heq
          · rcases hstop with h | h | h
            · exact Or.inl h
            · exact Or.inr (Or.inl h)
            · exact Or.inr (Or.inr (by omega))
        · refine ⟨1, by omega, ?_, Or.inr (Or.inl (by simpa using hr))⟩
          simp only [rubyLoop, if_neg hfix]
          simp only [Bool.not_eq_true] at hr
          simp [hr, passIter]

/-- Claim C9: `rubyToHTML` applies the scan/resolve/render pass at most 5
times over the whole text, stopping early as soon as a pass is a fixed
point or no un-rendered operator occurrence remains; it is a total
function, and when the cap of 5 passes is reached the remaining text is
returned as-is (the result of the 5 passes) rather than an error. -/
theorem claim_C9_bounded_fixpoint (s : Str) :
    ∃ k, k ≤ 5 ∧ rubyToHTML s = passIter k s ∧
      (rubyToHTMLPass (passIter k s) = passIter k s ∨
        hasRuby (passIter k s) = false ∨ k = 5) := by
  by_cases h : hasRuby s = true
  · obtain ⟨k, hk, heq, hstop⟩ := rubyLoop_spec 5 s
    exact ⟨k, hk, by simpa [rubyToHTML, h] using heq, hstop⟩
  · refine ⟨0, Nat.zero_le _, ?_, Or.inr (Or.inl (by simpa using h))⟩
    simp only [Bool.not_eq_true] at h
    simp [rubyToHTML, h, passIter]

/-- Claim C10: if the input contains neither `"^^("` nor `"^_("`, then
`hasRuby` is false and `rubyToHTML` is the identity on it. -/
theorem claim_C10_operator_gate (s : Str)
    (h1 : strContains s (lit "^^(") = false)
    (h2 : strContains s (lit "^_(") = false) :
    hasRuby s = false ∧ rubyToHTML s = s := by
  have hh : hasRuby s = false := by simp [hasRuby, h1, h2]
  exact ⟨hh, by simp [rubyToHTML, hh]⟩

/-- Witness for C10 at a concrete input full of brackets, pipes, escapes
and rendered-looking text but with no operator token. -/
theorem claim_C10_operator_gate_witness :
    hasRuby (lit "[a|b] \\] ^^ ^_ <ruby class=9>x</ruby>") = false ∧
      rubyToHTML (lit "[a|b] \\] ^^ ^_ <ruby class=9>x</ruby>") =
        lit "[a|b] \\] ^^ ^_ <ruby class=9>x</ruby>" :=
  claim_C10_operator_gate _ (by decide) (by decide)

/-- Counterexample for claim C2: the three-way string identity fails; the
under-then-over chain `[a]^_(y)^^(x)` does not render to the same string
as the pipe form `[a]^^(x|y)` (the nesting follows the first operator). -/
theorem claim_C2_counterexample :
    rubyToHTML (lit "[a]^_(y)^^(x)") ≠ rubyToHTML (lit "[a]^^(x|y)") := by decide

/-- Counterexample for claim C4: in `[a]^^(x)^^(y)` the second same-kind
operator does not yield an independent single-level output; the first
annotation's single-level ruby output does not even survive as a
substring of the final result. -/
theorem claim_C4_counterexample :
    strContains (rubyToHTML (lit "[a]^^(x)^^(y)"))
      (lit "<ruby class=\"ls-ruby ls-ruby-over\">a<rp>(</rp><rt>x</rt><rp>)</rp></ruby>") =
      false := by decide

/-- Claim C4 as amended: a second operator of the same kind is indeed
never chained (no `ls-ruby-double` marker appears), but the two matches
are not independent: at `[a]^^(x)^^(y)` the second operator is passed
through in the first pass and, in the second pass, captures part of the
already-rendered HTML as a bare-token base, producing the interleaved
output shown (the first pass's opening tag is split). -/
theorem claim_C4_same_op_not_chained :
    rubyToHTML (lit "[a]^^(x)^^(y)") =
      lit "<ruby class=\"ls-ruby <ruby class=\"ls-ruby ls-ruby-over\">ls-ruby-over\">a<rp>(</rp><rt>x</rt><rp>)</rp></ruby><rp>(</rp><rt>y</rt><rp>)</rp></ruby>" ∧
    strContains (rubyToHTML (lit "[a]^^(x)^^(y)")) (lit "ls-ruby-double") = false := by
  exact ⟨by decide, by decide⟩

/-- Counterexample for claim C5: with an unterminated content run on the
first line, the later well-formed annotation `[b]^^(y)` on the following
line is *not* rendered — the whole input is returned unchanged, with no
ruby element in the output. -/
theorem claim_C5_counterexample :
    rubyToHTML (lit "[a]^^(x\n[b]^^(y)") = lit "[a]^^(x\n[b]^^(y)" ∧
      strContains (rubyToHTML (lit "[a]^^(x\n[b]^^(y)")) (lit "<ruby") = false := by
  exact ⟨by decide, by decide⟩

/-- Counterexample for claim C6: the per-character alignment gate tests
for a space character only (`includes(" ")`), not for arbitrary
whitespace.  With base `ab` (2 characters) and annotation `x\ty`
(whitespace-split into exactly 2 segments) the code still emits a single
group-annotated unit. -/
theorem claim_C6_counterexample :
    (splitBySpaces (lit "x\ty")).length = (lit "ab").length ∧
      rubyToHTML (lit "[ab]^^(x\ty)") =
        lit "<ruby class=\"ls-ruby ls-ruby-over\">ab<rp>(</rp><rt>x\ty</rt><rp>)</rp></ruby>" := by
  exact ⟨by decide, by decide⟩

/-! ## Basic lemmas about the string model -/

theorem slice_all (input : Str) : slice input 0 input.length = input := by
  simp [slice]

theorem slice_mid (u v w : Str) :
    slice (u ++ v ++ w) u.length (u.length + v.length) = v := by
  simp [slice, List.take_append]

theorem isEscaped_zero (input : Str) : isEscaped input 0 = false := by
  simp [isEscaped, countBackslashes]

theorem isEscaped_of_prev {input : Str} {j : Nat} (h : input[j]? ≠ some '\\') :
    isEscaped input (j + 1) = false := by
  simp [isEscaped, countBackslashes, h]

theorem strContains_iff (hay needle : Str) :
    strContains hay needle = true ↔ needle <:+: hay := by
  induction hay with
  | nil =>
      rw [strContains]
      simp [List.isPrefixOf_iff_prefix]
  | cons c t ih =>
      rw [strContains]
      simp only [Bool.or_eq_true, List.isPrefixOf_iff_prefix, ih, List.infix_cons_iff]

theorem strContains_false_of_not_mem {hay needle : Str} {c : Char}
    (hc : c ∈ needle) (h : c ∉ hay) : strContains hay needle = false := by
  rw [← Bool.not_eq_true, strContains_iff]
  intro hinf
  exact h (hinf.sublist.mem hc)

/-- If a rendered result contains no caret then `hasRuby` is false on it. -/
theorem hasRuby_false_of_no_caret {s : Str} (h : '^' ∉ s) : hasRuby s = false := by
  unfold hasRuby
  rw [strContains_false_of_not_mem (by decide : '^' ∈ lit "^^(") h,
    strContains_false_of_not_mem (by decide : '^' ∈ lit "^_(") h]
  rfl

theorem passLoop_done (input : Str) (fuel i : Nat) (out : Str)
    (h : input.length ≤ i) : passLoop input fuel i out = out := by
  cases fuel with
  | zero => rfl
  | succ f => simp [passLoop, Nat.not_lt.mpr h]

/-- If a single pass turns `input` (which has operator occurrences) into
`R` (which has none), the driver returns `R`. -/
theorem rubyToHTML_of_single_pass {input R : Str}
    (hpass : rubyToHTMLPass input = R) (hin : hasRuby input = true)
    (hout : hasRuby R = false) : rubyToHTML input = R := by
  have hne : ¬(R = input) := by
    intro h
    rw [h] at hout
    rw [hout] at hin
    exact Bool.false_ne_true hin
  rw [rubyToHTML, if_pos hin]
  show rubyLoop 5 input = R
  rw [rubyLoop, hpass]
  simp [hne, hout]

theorem unescape_eq_self : ∀ {s : Str}, '\\' ∉ s → unescape s = s := by
  intro s
  induction s using unescape.induct with
  | case1 => intro _; rfl
  | case2 c => intro _; rfl
  | case3 c1 c2 rest hcond ih =>
      intro h
      rw [unescape, if_pos hcond]
      exact absurd (show ('\\' : Char) ∈ c1 :: c2 :: rest from by
        rcases Bool.and_eq_true .. |>.mp hcond with ⟨h1, _⟩
        simp only [decide_eq_true_eq] at h1
        exact h1 ▸ List.mem_cons_self _ _) h
  | case4 c1 c2 rest hcond ih =>
      intro h
      rw [unescape, if_neg (by rwa [Bool.not_eq_true] at hcond ⊢)]
      have : '\\' ∉ c2 :: rest := fun hm => h (List.mem_cons_of_mem _ hm)
      rw [ih this]

theorem mem_unescape {c : Char} : ∀ {s : Str}, c ∈ unescape s → c ∈ s := by
  intro s
  induction s using unescape.induct with
  | case1 => intro h; exact h
  | case2 d => intro h; exact h
  | case3 c1 c2 rest hcond ih =>
      rw [unescape, if_pos hcond]
      intro h
      rcases List.mem_cons.mp h with h | h
      · exact h ▸ List.mem_cons_of_mem _ (List.mem_cons_self _ _)
      · exact List.mem_cons_of_mem _ (List.mem_cons_of_mem _ (ih h))
  | case4 c1 c2 rest hcond ih =>
      rw [unescape, if_neg (by rwa [Bool.not_eq_true] at hcond ⊢)]
      intro h
      rcases List.mem_cons.mp h with h | h
      · exact h ▸ List.mem_cons_self _ _
      · exact List.mem_cons_of_mem _ (ih h)


/-! ## Positional lemmas for the shape-based scanner proofs -/

theorem ge_at (u v : Str) (k : Nat) : (u ++ v)[u.length + k]? = v[k]? := by
  rw [List.getElem?_append_right (Nat.le_add_right _ _)]
  simp

theorem ge_at0 (u v : Str) : (u ++ v)[u.length]? = v[0]? := by
  simpa using ge_at u v 0

theorem ge_left {u : Str} (v : Str) {k : Nat} (h : k < u.length) :
    (u ++ v)[k]? = u[k]? := by
  simp [List.getElem?_append, h]

theorem mem_of_ge {u : Str} {k : Nat} {c : Char} (h : u[k]? = some c) : c ∈ u :=
  List.getElem?_mem h

/-- If the character at `j` is not a caret, no operator token matches there. -/
theorem isOpAt_false_of_no_caret {input : Str} {j : Nat}
    (h : input[j]? ≠ some '^') : isOpAt input j = false := by
  simp [isOpAt, h]

theorem findOpAux_skip (input : Str) :
    ∀ (n : Nat) (f i : Nat), (∀ k, k < n → isOpAt input (i + k) = false) →
      findOpAux input (n + f) i = findOpAux input f (i + n) := by
  intro n
  induction n with
  | zero => intro f i _; simp
  | succ n ih =>
      intro f i h
      have hstep : findOpAux input (n + f + 1) i = findOpAux input (n + f) (i + 1) := by
        rw [findOpAux, if_neg]
        simp [show isOpAt input (i + 0) = false from h 0 (Nat.succ_pos n)] at *
        simpa using h 0 (Nat.succ_pos n)
      calc findOpAux input (n + 1 + f) i = findOpAux input (n + f + 1) i := by ring_nf
    _ = findOpAux input (n + f) (i + 1) := hstep
    _ = findOpAux input f (i + 1 + n) := ih f (i + 1) (fun k hk => by
          have := h (k + 1) (Nat.succ_lt_succ hk)
          simpa [Nat.add_assoc, Nat.add_comm 1 k] using this)
    _ = findOpAux input f (i + (n + 1)) := by ring_nf

theorem findOpAux_hit (input : Str) (f i : Nat) (h : isOpAt input i = true) :
    findOpAux input (f + 1) i = some i := by
  rw [findOpAux, if_pos h]

theorem findCloseParenAux_skip (input : Str) :
    ∀ (n : Nat) (f i : Nat),
      (∀ k, k < n → ∃ c, input[i + k]? = some c ∧ c ≠ '\n' ∧ c ≠ '\r' ∧ c ≠ ')') →
      findCloseParenAux input (n + f) i = findCloseParenAux input f (i + n) := by
  intro n
  induction n with
  | zero => intro f i _; simp
  | succ n ih =>
      intro f i h
      obtain ⟨c, hc, h1, h2, h3⟩ := h 0 (Nat.succ_pos n)
      rw [Nat.add_zero] at hc
      have hstep : findCloseParenAux input (n + f + 1) i =
          findCloseParenAux input (n + f) (i + 1) := by
        rw [findCloseParenAux, hc]
        simp [h1, h2, h3]
      calc findCloseParenAux input (n + 1 + f) i
          = findCloseParenAux input (n + f + 1) i := by ring_nf
    _ = findCloseParenAux input (n + f) (i + 1) := hstep
    _ = findCloseParenAux input f (i + 1 + n) := ih f (i + 1) (fun k hk => by
          have := h (k + 1) (Nat.succ_lt_succ hk)
          simpa [Nat.add_assoc, Nat.add_comm 1 k] using this)
    _ = findCloseParenAux input f (i + (n + 1)) := by ring_nf

theorem findCloseParenAux_hit (input : Str) (f i : Nat)
    (h : input[i]? = some ')') (he : isEscaped input i = false) :
    findCloseParenAux input (f + 1) i = some i := by
  rw [findCloseParenAux, h]
  simp [he]

theorem findCloseParenAux_nl (input : Str) (f i : Nat)
    (h : input[i]? = some '\n') :
    findCloseParenAux input (f + 1) i = none := by
  rw [findCloseParenAux, h]
  simp

theorem findOpenBracketAux_skip (input : Str) :
    ∀ (n : Nat) (m : Nat),
      (∀ k, k < n → ∃ c, input[m + k]? = some c ∧ c ≠ '[' ∧ c ≠ '\n' ∧ c ≠ '\r') →
      findOpenBracketAux input (m + n) = findOpenBracketAux input m := by
  intro n
  induction n with
  | zero => intro m _; rfl
  | succ n ih =>
      intro m h
      obtain ⟨c, hc, h1, h2, h3⟩ := h n (Nat.lt_succ_self n)
      have hstep : findOpenBracketAux input (m + n + 1) = findOpenBracketAux input (m + n) := by
        rw [findOpenBracketAux, hc]
        simp [h1, h2, h3]
      calc findOpenBracketAux input (m + (n + 1))
          = findOpenBracketAux input (m + n + 1) := by ring_nf
    _ = findOpenBracketAux input (m + n) := hstep
    _ = findOpenBracketAux input m := ih m (fun k hk => h k (Nat.lt_succ_of_lt hk))

theorem findOpenBracketAux_hit (input : Str) (m : Nat)
    (h : input[m]? = some '[') (he : isEscaped input m = false) :
    findOpenBracketAux input (m + 1) = some m := by
  rw [findOpenBracketAux, h]
  simp [he]


/-! ## Lemmas about `splitByUnescapedPipe` -/

theorem splitAux_no_pipe (s : Str) :
    ∀ (fuel i : Nat) (buf : Str), s.length ≤ i + fuel →
      (∀ k, i ≤ k → s[k]? ≠ some '|') →
      splitByUnescapedPipeAux s fuel i buf = [buf.reverse ++ s.drop i] := by
  intro fuel
  induction fuel with
  | zero =>
      intro i buf hf _
      rw [splitByUnescapedPipeAux]
      rw [List.drop_eq_nil_of_le (by omega), List.append_nil]
  | succ f ih =>
      intro i buf hf hnp
      rw [splitByUnescapedPipeAux]
      cases hc : s[i]? with
      | none =>
          have : s.length ≤ i := by
            by_contra hlt
            rw [List.getElem?_eq_getElem (Nat.lt_of_not_le hlt)] at hc
            exact Option.noConfusion hc
          rw [List.drop_eq_nil_of_le this, List.append_nil]
      | some c =>
          have hip : c ≠ '|' := fun h => hnp i (Nat.le_refl i) (h ▸ hc)
          have hlt : i < s.length := by
            by_contra hge
            rw [List.getElem?_eq_none (Nat.le_of_not_lt hge)] at hc
            exact Option.noConfusion hc
          simp only [hip, decide_False, Bool.false_and, Bool.and_false, if_neg Bool.false_ne_true]
          rw [ih (i + 1) (c :: buf) (by omega) (fun k hk => hnp k (by omega))]
          rw [List.drop_eq_getElem_cons hlt]
          have : s[i] = c := by
            rw [List.getElem?_eq_getElem hlt] at hc
            exact Option.some.inj hc
          simp [this]

theorem splitByUnescapedPipe_no_pipe {x : Str} (h : '|' ∉ x) :
    splitByUnescapedPipe x = [x] := by
  rw [splitByUnescapedPipe, splitAux_no_pipe x x.length 0 [] (by omega)
    (fun k _ hk => h (mem_of_ge hk))]
  simp

theorem splitByUnescapedPipe_one_pipe {x y : Str}
    (hx : '|' ∉ x) (hy : '|' ∉ y) (hbs : '\\' ∉ x) :
    splitByUnescapedPipe (x ++ '|' :: y) = [x, y] := by
  set s := x ++ '|' :: y with hs
  have hlen : s.length = x.length + 1 + y.length := by
    simp only [hs, List.length_append, List.length_cons]
    omega
  have key : ∀ n m buf, m + n = x.length →
      splitByUnescapedPipeAux s (s.length - m) m buf = [buf.reverse ++ x.drop m, y] := by
    intro n
    induction n with
    | zero =>
        intro m buf hm
        rw [Nat.add_zero] at hm
        subst hm
        have hpipe : s[x.length]? = some '|' := by
          rw [hs, ge_at0]
          simp
        have hesc : isEscaped s x.length = false := by
          cases hxe : x.length with
          | zero => exact isEscaped_zero s
          | succ j =>
              apply isEscaped_of_prev
              have hj : j < x.length := by omega
              rw [hs, ge_left _ (by omega)]
              intro hbad
              exact hbs (mem_of_ge hbad)
        have hfuel : s.length - x.length = (s.length - x.length - 1) + 1 := by omega
        rw [hfuel, splitByUnescapedPipeAux, hpipe]
        simp only [hesc, decide_True, Bool.not_false, Bool.and_true, if_pos rfl]
        rw [splitAux_no_pipe s (s.length - x.length - 1) (x.length + 1) [] (by omega)
          (fun k hk => by
            rw [hs, show k = (x ++ ['|']).length + (k - x.length - 1) by simp; omega]
            rw [show x ++ '|' :: y = (x ++ ['|']) ++ y by simp, ge_at]
            intro hbad
            exact hy (mem_of_ge hbad))]
        rw [List.drop_eq_nil_of_le (Nat.le_refl _), List.append_nil]
        have : s.drop (x.length + 1) = y := by
          rw [hs, show x ++ '|' :: y = (x ++ ['|']) ++ y by simp]
          rw [show x.length + 1 = (x ++ ['|']).length by simp]
          simp
        simp [this]
    | succ n ih =>
        intro m buf hm
        have hmx : m < x.length := by omega
        have hc : s[m]? = some x[m] := by
          rw [hs, ge_left _ hmx, List.getElem?_eq_getElem hmx]
        have hcp : x[m] ≠ '|' := fun h => hx (h ▸ List.getElem_mem hmx)
        have hfuel : s.length - m = (s.length - m - 1) + 1 := by
          rw [hlen]; omega
        rw [hfuel, splitByUnescapedPipeAux, hc]
        simp only [hcp, decide_False, Bool.false_and, Bool.and_false,
          if_neg Bool.false_ne_true]
        have : s.length - m - 1 = s.length - (m + 1) := by omega
        rw [this, ih (m + 1) (x[m] :: buf) (by omega)]
        rw [List.drop_eq_getElem_cons hmx]
        simp
  have hk := key x.length 0 [] (by omega)
  rw [Nat.sub_zero] at hk
  rw [splitByUnescapedPipe, hk]
  simp


/-! ## Shaped inputs -/

/-- The second character of an operator token. -/
def opChar : RubyOp → Char
  | .over => '^'
  | .under => '_'

/-- The two-character operator token (`"^^"` / `"^_"`). -/
def opTok (op : RubyOp) : Str := '^' :: [opChar op]

/-- `[a]` followed by one operator, an opening paren and a tail:
`"[" ++ a ++ "]" ++ op ++ "(" ++ t`. -/
def markupCore (a : Str) (op : RubyOp) (t : Str) : Str :=
  '[' :: a ++ ']' :: '^' :: opChar op :: '(' :: t

/-- A character allowed in a bracketed base span for the shape lemmas:
anything except the structural characters of the syntax. -/
def plainBaseChar (c : Char) : Bool :=
  !(c = '^' || c = '[' || c = ']' || c = '\\' || c = '\n' || c = '\r')

/-- A non-empty base span of plain characters. -/
def plainBase (a : Str) : Bool := !a.isEmpty && a.all plainBaseChar

/-- A character allowed in an annotation content run for the shape
lemmas: anything except characters that terminate or escape the run,
split it, or start an operator. -/
def plainContentChar (c : Char) : Bool :=
  !(c = '^' || c = ')' || c = '|' || c = '\\' || c = '\n' || c = '\r')

/-- A non-empty content run of plain characters. -/
def plainContent (x : Str) : Bool := !x.isEmpty && x.all plainContentChar

/-- An "ordinary" annotation text: plain content that is not the bouten
marker and not one of the underline markers. -/
def ordinaryAnn (x : Str) : Bool :=
  plainContent x && !decide (x = lit "..") && !(getUnderlineStyle x).isSome

theorem plainBase_nonempty {a : Str} (h : plainBase a = true) : a ≠ [] := by
  rcases Bool.and_eq_true .. |>.mp h with ⟨h1, _⟩
  simpa using h1

theorem plainBase_mem {a : Str} (h : plainBase a = true) {c : Char} (hc : c ∈ a) :
    c ≠ '^' ∧ c ≠ '[' ∧ c ≠ ']' ∧ c ≠ '\\' ∧ c ≠ '\n' ∧ c ≠ '\r' := by
  rcases Bool.and_eq_true .. |>.mp h with ⟨_, h2⟩
  have := List.all_eq_true.mp h2 c hc
  simp only [plainBaseChar, Bool.not_eq_true'] at this
  simp only [Bool.or_eq_false_iff] at this
  obtain ⟨⟨⟨⟨⟨t1, t2⟩, t3⟩, t4⟩, t5⟩, t6⟩ := this
  exact ⟨of_decide_eq_false t1, of_decide_eq_false t2, of_decide_eq_false t3,
    of_decide_eq_false t4, of_decide_eq_false t5, of_decide_eq_false t6⟩

theorem plainContent_nonempty {x : Str} (h : plainContent x = true) : x ≠ [] := by
  rcases Bool.and_eq_true .. |>.mp h with ⟨h1, _⟩
  simpa using h1

theorem plainContent_mem {x : Str} (h : plainContent x = true) {c : Char} (hc : c ∈ x) :
    c ≠ '^' ∧ c ≠ ')' ∧ c ≠ '|' ∧ c ≠ '\\' ∧ c ≠ '\n' ∧ c ≠ '\r' := by
  rcases Bool.and_eq_true .. |>.mp h with ⟨_, h2⟩
  have := List.all_eq_true.mp h2 c hc
  simp only [plainContentChar, Bool.not_eq_true'] at this
  simp only [Bool.or_eq_false_iff] at this
  obtain ⟨⟨⟨⟨⟨t1, t2⟩, t3⟩, t4⟩, t5⟩, t6⟩ := this
  exact ⟨of_decide_eq_false t1, of_decide_eq_false t2, of_decide_eq_false t3,
    of_decide_eq_false t4, of_decide_eq_false t5, of_decide_eq_false t6⟩


/-! ## Positional facts about `markupCore` -/

theorem mc_eq (a : Str) (op : RubyOp) (t : Str) :
    markupCore a op t = ('[' :: a) ++ (']' :: '^' :: opChar op :: '(' :: t) := by
  simp [markupCore]

theorem mc_len (a : Str) (op : RubyOp) (t : Str) :
    (markupCore a op t).length = a.length + 5 + t.length := by
  simp [markupCore]
  omega

theorem mc_at (a : Str) (op : RubyOp) (t : Str) (k : Nat) :
    (markupCore a op t)[a.length + 1 + k]? = (']' :: '^' :: opChar op :: '(' :: t)[k]? := by
  rw [mc_eq]
  have : a.length + 1 + k = ('[' :: a).length + k := by simp
  rw [this, ge_at]

theorem mc_rb (a : Str) (op : RubyOp) (t : Str) :
    (markupCore a op t)[a.length + 1]? = some ']' := by
  simpa using mc_at a op t 0

theorem mc_c1 (a : Str) (op : RubyOp) (t : Str) :
    (markupCore a op t)[a.length + 2]? = some '^' := by
  have := mc_at a op t 1
  simpa [Nat.add_assoc] using this

theorem mc_c2 (a : Str) (op : RubyOp) (t : Str) :
    (markupCore a op t)[a.length + 3]? = some (opChar op) := by
  have := mc_at a op t 2
  simpa [Nat.add_assoc] using this

theorem mc_lp (a : Str) (op : RubyOp) (t : Str) :
    (markupCore a op t)[a.length + 4]? = some '(' := by
  have := mc_at a op t 3
  simpa [Nat.add_assoc] using this

theorem ge_cons4 (c1 c2 c3 c4 : Char) (t : Str) (k : Nat) :
    (c1 :: c2 :: c3 :: c4 :: t)[4 + k]? = t[k]? := by
  have := ge_at [c1, c2, c3, c4] t k
  simpa using this

theorem mc_t (a : Str) (op : RubyOp) (t : Str) (k : Nat) :
    (markupCore a op t)[a.length + 5 + k]? = t[k]? := by
  have := mc_at a op t (4 + k)
  rw [ge_cons4] at this
  rw [show a.length + 1 + (4 + k) = a.length + 5 + k by omega] at this
  exact this

theorem mc_pre (a : Str) (op : RubyOp) (t : Str) {k : Nat} (hk : k < a.length + 1) :
    (markupCore a op t)[k]? = ('[' :: a)[k]? := by
  rw [mc_eq]
  exact ge_left _ (by simpa using hk)

theorem mc_zero (a : Str) (op : RubyOp) (t : Str) :
    (markupCore a op t)[0]? = some '[' := by
  rw [mc_pre a op t (Nat.succ_pos _)]
  simp

theorem mc_no_caret_pre {a : Str} (op : RubyOp) (t : Str)
    (ha : plainBase a = true) {k : Nat} (hk : k < a.length + 2) :
    (markupCore a op t)[k]? ≠ some '^' := by
  rcases Nat.lt_or_ge k (a.length + 1) with h | h
  · rw [mc_pre a op t h]
    cases k with
    | zero => simp
    | succ j =>
        intro hc
        have hj : j < a.length := by omega
        have : a[j]? = some '^' := by simpa using hc
        exact (plainBase_mem ha (mem_of_ge this)).1 rfl
  · have hk1 : k = a.length + 1 := by omega
    rw [hk1, mc_rb]
    simp

theorem mc_esc_rb {a : Str} (op : RubyOp) (t : Str) (ha : plainBase a = true) :
    isEscaped (markupCore a op t) (a.length + 1) = false := by
  cases hA : a.length with
  | zero => exact absurd (List.length_eq_zero.mp hA) (plainBase_nonempty ha)
  | succ j =>
      apply isEscaped_of_prev
      rw [mc_pre a op t (by omega)]
      rw [List.getElem?_cons_succ]
      intro hc
      exact (plainBase_mem ha (mem_of_ge hc)).2.2.2.1 rfl

theorem mc_findOpen {a : Str} (op : RubyOp) (t : Str) (ha : plainBase a = true) :
    findOpenBracket (markupCore a op t) (a.length + 1) = some 0 := by
  rw [findOpenBracket]
  have hskip : findOpenBracketAux (markupCore a op t) (1 + a.length) =
      findOpenBracketAux (markupCore a op t) 1 := by
    apply findOpenBracketAux_skip
    intro k hk
    refine ⟨a[k], ?_, ?_, ?_, ?_⟩
    · rw [show (1 : Nat) + k = k + 1 by omega, mc_pre a op t (by omega)]
      simpa using List.getElem?_eq_getElem hk
    · exact (plainBase_mem ha (List.getElem_mem hk)).2.1
    · exact (plainBase_mem ha (List.getElem_mem hk)).2.2.2.2.1
    · exact (plainBase_mem ha (List.getElem_mem hk)).2.2.2.2.2
  rw [show a.length + 1 = 1 + a.length by omega, hskip]
  exact findOpenBracketAux_hit _ 0 (mc_zero a op t) (isEscaped_zero _)

theorem mc_findOp {a : Str} (op : RubyOp) (t : Str) (ha : plainBase a = true) :
    findOp (markupCore a op t) 0 = some (a.length + 2) := by
  rw [findOp, Nat.sub_zero, mc_len]
  have hskip : findOpAux (markupCore a op t) ((a.length + 2) + (t.length + 3)) 0 =
      findOpAux (markupCore a op t) (t.length + 3) (0 + (a.length + 2)) := by
    apply findOpAux_skip
    intro k hk
    rw [Nat.zero_add]
    exact isOpAt_false_of_no_caret (mc_no_caret_pre op t ha hk)
  rw [show a.length + 5 + t.length = (a.length + 2) + (t.length + 3) by omega, hskip]
  rw [Nat.zero_add, show t.length + 3 = (t.length + 2) + 1 by omega]
  apply findOpAux_hit
  simp only [isOpAt, show a.length + 2 + 1 = a.length + 3 from by omega,
    show a.length + 2 + 2 = a.length + 4 from by omega, mc_c1, mc_c2, mc_lp]
  cases op <;> simp [opChar]

theorem mc_base_slice (a : Str) (op : RubyOp) (t : Str) :
    slice (markupCore a op t) 1 (a.length + 1) = a := by
  have h : markupCore a op t = ['['] ++ a ++ (']' :: '^' :: opChar op :: '(' :: t) := by
    simp [markupCore]
  rw [h]
  have := slice_mid ['['] a (']' :: '^' :: opChar op :: '(' :: t)
  simpa [Nat.add_comm] using this

theorem hasRuby_mc (a : Str) (op : RubyOp) (t : Str) :
    hasRuby (markupCore a op t) = true := by
  have hinf : ('^' :: opChar op :: ['(']) <:+: markupCore a op t :=
    ⟨'[' :: a ++ [']'], t, by simp [markupCore]⟩
  cases op with
  | over =>
      have : strContains (markupCore a .over t) (lit "^^(") = true :=
        (strContains_iff _ _).mpr (by simpa [opChar, lit] using hinf)
      simp [hasRuby, this]
  | under =>
      have : strContains (markupCore a .under t) (lit "^_(") = true :=
        (strContains_iff _ _).mpr (by simpa [opChar, lit] using hinf)
      simp [hasRuby, this]


/-! ## Loop-entry lemmas for shaped inputs -/

theorem mc_opsel (a : Str) (op : RubyOp) (t : Str) :
    (if (markupCore a op t)[a.length + 2 + 1]? = some '^' then RubyOp.over
     else RubyOp.under) = op := by
  rw [show a.length + 2 + 1 = a.length + 3 by omega, mc_c2]
  cases op <;> simp [opChar]

theorem mc_findClose (a : Str) (op : RubyOp) (x r : Str)
    (hx : x ≠ [])
    (hxc : ∀ c ∈ x, c ≠ ')' ∧ c ≠ '\n' ∧ c ≠ '\r' ∧ c ≠ '\\') :
    findCloseParen (markupCore a op (x ++ ')' :: r)) (a.length + 5) =
      some (a.length + 5 + x.length) := by
  rw [findCloseParen, mc_len]
  have hlen : a.length + 5 + (x ++ ')' :: r).length - (a.length + 5) =
      x.length + (r.length + 1) := by
    simp only [List.length_append, List.length_cons]
    omega
  rw [hlen]
  have hskip : findCloseParenAux (markupCore a op (x ++ ')' :: r))
        (x.length + (r.length + 1)) (a.length + 5) =
      findCloseParenAux (markupCore a op (x ++ ')' :: r))
        (r.length + 1) (a.length + 5 + x.length) := by
    apply findCloseParenAux_skip
    intro k hk
    refine ⟨x[k], ?_, ?_, ?_, ?_⟩
    · rw [mc_t, ge_left _ hk]
      simpa using List.getElem?_eq_getElem hk
    · exact (hxc x[k] (List.getElem_mem hk)).2.1
    · exact (hxc x[k] (List.getElem_mem hk)).2.2.1
    · exact (hxc x[k] (List.getElem_mem hk)).1
  rw [hskip]
  apply findCloseParenAux_hit
  · rw [mc_t, ge_at0]
    simp
  · cases hX : x.length with
    | zero => exact absurd (List.length_eq_zero.mp hX) hx
    | succ j =>
        rw [show a.length + 5 + (j + 1) = (a.length + 5 + j) + 1 by omega]
        apply isEscaped_of_prev
        rw [mc_t, ge_left _ (by omega)]
        intro hbad
        exact (hxc _ (mem_of_ge hbad)).2.2.2 rfl

theorem mc_ann_slice (a : Str) (op : RubyOp) (x tail : Str) :
    slice (markupCore a op (x ++ tail)) (a.length + 5) (a.length + 5 + x.length) = x := by
  have h : markupCore a op (x ++ tail) =
      ('[' :: a ++ ']' :: '^' :: opChar op :: ['(']) ++ x ++ tail := by
    simp [markupCore]
  rw [h]
  have hl : ('[' :: a ++ ']' :: '^' :: opChar op :: ['(']).length = a.length + 5 := by
    simp only [List.length_cons, List.length_append, List.length_nil]
  have := slice_mid ('[' :: a ++ ']' :: '^' :: opChar op :: ['(']) x tail
  rwa [hl] at this

theorem pass_entry_closed (a x r : Str) (op : RubyOp) (fuel : Nat)
    (ha : plainBase a = true) (hx : x ≠ [])
    (hxc : ∀ c ∈ x, c ≠ ')' ∧ c ≠ '\n' ∧ c ≠ '\r' ∧ c ≠ '\\') :
    passLoop (markupCore a op (x ++ ')' :: r)) (fuel + 1) 0 [] =
      passLoop (markupCore a op (x ++ ')' :: r)) fuel
        (renderMatch (markupCore a op (x ++ ')' :: r)) op 0 0
          (a.length + 5 + x.length) a x).2
        (renderMatch (markupCore a op (x ++ ')' :: r)) op 0 0
          (a.length + 5 + x.length) a x).1 := by
  have hlen0 : 0 < (markupCore a op (x ++ ')' :: r)).length := by
    rw [mc_len]
    omega
  have hfo : findOp (markupCore a op (x ++ ')' :: r)) 0 = some (a.length + 2) :=
    mc_findOp op _ ha
  have haE : a.isEmpty = false := by
    cases a with
    | nil => exact absurd rfl (plainBase_nonempty ha)
    | cons c t => rfl
  have hxE : x.isEmpty = false := by
    cases x with
    | nil => exact absurd rfl hx
    | cons c t => rfl
  conv_lhs => rw [passLoop]
  rw [if_pos hlen0, hfo]
  simp only [show a.length + 2 - 1 = a.length + 1 from by omega,
    show a.length + 2 + 3 = a.length + 5 from by omega,
    mc_opsel a op (x ++ ')' :: r), mc_rb a op (x ++ ')' :: r),
    mc_esc_rb op (x ++ ')' :: r) ha, mc_findOpen op (x ++ ')' :: r) ha,
    mc_base_slice a op (x ++ ')' :: r), haE,
    mc_findClose a op x r hx hxc, mc_ann_slice a op x (')' :: r), hxE]
  simp
  intro h
  exact absurd h (plainBase_nonempty ha)

theorem pass_entry_unterminated (a x r : Str) (op : RubyOp) (fuel : Nat)
    (ha : plainBase a = true)
    (hxc : ∀ c ∈ x, c ≠ ')' ∧ c ≠ '\n' ∧ c ≠ '\r') :
    passLoop (markupCore a op (x ++ '\n' :: r)) (fuel + 1) 0 [] =
      markupCore a op (x ++ '\n' :: r) := by
  have hlen0 : 0 < (markupCore a op (x ++ '\n' :: r)).length := by
    rw [mc_len]
    omega
  have hfo : findOp (markupCore a op (x ++ '\n' :: r)) 0 = some (a.length + 2) :=
    mc_findOp op _ ha
  have haE : a.isEmpty = false := by
    cases a with
    | nil => exact absurd rfl (plainBase_nonempty ha)
    | cons c t => rfl
  have hfcp : findCloseParen (markupCore a op (x ++ '\n' :: r)) (a.length + 5) = none := by
    rw [findCloseParen, mc_len]
    have hlen : a.length + 5 + (x ++ '\n' :: r).length - (a.length + 5) =
        x.length + (r.length + 1) := by
      simp only [List.length_append, List.length_cons]
      omega
    rw [hlen]
    have hskip : findCloseParenAux (markupCore a op (x ++ '\n' :: r))
          (x.length + (r.length + 1)) (a.length + 5) =
        findCloseParenAux (markupCore a op (x ++ '\n' :: r))
          (r.length + 1) (a.length + 5 + x.length) := by
      apply findCloseParenAux_skip
      intro k hk
      refine ⟨x[k], ?_, ?_, ?_, ?_⟩
      · rw [mc_t, ge_left _ hk]
        simpa using List.getElem?_eq_getElem hk
      · exact (hxc x[k] (List.getElem_mem hk)).2.1
      · exact (hxc x[k] (List.getElem_mem hk)).2.2
      · exact (hxc x[k] (List.getElem_mem hk)).1
    rw [hskip]
    apply findCloseParenAux_nl
    rw [mc_t, ge_at0]
    simp
  conv_lhs => rw [passLoop]
  rw [if_pos hlen0, hfo]
  simp only [show a.length + 2 - 1 = a.length + 1 from by omega,
    show a.length + 2 + 3 = a.length + 5 from by omega,
    mc_opsel a op (x ++ '\n' :: r), mc_rb a op (x ++ '\n' :: r),
    mc_esc_rb op (x ++ '\n' :: r) ha, mc_findOpen op (x ++ '\n' :: r) ha,
    mc_base_slice a op (x ++ '\n' :: r), haE, hfcp]
  simp [slice_all]
  intro h
  exact absurd h (plainBase_nonempty ha)


/-! ## Caret-absence lemmas for rendered output -/

theorem no_caret_append {u v : Str} (hu : '^' ∉ u) (hv : '^' ∉ v) : '^' ∉ u ++ v := by
  intro h
  rcases List.mem_append.mp h with h | h
  · exact hu h
  · exact hv h

theorem no_caret_lit_rubyPosAttr (pos : Str) : '^' ∉ rubyPosAttr pos := by
  rw [rubyPosAttr]
  split
  · decide
  · simp

theorem no_caret_rubyUnit {pos content ann : Str}
    (h1 : '^' ∉ pos) (h2 : '^' ∉ content) (h3 : '^' ∉ ann) : '^' ∉ rubyUnit pos content ann := by
  intro hmem
  simp only [rubyUnit, List.mem_append] at hmem
  rcases hmem with ((((((((h | h) | h) | h) | h) | h) | h) | h) | h)
  · exact absurd h (by decide)
  · exact h1 h
  · exact absurd h (by decide)
  · exact no_caret_lit_rubyPosAttr pos h
  · exact absurd h (by decide)
  · exact h2 h
  · exact absurd h (by decide)
  · exact h3 h
  · exact absurd h (by decide)

theorem no_caret_doubleWrap {outerPos innerHtml outerAnn : Str}
    (h1 : '^' ∉ outerPos) (h2 : '^' ∉ innerHtml) (h3 : '^' ∉ outerAnn) :
    '^' ∉ doubleWrap outerPos innerHtml outerAnn := by
  intro hmem
  simp only [doubleWrap, List.mem_append] at hmem
  rcases hmem with ((((((((h | h) | h) | h) | h) | h) | h) | h) | h)
  · exact absurd h (by decide)
  · exact h1 h
  · exact absurd h (by decide)
  · exact no_caret_lit_rubyPosAttr outerPos h
  · exact absurd h (by decide)
  · exact h2 h
  · exact absurd h (by decide)
  · exact h3 h
  · exact absurd h (by decide)

theorem no_caret_pos (op : RubyOp) :
    '^' ∉ (match op with
           | RubyOp.over => lit "ls-ruby-over"
           | RubyOp.under => lit "ls-ruby-under") := by
  cases op <;> decide

theorem renderPerChar1_nil_left (pos : Str) (anns : List Str) :
    renderPerChar1 pos [] anns = [] := by
  cases anns <;> rfl

theorem renderPerChar1_nil_right (pos : Str) (c : Char) (cs : List Char) :
    renderPerChar1 pos (c :: cs) [] = [] := rfl

theorem renderPerChar2_nil_left (i o : Str) (a1 a2 : List Str) :
    renderPerChar2 i o [] a1 a2 = [] := by
  cases a1 <;> cases a2 <;> rfl

theorem renderPerChar2_nil_mid (i o : Str) (c : Char) (cs : List Char) (a2 : List Str) :
    renderPerChar2 i o (c :: cs) [] a2 = [] := by
  cases a2 <;> rfl

theorem renderPerChar2_nil_right (i o : Str) (c : Char) (cs : List Char)
    (a1 : Str) (r1 : List Str) :
    renderPerChar2 i o (c :: cs) (a1 :: r1) [] = [] := rfl

theorem mem_splitBySpacesAux {c : Char} :
    ∀ {s buf : Str} {seg : Str}, seg ∈ splitBySpacesAux s buf → c ∈ seg → c ∈ s ∨ c ∈ buf := by
  intro s
  induction s with
  | nil =>
      intro buf seg hseg hc
      rw [splitBySpacesAux] at hseg
      split at hseg
      · simp at hseg
      · rw [List.mem_singleton] at hseg
        subst hseg
        exact Or.inr (List.mem_reverse.mp hc)
  | cons d t ih =>
      intro buf seg hseg hc
      rw [splitBySpacesAux] at hseg
      split at hseg
      · split at hseg
        · rcases ih hseg hc with h | h
          · exact Or.inl (List.mem_cons_of_mem _ h)
          · simp at h
        · rcases List.mem_cons.mp hseg with h | h
          · subst h
            exact Or.inr (List.mem_reverse.mp hc)
          · rcases ih h hc with h' | h'
            · exact Or.inl (List.mem_cons_of_mem _ h')
            · simp at h'
      · rcases ih hseg hc with h | h
        · exact Or.inl (List.mem_cons_of_mem _ h)
        · rcases List.mem_cons.mp h with h' | h'
          · exact Or.inl (h' ▸ List.mem_cons_self _ _)
          · exact Or.inr h'

theorem mem_splitBySpaces {c : Char} {s seg : Str}
    (hseg : seg ∈ splitBySpaces s) (hc : c ∈ seg) : c ∈ s := by
  rcases mem_splitBySpacesAux hseg hc with h | h
  · exact h
  · simp at h

theorem no_caret_renderPerChar1 {pos : Str} (hp : '^' ∉ pos) :
    ∀ {cs : List Char} {anns : List Str},
      (∀ ch ∈ cs, ch ≠ '^') → (∀ ann ∈ anns, '^' ∉ ann) →
      '^' ∉ renderPerChar1 pos cs anns := by
  intro cs
  induction cs with
  | nil => intro anns _ _; rw [renderPerChar1_nil_left]; simp
  | cons ch cs' ih =>
      intro anns hcs hanns
      cases anns with
      | nil => rw [renderPerChar1_nil_right]; simp
      | cons ann anns' =>
          rw [renderPerChar1]
          have hch : '^' ∉ [ch] := by
            simpa [eq_comm] using hcs ch (List.mem_cons_self _ _)
          apply no_caret_append
          · split
            · rw [emptyRuby]
              exact no_caret_rubyUnit hp hch (by simp)
            · exact no_caret_rubyUnit hp hch (hanns ann (List.mem_cons_self _ _))
          · exact ih (fun d hd => hcs d (List.mem_cons_of_mem _ hd))
              (fun l hl => hanns l (List.mem_cons_of_mem _ hl))

theorem no_caret_renderPerChar2 {innerPos outerPos : Str}
    (hip : '^' ∉ innerPos) (hop : '^' ∉ outerPos) :
    ∀ {cs : List Char} {anns1 anns2 : List Str},
      (∀ ch ∈ cs, ch ≠ '^') → (∀ ann ∈ anns1, '^' ∉ ann) → (∀ ann ∈ anns2, '^' ∉ ann) →
      '^' ∉ renderPerChar2 innerPos outerPos cs anns1 anns2 := by
  intro cs
  induction cs with
  | nil => intro anns1 anns2 _ _ _; rw [renderPerChar2_nil_left]; simp
  | cons ch cs' ih =>
      intro anns1 anns2 hcs h1 h2
      cases anns1 with
      | nil => rw [renderPerChar2_nil_mid]; simp
      | cons a1 anns1' =>
          cases anns2 with
          | nil => rw [renderPerChar2_nil_right]; simp
          | cons a2 anns2' =>
              rw [renderPerChar2]
              have hch : '^' ∉ [ch] := by
                simpa [eq_comm] using hcs ch (List.mem_cons_self _ _)
              have ha1 := h1 a1 (List.mem_cons_self _ _)
              have ha2 := h2 a2 (List.mem_cons_self _ _)
              apply no_caret_append
              · simp only []
                split
                · rw [emptyRuby]; exact no_caret_rubyUnit hip hch (by simp)
                · split
                  · exact no_caret_rubyUnit hop hch ha2
                  · split
                    · exact no_caret_rubyUnit hip hch ha1
                    · exact no_caret_doubleWrap hop (no_caret_rubyUnit hip hch ha1) ha2
              · exact ih (fun d hd => hcs d (List.mem_cons_of_mem _ hd))
                  (fun l hl => h1 l (List.mem_cons_of_mem _ hl))
                  (fun l hl => h2 l (List.mem_cons_of_mem _ hl))

theorem no_caret_unescape {s : Str} (h : '^' ∉ s) : '^' ∉ unescape s :=
  fun hc => h (mem_unescape hc)

set_option maxHeartbeats 2000000 in
theorem no_caret_renderRuby {base : Str} {op : RubyOp} {levels : List Str}
    (hb : '^' ∉ base) (hl : ∀ l ∈ levels, '^' ∉ l) :
    '^' ∉ renderRuby base op levels := by
  have hsb : '^' ∉ unescape base := no_caret_unescape hb
  have hsbc : ∀ ch ∈ unescape base, ch ≠ '^' := fun ch hch he => hsb (he ▸ hch)
  have hcap : ∀ l ∈ levels.take 2, '^' ∉ l := fun l hm => hl l (List.take_subset 2 levels hm)
  cases op with
  | over =>
    rw [renderRuby.eq_def]
    rcases hcapeq : levels.take 2 with _ | ⟨l0, rest⟩
    · simp only []
      exact no_caret_doubleWrap (show '^' ∉ lit "ls-ruby-under" by decide)
        (no_caret_rubyUnit (show '^' ∉ lit "ls-ruby-over" by decide) hsb (by decide)) (by decide)
    · rcases rest with _ | ⟨l1, rest2⟩
      · have h0 : '^' ∉ l0 := hcap l0 (hcapeq ▸ List.mem_cons_self _ _)
        have hparts0 : ∀ ann ∈ splitBySpaces l0, '^' ∉ ann :=
          fun ann hann hc => h0 (mem_splitBySpaces hann hc)
        simp only []
        split
        · exact no_caret_renderPerChar1 (show '^' ∉ lit "ls-ruby-over" by decide) hsbc hparts0
        · exact no_caret_rubyUnit (show '^' ∉ lit "ls-ruby-over" by decide) hsb h0
      · have hr2 : rest2 = [] := by
          have hlen := congrArg List.length hcapeq
          simp only [List.length_take, List.length_cons] at hlen
          have h0len : rest2.length = 0 := by omega
          exact List.length_eq_zero.mp h0len
        subst hr2
        have h0 : '^' ∉ l0 := hcap l0 (hcapeq ▸ List.mem_cons_self _ _)
        have h1 : '^' ∉ l1 := hcap l1 (hcapeq ▸ List.mem_cons_of_mem _ (List.mem_cons_self _ _))
        have hparts0 : ∀ ann ∈ splitBySpaces l0, '^' ∉ ann :=
          fun ann hann hc => h0 (mem_splitBySpaces hann hc)
        have hparts1 : ∀ ann ∈ splitBySpaces l1, '^' ∉ ann :=
          fun ann hann hc => h1 (mem_splitBySpaces hann hc)
        have hA : '^' ∉ renderPerChar2 (lit "ls-ruby-over") (lit "ls-ruby-under") (unescape base)
            (splitBySpaces l0) (splitBySpaces l1) :=
          no_caret_renderPerChar2 (by decide) (by decide) hsbc hparts0 hparts1
        have hB : '^' ∉ doubleWrap (lit "ls-ruby-under")
            (renderPerChar1 (lit "ls-ruby-over") (unescape base) (splitBySpaces l0)) l1 :=
          no_caret_doubleWrap (by decide)
            (no_caret_renderPerChar1 (by decide) hsbc hparts0) h1
        have hC : '^' ∉ doubleWrap (lit "ls-ruby-over")
            (renderPerChar1 (lit "ls-ruby-under") (unescape base) (splitBySpaces l1)) l0 :=
          no_caret_doubleWrap (by decide)
            (no_caret_renderPerChar1 (by decide) hsbc hparts1) h0
        have hD : '^' ∉ doubleWrap (lit "ls-ruby-under")
            (rubyUnit (lit "ls-ruby-over") (unescape base) l0) l1 :=
          no_caret_doubleWrap (by decide) (no_caret_rubyUnit (by decide) hsb h0) h1
        simp only []
        cases hc0 : List.contains l0 ' ' <;> cases hc1 : List.contains l1 ' ' <;>
          by_cases hL0 : (splitBySpaces l0).length = (unescape base).length <;>
          by_cases hL1 : (splitBySpaces l1).length = (unescape base).length <;>
          (first
            | simp only [hc0, hc1, hL0, hL1, Bool.false_eq_true, if_false, if_true, ite_true,
                ite_false, Option.getD_some, decide_True, decide_False, Bool.and_true,
                Bool.and_false, Bool.true_and, Bool.false_and, eq_self_iff_true]
            | skip) <;>
          first
            | exact hA
            | exact hB
            | exact hC
            | exact hD
  | under =>
    rw [renderRuby.eq_def]
    rcases hcapeq : levels.take 2 with _ | ⟨l0, rest⟩
    · simp only []
      exact no_caret_doubleWrap (show '^' ∉ lit "ls-ruby-over" by decide)
        (no_caret_rubyUnit (show '^' ∉ lit "ls-ruby-under" by decide) hsb (by decide)) (by decide)
    · rcases rest with _ | ⟨l1, rest2⟩
      · have h0 : '^' ∉ l0 := hcap l0 (hcapeq ▸ List.mem_cons_self _ _)
        have hparts0 : ∀ ann ∈ splitBySpaces l0, '^' ∉ ann :=
          fun ann hann hc => h0 (mem_splitBySpaces hann hc)
        simp only []
        split
        · exact no_caret_renderPerChar1 (show '^' ∉ lit "ls-ruby-under" by decide) hsbc hparts0
        · exact no_caret_rubyUnit (show '^' ∉ lit "ls-ruby-under" by decide) hsb h0
      · have hr2 : rest2 = [] := by
          have hlen := congrArg List.length hcapeq
          simp only [List.length_take, List.length_cons] at hlen
          have h0len : rest2.length = 0 := by omega
          exact List.length_eq_zero.mp h0len
        subst hr2
        have h0 : '^' ∉ l0 := hcap l0 (hcapeq ▸ List.mem_cons_self _ _)
        have h1 : '^' ∉ l1 := hcap l1 (hcapeq ▸ List.mem_cons_of_mem _ (List.mem_cons_self _ _))
        have hparts0 : ∀ ann ∈ splitBySpaces l0, '^' ∉ ann :=
          fun ann hann hc => h0 (mem_splitBySpaces hann hc)
        have hparts1 : ∀ ann ∈ splitBySpaces l1, '^' ∉ ann :=
          fun ann hann hc => h1 (mem_splitBySpaces hann hc)
        have hA : '^' ∉ renderPerChar2 (lit "ls-ruby-under") (lit "ls-ruby-over") (unescape base)
            (splitBySpaces l0) (splitBySpaces l1) :=
          no_caret_renderPerChar2 (by decide) (by decide) hsbc hparts0 hparts1
        have hB : '^' ∉ doubleWrap (lit "ls-ruby-over")
            (renderPerChar1 (lit "ls-ruby-under") (unescape base) (splitBySpaces l0)) l1 :=
          no_caret_doubleWrap (by decide)
            (no_caret_renderPerChar1 (by decide) hsbc hparts0) h1
        have hC : '^' ∉ doubleWrap (lit "ls-ruby-under")
            (renderPerChar1 (lit "ls-ruby-over") (unescape base) (splitBySpaces l1)) l0 :=
          no_caret_doubleWrap (by decide)
            (no_caret_renderPerChar1 (by decide) hsbc hparts1) h0
        have hD : '^' ∉ doubleWrap (lit "ls-ruby-over")
            (rubyUnit (lit "ls-ruby-under") (unescape base) l0) l1 :=
          no_caret_doubleWrap (by decide) (no_caret_rubyUnit (by decide) hsb h0) h1
        simp only []
        cases hc0 : List.contains l0 ' ' <;> cases hc1 : List.contains l1 ' ' <;>
          by_cases hL0 : (splitBySpaces l0).length = (unescape base).length <;>
          by_cases hL1 : (splitBySpaces l1).length = (unescape base).length <;>
          (first
            | simp only [hc0, hc1, hL0, hL1, Bool.false_eq_true, if_false, if_true, ite_true,
                ite_false, Option.getD_some, decide_True, decide_False, Bool.and_true,
                Bool.and_false, Bool.true_and, Bool.false_and, eq_self_iff_true]
            | skip) <;>
          first
            | exact hA
            | exact hB
            | exact hC
            | exact hD


theorem mem_intersperse {sep : Str} {l : Str} :
    ∀ {xs : List Str}, l ∈ List.intersperse sep xs → l = sep ∨ l ∈ xs := by
  intro xs
  induction xs with
  | nil => intro h; simp at h
  | cons a t ih =>
      cases t with
      | nil =>
          intro h
          simp at h
          exact Or.inr (by simp [h])
      | cons b t2 =>
          intro h
          rw [List.intersperse_cons_cons] at h
          rcases List.mem_cons.mp h with h | h
          · exact Or.inr (h ▸ List.mem_cons_self _ _)
          · rcases List.mem_cons.mp h with h | h
            · exact Or.inl h
            · rcases ih h with h' | h'
              · exact Or.inl h'
              · exact Or.inr (List.mem_cons_of_mem _ h')

theorem no_caret_joinStyles {parts : List Str} (h : ∀ p ∈ parts, '^' ∉ p) :
    '^' ∉ joinStyles parts := by
  rw [joinStyles, List.intercalate]
  intro hc
  rcases List.mem_join.mp hc with ⟨l, hl, hcl⟩
  rcases mem_intersperse hl with h' | h'
  · subst h'
    exact absurd hcl (by decide)
  · exact h l (List.mem_filter.mp h').1 hcl

theorem no_caret_underlineClasses (st : UnderlineStyle) : '^' ∉ underlineClasses st := by
  cases st <;> decide

theorem no_caret_underlineInlineStyle (st : UnderlineStyle) : '^' ∉ underlineInlineStyle st := by
  cases st <;> decide

theorem no_caret_boutenInlineStyle (op : RubyOp) : '^' ∉ boutenInlineStyle op := by
  cases op <;> decide

theorem no_caret_renderUnderline {base : Str} (hb : '^' ∉ base) (st : UnderlineStyle) :
    '^' ∉ renderUnderline base st := by
  intro hmem
  simp only [renderUnderline, List.mem_append] at hmem
  rcases hmem with ((((((h | h) | h) | h) | h) | h) | h)
  · exact absurd h (by decide)
  · exact no_caret_underlineClasses st h
  · exact absurd h (by decide)
  · exact no_caret_underlineInlineStyle st h
  · exact absurd h (by decide)
  · exact no_caret_unescape hb h
  · exact absurd h (by decide)

theorem no_caret_renderBouten {base : Str} (hb : '^' ∉ base) (op : RubyOp) :
    '^' ∉ renderBouten base op := by
  intro hmem
  simp only [renderBouten, List.mem_append] at hmem
  rcases hmem with ((((((h | h) | h) | h) | h) | h) | h)
  · exact absurd h (by decide)
  · cases op <;> exact absurd h (by decide)
  · exact absurd h (by decide)
  · exact no_caret_boutenInlineStyle op h
  · exact absurd h (by decide)
  · exact no_caret_unescape hb h
  · exact absurd h (by decide)

theorem no_caret_renderBoutenBoth {base : Str} (hb : '^' ∉ base) :
    '^' ∉ renderBoutenBoth base := by
  intro hmem
  simp only [renderBoutenBoth, List.mem_append] at hmem
  rcases hmem with ((((((h | h) | h) | h) | h) | h) | h)
  · exact absurd h (by decide)
  · exact absurd h (by decide)
  · exact absurd h (by decide)
  · exact absurd h (by decide)
  · exact absurd h (by decide)
  · exact no_caret_unescape hb h
  · exact absurd h (by decide)

theorem no_caret_renderRubyWithBouten {base rubyText : Str}
    (hb : '^' ∉ base) (ht : '^' ∉ rubyText) (rubyOp boutenOp : RubyOp) :
    '^' ∉ renderRubyWithBouten base rubyText rubyOp boutenOp := by
  have hstyles : '^' ∉ joinStyles
      [if (match rubyOp with
           | RubyOp.over => lit "ls-ruby-over"
           | RubyOp.under => lit "ls-ruby-under") = lit "ls-ruby-under" then STYLE_RUBY_UNDER
        else [],
       boutenInlineStyle boutenOp] := by
    apply no_caret_joinStyles
    intro p hp
    rcases List.mem_cons.mp hp with h | h
    · subst h
      split
      · decide
      · simp
    · rcases List.mem_cons.mp h with h | h
      · exact h ▸ no_caret_boutenInlineStyle boutenOp
      · simp at h
  intro hmem
  simp only [renderRubyWithBouten, List.mem_append] at hmem
  rcases hmem with ((((((((((h | h) | h) | h) | h) | h) | h) | h) | h) | h) | h)
  · exact absurd h (by decide)
  · cases rubyOp <;> exact absurd h (by decide)
  · exact absurd h (by decide)
  · cases boutenOp <;> exact absurd h (by decide)
  · exact absurd h (by decide)
  · exact hstyles h
  · exact absurd h (by decide)
  · exact no_caret_unescape hb h
  · exact absurd h (by decide)
  · exact ht h
  · exact absurd h (by decide)

theorem no_caret_renderRubyWithUnderline {base rubyText : Str}
    (hb : '^' ∉ base) (ht : '^' ∉ rubyText) (rubyOp : RubyOp) (st : UnderlineStyle) :
    '^' ∉ renderRubyWithUnderline base rubyText rubyOp st := by
  have hstyles : '^' ∉ joinStyles
      [if (match rubyOp with
           | RubyOp.over => lit "ls-ruby-over"
           | RubyOp.under => lit "ls-ruby-under") = lit "ls-ruby-under" then STYLE_RUBY_UNDER
        else [],
       underlineInlineStyle st] := by
    apply no_caret_joinStyles
    intro p hp
    rcases List.mem_cons.mp hp with h | h
    · subst h
      split
      · decide
      · simp
    · rcases List.mem_cons.mp h with h | h
      · exact h ▸ no_caret_underlineInlineStyle st
      · simp at h
  intro hmem
  simp only [renderRubyWithUnderline, List.mem_append] at hmem
  rcases hmem with ((((((((((h | h) | h) | h) | h) | h) | h) | h) | h) | h) | h)
  · exact absurd h (by decide)
  · cases rubyOp <;> exact absurd h (by decide)
  · exact absurd h (by decide)
  · exact no_caret_underlineClasses st h
  · exact absurd h (by decide)
  · exact hstyles h
  · exact absurd h (by decide)
  · exact no_caret_unescape hb h
  · exact absurd h (by decide)
  · exact ht h
  · exact absurd h (by decide)

theorem no_caret_boutenUnderlineCombo {base : Str} (hb : '^' ∉ base)
    (boutenOp : RubyOp) (st : UnderlineStyle) :
    '^' ∉ boutenUnderlineCombo base boutenOp st := by
  have hstyles : '^' ∉ joinStyles [boutenInlineStyle boutenOp, underlineInlineStyle st] := by
    apply no_caret_joinStyles
    intro p hp
    rcases List.mem_cons.mp hp with h | h
    · exact h ▸ no_caret_boutenInlineStyle boutenOp
    · rcases List.mem_cons.mp h with h | h
      · exact h ▸ no_caret_underlineInlineStyle st
      · simp at h
  intro hmem
  simp only [boutenUnderlineCombo, List.mem_append] at hmem
  rcases hmem with ((((((((h | h) | h) | h) | h) | h) | h) | h) | h)
  · exact absurd h (by decide)
  · cases boutenOp <;> exact absurd h (by decide)
  · exact absurd h (by decide)
  · exact no_caret_underlineClasses st h
  · exact absurd h (by decide)
  · exact hstyles h
  · exact absurd h (by decide)
  · exact no_caret_unescape hb h
  · exact absurd h (by decide)


/-! ## Evaluating `renderMatch` on shaped inputs -/

/-- `[a]op(x)` as a single string. -/
def markup1 (a : Str) (op : RubyOp) (x : Str) : Str := markupCore a op (x ++ [')'])

/-- `[a]op1(x)op2(y)` as a single string. -/
def markup2 (a : Str) (op1 : RubyOp) (x : Str) (op2 : RubyOp) (y : Str) : Str :=
  markupCore a op1 (x ++ ')' :: '^' :: opChar op2 :: '(' :: (y ++ [')']))

theorem ordinaryAnn_spec {x : Str} (h : ordinaryAnn x = true) :
    plainContent x = true ∧ x ≠ lit ".." ∧ getUnderlineStyle x = none := by
  rcases Bool.and_eq_true .. |>.mp h with ⟨h1, h3⟩
  rcases Bool.and_eq_true .. |>.mp h1 with ⟨hp, h2⟩
  refine ⟨hp, ?_, ?_⟩
  · simpa using h2
  · simpa [Option.isSome_iff_exists] using h3

theorem plainContent_no_pipe {x : Str} (h : plainContent x = true) : '|' ∉ x :=
  fun hc => (plainContent_mem h hc).2.2.1 rfl

theorem plainContent_no_bs {x : Str} (h : plainContent x = true) : '\\' ∉ x :=
  fun hc => (plainContent_mem h hc).2.2.2.1 rfl

theorem plainContent_close_ok {x : Str} (h : plainContent x = true) :
    ∀ c ∈ x, c ≠ ')' ∧ c ≠ '\n' ∧ c ≠ '\r' ∧ c ≠ '\\' := by
  intro c hc
  have := plainContent_mem h hc
  exact ⟨this.2.1, this.2.2.2.2.1, this.2.2.2.2.2, this.2.2.2.1⟩

theorem chainDetect_none_of_end (input : Str) (op : RubyOp) (next : Nat)
    (h : input.length ≤ next + 2) : chainDetect input op next = none := by
  rw [chainDetect]
  simp [Nat.not_lt.mpr h]

theorem renderMatch_plain_single (a x : Str) (op : RubyOp)
    (hx : ordinaryAnn x = true) :
    renderMatch (markup1 a op x) op 0 0 (a.length + 5 + x.length) a x =
      (renderRuby a op [x], a.length + 5 + x.length + 1) := by
  obtain ⟨hp, hdots, hul⟩ := ordinaryAnn_spec hx
  have hlen : (markup1 a op x).length = a.length + 5 + x.length + 1 := by
    rw [markup1, mc_len]
    simp only [List.length_append, List.length_cons, List.length_nil]
    omega
  have hchain : chainDetect (markup1 a op x) op (a.length + 5 + x.length + 1) = none :=
    chainDetect_none_of_end _ _ _ (by omega)
  have hsplit : splitByUnescapedPipe x = [x] :=
    splitByUnescapedPipe_no_pipe (plainContent_no_pipe hp)
  have hunesc : unescape x = x := unescape_eq_self (plainContent_no_bs hp)
  have hulIf : (if op = RubyOp.under then getUnderlineStyle x else none) = none := by
    rw [hul]
    exact ite_self none
  rw [renderMatch]
  simp only [hchain, hsplit, hunesc, hulIf, hdots, List.map]
  simp [slice, hdots]

theorem rubyToHTML_markup1 (a x : Str) (op : RubyOp)
    (ha : plainBase a = true) (hx : ordinaryAnn x = true) :
    rubyToHTML (markup1 a op x) = renderRuby a op [x] := by
  obtain ⟨hp, hdots, hul⟩ := ordinaryAnn_spec hx
  have hcaret_a : '^' ∉ a := fun hc => (plainBase_mem ha hc).1 rfl
  have hcaret_x : '^' ∉ x := fun hc => (plainContent_mem hp hc).1 rfl
  have hpass : rubyToHTMLPass (markup1 a op x) = renderRuby a op [x] := by
    rw [rubyToHTMLPass, markup1, if_pos (hasRuby_mc a op _), mc_len]
    have hfuel : a.length + 5 + (x ++ [')']).length + 1 = (a.length + 5 + x.length + 1) + 1 := by
      simp only [List.length_append, List.length_cons, List.length_nil]
      omega
    rw [hfuel]
    have hshape : (x ++ [')'] : Str) = x ++ ')' :: [] := rfl
    rw [hshape, pass_entry_closed a x [] op (a.length + 5 + x.length + 1) ha
      (plainContent_nonempty hp) (plainContent_close_ok hp)]
    have hrm := renderMatch_plain_single a x op hx
    rw [markup1] at hrm
    rw [hshape] at hrm
    rw [hrm]
    apply passLoop_done
    rw [mc_len]
    simp only [List.length_append, List.length_cons, List.length_nil]
    omega
  exact rubyToHTML_of_single_pass hpass (by rw [markup1]; exact hasRuby_mc a op _)
    (hasRuby_false_of_no_caret (no_caret_renderRuby hcaret_a (by
      intro l hl
      rw [List.mem_singleton.mp hl]
      exact hcaret_x)))


theorem findCloseParen_seg (u y w : Str) (hy : y ≠ [])
    (hyc : ∀ c ∈ y, c ≠ ')' ∧ c ≠ '\n' ∧ c ≠ '\r' ∧ c ≠ '\\') :
    findCloseParen (u ++ y ++ ')' :: w) u.length = some (u.length + y.length) := by
  rw [findCloseParen]
  have hlen : (u ++ y ++ ')' :: w).length - u.length = y.length + (w.length + 1) := by
    simp only [List.length_append, List.length_cons]
    omega
  rw [hlen]
  have hat : ∀ k, (u ++ y ++ ')' :: w)[u.length + k]? = (y ++ ')' :: w)[k]? := by
    intro k
    rw [List.append_assoc, ge_at]
  have hskip : findCloseParenAux (u ++ y ++ ')' :: w) (y.length + (w.length + 1)) u.length =
      findCloseParenAux (u ++ y ++ ')' :: w) (w.length + 1) (u.length + y.length) := by
    apply findCloseParenAux_skip
    intro k hk
    refine ⟨y[k], ?_, ?_, ?_, ?_⟩
    · rw [hat k, ge_left _ hk]
      simpa using List.getElem?_eq_getElem hk
    · exact (hyc y[k] (List.getElem_mem hk)).2.1
    · exact (hyc y[k] (List.getElem_mem hk)).2.2.1
    · exact (hyc y[k] (List.getElem_mem hk)).1
  rw [hskip]
  apply findCloseParenAux_hit
  · rw [hat y.length, ge_at0]
    simp
  · cases hY : y.length with
    | zero => exact absurd (List.length_eq_zero.mp hY) hy
    | succ j =>
        rw [show u.length + (j + 1) = (u.length + j) + 1 by omega]
        apply isEscaped_of_prev
        rw [hat j, ge_left _ (by omega)]
        intro hbad
        exact (hyc _ (mem_of_ge hbad)).2.2.2 rfl

theorem markup2_decomp (a : Str) (op1 : RubyOp) (x : Str) (op2 : RubyOp) (y : Str) :
    markup2 a op1 x op2 y =
      ('[' :: a ++ ']' :: '^' :: opChar op1 :: '(' :: (x ++ [')', '^', opChar op2, '('])) ++
        y ++ [')'] := by
  simp [markup2, markupCore]

theorem markup2_len (a : Str) (op1 : RubyOp) (x : Str) (op2 : RubyOp) (y : Str) :
    (markup2 a op1 x op2 y).length = a.length + x.length + y.length + 10 := by
  rw [markup2, mc_len]
  simp only [List.length_append, List.length_cons, List.length_nil]
  omega

theorem markup2_chain_at (a : Str) (op1 : RubyOp) (x : Str) (op2 : RubyOp) (y : Str) (k : Nat) :
    (markup2 a op1 x op2 y)[a.length + 6 + x.length + k]? =
      ('^' :: opChar op2 :: '(' :: (y ++ [')']))[k]? := by
  rw [markup2]
  have h1 : (x ++ ')' :: '^' :: opChar op2 :: '(' :: (y ++ [')']) : Str) =
      (x ++ [')']) ++ ('^' :: opChar op2 :: '(' :: (y ++ [')'])) := by simp
  rw [h1]
  have h2 := mc_t a op1 ((x ++ [')']) ++ ('^' :: opChar op2 :: '(' :: (y ++ [')'])))
    (x.length + 1 + k)
  rw [show a.length + 5 + (x.length + 1 + k) = a.length + 6 + x.length + k by omega] at h2
  rw [h2]
  have h3 := ge_at (x ++ [')']) ('^' :: opChar op2 :: '(' :: (y ++ [')'])) k
  rw [show (x ++ [')'] : Str).length = x.length + 1 from by simp] at h3
  exact h3

theorem chainDetect_markup2 (a : Str) (op1 : RubyOp) (x : Str) (op2 : RubyOp) (y : Str)
    (hne : op2 ≠ op1) (hy : plainContent y = true) :
    chainDetect (markup2 a op1 x op2 y) op1 (a.length + 5 + x.length + 1) =
      some (y, op2, (markup2 a op1 x op2 y).length) := by
  have hat := markup2_chain_at a op1 x op2 y
  have h0 : (markup2 a op1 x op2 y)[a.length + 5 + x.length + 1]? = some '^' := by
    rw [show a.length + 5 + x.length + 1 = a.length + 6 + x.length + 0 by omega, hat 0]
    simp
  have h1 : (markup2 a op1 x op2 y)[a.length + 5 + x.length + 1 + 1]? = some (opChar op2) := by
    rw [show a.length + 5 + x.length + 1 + 1 = a.length + 6 + x.length + 1 by omega, hat 1]
    simp
  have h2 : (markup2 a op1 x op2 y)[a.length + 5 + x.length + 1 + 2]? = some '(' := by
    rw [show a.length + 5 + x.length + 1 + 2 = a.length + 6 + x.length + 2 by omega, hat 2]
    simp
  have hlt : a.length + 5 + x.length + 1 + 2 < (markup2 a op1 x op2 y).length := by
    rw [markup2_len]
    have := plainContent_nonempty hy
    have : 0 < y.length := List.length_pos.mpr this
    omega
  have hsel : (if (markup2 a op1 x op2 y)[a.length + 5 + x.length + 1 + 1]? = some '^' then
      RubyOp.over else RubyOp.under) = op2 := by
    rw [h1]
    cases op2 <;> simp [opChar]
  have hfc : findCloseParen (markup2 a op1 x op2 y) (a.length + 5 + x.length + 1 + 3) =
      some ((a.length + 5 + x.length + 1 + 3) + y.length) := by
    have hd := markup2_decomp a op1 x op2 y
    have hu : ('[' :: a ++ ']' :: '^' :: opChar op1 :: '(' ::
        (x ++ [')', '^', opChar op2, '('])).length = a.length + 5 + x.length + 1 + 3 := by
      simp only [List.length_cons, List.length_append, List.length_nil]
      omega
    rw [hd, ← hu]
    exact findCloseParen_seg _ y [] (plainContent_nonempty hy) (plainContent_close_ok hy)
  have hslice : slice (markup2 a op1 x op2 y) (a.length + 5 + x.length + 1 + 3)
      ((a.length + 5 + x.length + 1 + 3) + y.length) = y := by
    have hd := markup2_decomp a op1 x op2 y
    have hu : ('[' :: a ++ ']' :: '^' :: opChar op1 :: '(' ::
        (x ++ [')', '^', opChar op2, '('])).length = a.length + 5 + x.length + 1 + 3 := by
      simp only [List.length_cons, List.length_append, List.length_nil]
      omega
    rw [hd, ← hu]
    exact slice_mid _ y [')']
  have hyE : y.isEmpty = false := by
    cases y with
    | nil => exact absurd rfl (plainContent_nonempty hy)
    | cons c t => rfl
  rw [chainDetect]
  rw [if_pos]
  · rw [hsel, if_pos hne, hfc]
    simp only [hslice, hyE, Bool.false_eq_true, if_false, ite_false]
    have : (a.length + 5 + x.length + 1 + 3) + y.length + 1 =
        (markup2 a op1 x op2 y).length := by
      rw [markup2_len]
      omega
    rw [this]
  · simp only [hlt, h0, h1, h2, decide_True, Bool.and_true, Bool.true_and]
    cases op2 <;> simp [opChar]


theorem ne_of_mem_not_mem {c : Char} {s t : Str} (hs : c ∈ s) (ht : c ∉ t) : s ≠ t :=
  fun h => ht (h ▸ hs)

theorem pipe_mem (x y : Str) : '|' ∈ x ++ '|' :: y := by simp

theorem pipe_ne_dots (x y : Str) : (x ++ '|' :: y : Str) ≠ lit ".." :=
  ne_of_mem_not_mem (pipe_mem x y) (by decide)

theorem getUnderlineStyle_pipe_none (x y : Str) :
    getUnderlineStyle (x ++ '|' :: y) = none := by
  rw [getUnderlineStyle,
    if_neg (ne_of_mem_not_mem (pipe_mem x y) (by decide : '|' ∉ lit ".-")),
    if_neg (ne_of_mem_not_mem (pipe_mem x y) (by decide : '|' ∉ lit ".~")),
    if_neg (ne_of_mem_not_mem (pipe_mem x y) (by decide : '|' ∉ lit ".="))]

theorem renderMatch_chain_ordinary (a x y : Str) (op1 op2 : RubyOp) (hne : op2 ≠ op1)
    (hx : ordinaryAnn x = true) (hy : ordinaryAnn y = true) :
    renderMatch (markup2 a op1 x op2 y) op1 0 0 (a.length + 5 + x.length) a x =
      (renderRuby a op1 [x, y], (markup2 a op1 x op2 y).length) := by
  obtain ⟨hpx, hdx, hulx⟩ := ordinaryAnn_spec hx
  obtain ⟨hpy, hdy, huly⟩ := ordinaryAnn_spec hy
  have hchain := chainDetect_markup2 a op1 x op2 y hne hpy
  have hsplitx : splitByUnescapedPipe x = [x] :=
    splitByUnescapedPipe_no_pipe (plainContent_no_pipe hpx)
  have hsplity : splitByUnescapedPipe y = [y] :=
    splitByUnescapedPipe_no_pipe (plainContent_no_pipe hpy)
  have hux : unescape x = x := unescape_eq_self (plainContent_no_bs hpx)
  have huy : unescape y = y := unescape_eq_self (plainContent_no_bs hpy)
  have hul1 : (if op1 = RubyOp.under then getUnderlineStyle x else none) = none := by
    rw [hulx]
    exact ite_self none
  have hul2 : (if some op2 = some RubyOp.under then getUnderlineStyle y else none) = none := by
    cases op2 <;> simp [huly]
  have hul2b : (if op2 = RubyOp.under then getUnderlineStyle y else none) = none := by
    rw [huly]
    exact ite_self none
  rw [renderMatch]
  simp only [hchain, hsplitx, hsplity, hux, huy, List.length_singleton,
    Option.map_some, Option.getD_some, hdx, hdy, hul1, hul2, List.map]
  simp [hdx, hdy, slice, hul2b, hsplity, huy]

theorem renderMatch_pipe_ordinary (a x y : Str) (op : RubyOp)
    (hx : ordinaryAnn x = true) (hy : ordinaryAnn y = true) :
    renderMatch (markup1 a op (x ++ '|' :: y)) op 0 0
        (a.length + 5 + (x ++ '|' :: y).length) a (x ++ '|' :: y) =
      (renderRuby a op [x, y], a.length + 5 + (x ++ '|' :: y).length + 1) := by
  obtain ⟨hpx, hdx, hulx⟩ := ordinaryAnn_spec hx
  obtain ⟨hpy, hdy, huly⟩ := ordinaryAnn_spec hy
  have hlen : (markup1 a op (x ++ '|' :: y)).length =
      a.length + 5 + (x ++ '|' :: y).length + 1 := by
    rw [markup1, mc_len]
    simp only [List.length_append, List.length_cons, List.length_nil]
    omega
  have hchain : chainDetect (markup1 a op (x ++ '|' :: y))
      op (a.length + 5 + (x ++ '|' :: y).length + 1) = none :=
    chainDetect_none_of_end _ _ _ (by omega)
  have hsplit : splitByUnescapedPipe (x ++ '|' :: y) = [x, y] :=
    splitByUnescapedPipe_one_pipe (plainContent_no_pipe hpx) (plainContent_no_pipe hpy)
      (plainContent_no_bs hpx)
  have hux : unescape x = x := unescape_eq_self (plainContent_no_bs hpx)
  have huy : unescape y = y := unescape_eq_self (plainContent_no_bs hpy)
  have hdots := pipe_ne_dots x y
  have hulp : (if op = RubyOp.under then getUnderlineStyle (x ++ '|' :: y) else none) = none := by
    rw [getUnderlineStyle_pipe_none]
    exact ite_self none
  have hulinner : (if op = RubyOp.under then getUnderlineStyle x else none) = none := by
    rw [hulx]
    exact ite_self none
  have hulouter : (if op.flip = RubyOp.under then getUnderlineStyle y else none) = none := by
    rw [huly]
    exact ite_self none
  rw [renderMatch]
  simp only [hchain, hsplit, hux, huy, hdots, hulp, hulinner, hulouter, List.map,
    hdx, hdy]
  simp [hdx, hdy, slice, hulinner, hulouter]

theorem renderMatch_pipe_chain (a x y z : Str) (op1 op2 : RubyOp) (hne : op2 ≠ op1)
    (hx : ordinaryAnn x = true) (hy : ordinaryAnn y = true) (hz : plainContent z = true) :
    renderMatch (markup2 a op1 (x ++ '|' :: y) op2 z) op1 0 0
        (a.length + 5 + (x ++ '|' :: y).length) a (x ++ '|' :: y) =
      (renderRuby a op1 [x, y], (markup2 a op1 (x ++ '|' :: y) op2 z).length) := by
  obtain ⟨hpx, hdx, hulx⟩ := ordinaryAnn_spec hx
  obtain ⟨hpy, hdy, huly⟩ := ordinaryAnn_spec hy
  have hchain := chainDetect_markup2 a op1 (x ++ '|' :: y) op2 z hne hz
  have hsplit : splitByUnescapedPipe (x ++ '|' :: y) = [x, y] :=
    splitByUnescapedPipe_one_pipe (plainContent_no_pipe hpx) (plainContent_no_pipe hpy)
      (plainContent_no_bs hpx)
  have hux : unescape x = x := unescape_eq_self (plainContent_no_bs hpx)
  have huy : unescape y = y := unescape_eq_self (plainContent_no_bs hpy)
  have hdots := pipe_ne_dots x y
  have hulp : (if op1 = RubyOp.under then getUnderlineStyle (x ++ '|' :: y) else none) = none := by
    rw [getUnderlineStyle_pipe_none]
    exact ite_self none
  have hulinner : (if op1 = RubyOp.under then getUnderlineStyle x else none) = none := by
    rw [hulx]
    exact ite_self none
  have hulouter : (if op1.flip = RubyOp.under then getUnderlineStyle y else none) = none := by
    rw [huly]
    exact ite_self none
  rw [renderMatch]
  simp only [hchain, hsplit, hux, huy, hdots, hulp, hulinner, hulouter, List.map,
    hdx, hdy]
  simp [hdx, hdy, slice, hulinner, hulouter]


/-- Generic pipeline: when the single resolved match renders `R` and
consumes the whole input, `rubyToHTML` returns `R`. -/
theorem rubyToHTML_shape (a c r R : Str) (op : RubyOp) (fin : Nat)
    (ha : plainBase a = true) (hc : c ≠ [])
    (hcc : ∀ ch ∈ c, ch ≠ ')' ∧ ch ≠ '\n' ∧ ch ≠ '\r' ∧ ch ≠ '\\')
    (hrm : renderMatch (markupCore a op (c ++ ')' :: r)) op 0 0
        (a.length + 5 + c.length) a c = (R, fin))
    (hfin : (markupCore a op (c ++ ')' :: r)).length ≤ fin)
    (hnc : '^' ∉ R) :
    rubyToHTML (markupCore a op (c ++ ')' :: r)) = R := by
  have hpass : rubyToHTMLPass (markupCore a op (c ++ ')' :: r)) = R := by
    rw [rubyToHTMLPass, if_pos (hasRuby_mc a op _)]
    have hfuel : (markupCore a op (c ++ ')' :: r)).length + 1 =
        ((markupCore a op (c ++ ')' :: r)).length) + 1 := rfl
    rw [pass_entry_closed a c r op ((markupCore a op (c ++ ')' :: r)).length) ha hc hcc]
    rw [hrm]
    exact passLoop_done _ _ _ _ hfin
  exact rubyToHTML_of_single_pass hpass (hasRuby_mc a op _) (hasRuby_false_of_no_caret hnc)

theorem rubyToHTML_markup2_ordinary (a x y : Str) (op1 op2 : RubyOp) (hne : op2 ≠ op1)
    (ha : plainBase a = true) (hx : ordinaryAnn x = true) (hy : ordinaryAnn y = true) :
    rubyToHTML (markup2 a op1 x op2 y) = renderRuby a op1 [x, y] := by
  obtain ⟨hpx, hdx, hulx⟩ := ordinaryAnn_spec hx
  obtain ⟨hpy, hdy, huly⟩ := ordinaryAnn_spec hy
  have hca : '^' ∉ a := fun hc => (plainBase_mem ha hc).1 rfl
  have hcx : '^' ∉ x := fun hc => (plainContent_mem hpx hc).1 rfl
  have hcy : '^' ∉ y := fun hc => (plainContent_mem hpy hc).1 rfl
  rw [markup2]
  apply rubyToHTML_shape a x ('^' :: opChar op2 :: '(' :: (y ++ [')'])) _ op1
    ((markup2 a op1 x op2 y).length) ha (plainContent_nonempty hpx) (plainContent_close_ok hpx)
  · rw [← markup2]
    exact renderMatch_chain_ordinary a x y op1 op2 hne hx hy
  · rw [← markup2]
  · apply no_caret_renderRuby hca
    intro l hl
    rcases List.mem_cons.mp hl with h | h
    · exact h ▸ hcx
    · rw [List.mem_singleton.mp h]
      exact hcy

theorem rubyToHTML_pipe_ordinary (a x y : Str) (op : RubyOp)
    (ha : plainBase a = true) (hx : ordinaryAnn x = true) (hy : ordinaryAnn y = true) :
    rubyToHTML (markup1 a op (x ++ '|' :: y)) = renderRuby a op [x, y] := by
  obtain ⟨hpx, hdx, hulx⟩ := ordinaryAnn_spec hx
  obtain ⟨hpy, hdy, huly⟩ := ordinaryAnn_spec hy
  have hca : '^' ∉ a := fun hc => (plainBase_mem ha hc).1 rfl
  have hcx : '^' ∉ x := fun hc => (plainContent_mem hpx hc).1 rfl
  have hcy : '^' ∉ y := fun hc => (plainContent_mem hpy hc).1 rfl
  have hcont : ∀ ch ∈ (x ++ '|' :: y : Str), ch ≠ ')' ∧ ch ≠ '\n' ∧ ch ≠ '\r' ∧ ch ≠ '\\' := by
    intro ch hch
    rcases List.mem_append.mp hch with h | h
    · exact plainContent_close_ok hpx ch h
    · rcases List.mem_cons.mp h with h | h
      · subst h
        refine ⟨by decide, by decide, by decide, by decide⟩
      · exact plainContent_close_ok hpy ch h
  rw [markup1]
  apply rubyToHTML_shape a (x ++ '|' :: y) [] _ op
    (a.length + 5 + (x ++ '|' :: y).length + 1) ha (by simp) hcont
  · rw [show ((x ++ '|' :: y) ++ ')' :: [] : Str) = (x ++ '|' :: y) ++ [')'] from rfl,
      ← markup1]
    exact renderMatch_pipe_ordinary a x y op hx hy
  · rw [show ((x ++ '|' :: y) ++ ')' :: [] : Str) = (x ++ '|' :: y) ++ [')'] from rfl, ← markup1]
    rw [markup1, mc_len]
    simp only [List.length_append, List.length_cons, List.length_nil]
    omega
  · apply no_caret_renderRuby hca
    intro l hl
    rcases List.mem_cons.mp hl with h | h
    · exact h ▸ hcx
    · rw [List.mem_singleton.mp h]
      exact hcy

theorem rubyToHTML_pipe_chain (a x y z : Str) (op1 op2 : RubyOp) (hne : op2 ≠ op1)
    (ha : plainBase a = true) (hx : ordinaryAnn x = true) (hy : ordinaryAnn y = true)
    (hz : plainContent z = true) :
    rubyToHTML (markup2 a op1 (x ++ '|' :: y) op2 z) = renderRuby a op1 [x, y] := by
  obtain ⟨hpx, hdx, hulx⟩ := ordinaryAnn_spec hx
  obtain ⟨hpy, hdy, huly⟩ := ordinaryAnn_spec hy
  have hca : '^' ∉ a := fun hc => (plainBase_mem ha hc).1 rfl
  have hcx : '^' ∉ x := fun hc => (plainContent_mem hpx hc).1 rfl
  have hcy : '^' ∉ y := fun hc => (plainContent_mem hpy hc).1 rfl
  have hcont : ∀ ch ∈ (x ++ '|' :: y : Str), ch ≠ ')' ∧ ch ≠ '\n' ∧ ch ≠ '\r' ∧ ch ≠ '\\' := by
    intro ch hch
    rcases List.mem_append.mp hch with h | h
    · exact plainContent_close_ok hpx ch h
    · rcases List.mem_cons.mp h with h | h
      · subst h
        refine ⟨by decide, by decide, by decide, by decide⟩
      · exact plainContent_close_ok hpy ch h
  rw [markup2]
  apply rubyToHTML_shape a (x ++ '|' :: y) ('^' :: opChar op2 :: '(' :: (z ++ [')'])) _ op1
    ((markup2 a op1 (x ++ '|' :: y) op2 z).length) ha (by simp) hcont
  · rw [← markup2]
    exact renderMatch_pipe_chain a x y z op1 op2 hne hx hy hz
  · rw [← markup2]
  · apply no_caret_renderRuby hca
    intro l hl
    rcases List.mem_cons.mp hl with h | h
    · exact h ▸ hcx
    · rw [List.mem_singleton.mp h]
      exact hcy


/-! ## String-shape conversion helpers for claim statements -/

theorem str_markup1_over (a x : Str) :
    lit "[" ++ a ++ lit "]^^(" ++ x ++ lit ")" = markup1 a .over x := by
  rw [show lit "[" = (['['] : Str) from by decide,
    show lit "]^^(" = ([']', '^', '^', '('] : Str) from by decide,
    show lit ")" = ([')'] : Str) from by decide]
  simp [markup1, markupCore, opChar]

theorem str_markup1_under (a x : Str) :
    lit "[" ++ a ++ lit "]^_(" ++ x ++ lit ")" = markup1 a .under x := by
  rw [show lit "[" = (['['] : Str) from by decide,
    show lit "]^_(" = ([']', '^', '_', '('] : Str) from by decide,
    show lit ")" = ([')'] : Str) from by decide]
  simp [markup1, markupCore, opChar]

theorem str_markup2_ou (a x y : Str) :
    lit "[" ++ a ++ lit "]^^(" ++ x ++ lit ")^_(" ++ y ++ lit ")" = markup2 a .over x .under y := by
  rw [show lit "[" = (['['] : Str) from by decide,
    show lit "]^^(" = ([']', '^', '^', '('] : Str) from by decide,
    show lit ")^_(" = ([')', '^', '_', '('] : Str) from by decide,
    show lit ")" = ([')'] : Str) from by decide]
  simp [markup2, markupCore, opChar]

theorem str_markup2_uo (a x y : Str) :
    lit "[" ++ a ++ lit "]^_(" ++ x ++ lit ")^^(" ++ y ++ lit ")" = markup2 a .under x .over y := by
  rw [show lit "[" = (['['] : Str) from by decide,
    show lit "]^_(" = ([']', '^', '_', '('] : Str) from by decide,
    show lit ")^^(" = ([')', '^', '^', '('] : Str) from by decide,
    show lit ")" = ([')'] : Str) from by decide]
  simp [markup2, markupCore, opChar]

theorem str_pipe_over (a x y : Str) :
    lit "[" ++ a ++ lit "]^^(" ++ x ++ lit "|" ++ y ++ lit ")" =
      markup1 a .over (x ++ '|' :: y) := by
  rw [show lit "[" = (['['] : Str) from by decide,
    show lit "]^^(" = ([']', '^', '^', '('] : Str) from by decide,
    show lit "|" = (['|'] : Str) from by decide,
    show lit ")" = ([')'] : Str) from by decide]
  simp [markup1, markupCore, opChar]

theorem str_pipe_under (a x y : Str) :
    lit "[" ++ a ++ lit "]^_(" ++ x ++ lit "|" ++ y ++ lit ")" =
      markup1 a .under (x ++ '|' :: y) := by
  rw [show lit "[" = (['['] : Str) from by decide,
    show lit "]^_(" = ([']', '^', '_', '('] : Str) from by decide,
    show lit "|" = (['|'] : Str) from by decide,
    show lit ")" = ([')'] : Str) from by decide]
  simp [markup1, markupCore, opChar]

theorem str_pipe_chain (a x y z : Str) :
    lit "[" ++ a ++ lit "]^^(" ++ x ++ lit "|" ++ y ++ lit ")^_(" ++ z ++ lit ")" =
      markup2 a .over (x ++ '|' :: y) .under z := by
  rw [show lit "[" = (['['] : Str) from by decide,
    show lit "]^^(" = ([']', '^', '^', '('] : Str) from by decide,
    show lit "|" = (['|'] : Str) from by decide,
    show lit ")^_(" = ([')', '^', '_', '('] : Str) from by decide,
    show lit ")" = ([')'] : Str) from by decide]
  simp [markup2, markupCore, opChar]

/-! ## Claim theorems resting on the scanner lemmas -/

/-- Claim C2 as amended: for every plain bracketed base `a` and ordinary
annotation texts `x`, `y`, the over-then-under chain `[a]^^(x)^_(y)` and
the pipe form `[a]^^(x|y)` render to the *identical* string
`renderRuby a over [x, y]`; the under-then-over chain `[a]^_(y)^^(x)`
resolves the same two slot texts but renders as
`renderRuby a under [y, x]`, whose nesting (inner element on the side of
the first operator) makes it a different string, so the claimed
three-way string identity fails (see the counterexample). -/
theorem claim_C2_commutativity_amended (a x y : Str)
    (ha : plainBase a = true) (hx : ordinaryAnn x = true) (hy : ordinaryAnn y = true) :
    rubyToHTML (lit "[" ++ a ++ lit "]^^(" ++ x ++ lit ")^_(" ++ y ++ lit ")") =
        rubyToHTML (lit "[" ++ a ++ lit "]^^(" ++ x ++ lit "|" ++ y ++ lit ")") ∧
      rubyToHTML (lit "[" ++ a ++ lit "]^^(" ++ x ++ lit ")^_(" ++ y ++ lit ")") =
        renderRuby a .over [x, y] ∧
      rubyToHTML (lit "[" ++ a ++ lit "]^_(" ++ y ++ lit ")^^(" ++ x ++ lit ")") =
        renderRuby a .under [y, x] := by
  rw [str_markup2_ou, str_pipe_over, str_markup2_uo]
  refine ⟨?_, ?_, ?_⟩
  · rw [rubyToHTML_markup2_ordinary a x y .over .under (by decide) ha hx hy,
      rubyToHTML_pipe_ordinary a x y .over ha hx hy]
  · exact rubyToHTML_markup2_ordinary a x y .over .under (by decide) ha hx hy
  · exact rubyToHTML_markup2_ordinary a y x .under .over (by decide) ha hy hx

/-- Witness for C2 (amended) at `a`, `x`, `y` one character each. -/
theorem claim_C2_commutativity_amended_witness :
    rubyToHTML (lit "[" ++ lit "a" ++ lit "]^^(" ++ lit "x" ++ lit ")^_(" ++ lit "y" ++ lit ")") =
        rubyToHTML (lit "[" ++ lit "a" ++ lit "]^^(" ++ lit "x" ++ lit "|" ++ lit "y" ++ lit ")") ∧
      rubyToHTML (lit "[" ++ lit "a" ++ lit "]^^(" ++ lit "x" ++ lit ")^_(" ++ lit "y" ++ lit ")") =
        renderRuby (lit "a") .over [lit "x", lit "y"] ∧
      rubyToHTML (lit "[" ++ lit "a" ++ lit "]^_(" ++ lit "y" ++ lit ")^^(" ++ lit "x" ++ lit ")") =
        renderRuby (lit "a") .under [lit "y", lit "x"] :=
  claim_C2_commutativity_amended (lit "a") (lit "x") (lit "y") (by decide) (by decide) (by decide)

/-- Claim C3: pipe saturation precedes chain.  For every plain base `a`,
ordinary texts `x`, `y` and plain chained content `z`,
`[a]^^(x|y)^_(z)` renders identically to `[a]^^(x|y)` — the chained
`^_(z)` is consumed and discarded (`z` occurs in the output exactly as
often as it occurs in the output of the `z`-free form, i.e. not at all
unless it already occurs there), and no literal operator text remains. -/
theorem claim_C3_pipe_saturation (a x y z : Str)
    (ha : plainBase a = true) (hx : ordinaryAnn x = true) (hy : ordinaryAnn y = true)
    (hz : plainContent z = true) :
    rubyToHTML (lit "[" ++ a ++ lit "]^^(" ++ x ++ lit "|" ++ y ++ lit ")^_(" ++ z ++ lit ")") =
        rubyToHTML (lit "[" ++ a ++ lit "]^^(" ++ x ++ lit "|" ++ y ++ lit ")") ∧
      strContains
        (rubyToHTML (lit "[" ++ a ++ lit "]^^(" ++ x ++ lit "|" ++ y ++ lit ")^_(" ++ z ++ lit ")"))
        (lit "^_(") = false ∧
      strContains
        (rubyToHTML (lit "[" ++ a ++ lit "]^^(" ++ x ++ lit "|" ++ y ++ lit ")^_(" ++ z ++ lit ")"))
        z =
      strContains (rubyToHTML (lit "[" ++ a ++ lit "]^^(" ++ x ++ lit "|" ++ y ++ lit ")")) z := by
  rw [str_pipe_chain, str_pipe_over]
  have h1 := rubyToHTML_pipe_chain a x y z .over .under (by decide) ha hx hy hz
  have h2 := rubyToHTML_pipe_ordinary a x y .over ha hx hy
  refine ⟨by rw [h1, h2], ?_, by rw [h1, h2]⟩
  rw [h1]
  have hca : '^' ∉ a := fun hc => (plainBase_mem ha hc).1 rfl
  have hcx : '^' ∉ x := fun hc =>
    (plainContent_mem (ordinaryAnn_spec hx).1 hc).1 rfl
  have hcy : '^' ∉ y := fun hc =>
    (plainContent_mem (ordinaryAnn_spec hy).1 hc).1 rfl
  apply strContains_false_of_not_mem (c := '^') (by decide)
  apply no_caret_renderRuby hca
  intro l hl
  rcases List.mem_cons.mp hl with h | h
  · exact h ▸ hcx
  · rw [List.mem_singleton.mp h]
    exact hcy

/-- Witness for C3 at one-character `a`, `x`, `y`, `z`. -/
theorem claim_C3_pipe_saturation_witness :
    rubyToHTML (lit "[" ++ lit "a" ++ lit "]^^(" ++ lit "x" ++ lit "|" ++ lit "y" ++
          lit ")^_(" ++ lit "z" ++ lit ")") =
        rubyToHTML (lit "[" ++ lit "a" ++ lit "]^^(" ++ lit "x" ++ lit "|" ++ lit "y" ++ lit ")") ∧
      strContains
        (rubyToHTML (lit "[" ++ lit "a" ++ lit "]^^(" ++ lit "x" ++ lit "|" ++ lit "y" ++
          lit ")^_(" ++ lit "z" ++ lit ")")) (lit "^_(") = false ∧
      strContains
        (rubyToHTML (lit "[" ++ lit "a" ++ lit "]^^(" ++ lit "x" ++ lit "|" ++ lit "y" ++
          lit ")^_(" ++ lit "z" ++ lit ")")) (lit "z") =
      strContains
        (rubyToHTML (lit "[" ++ lit "a" ++ lit "]^^(" ++ lit "x" ++ lit "|" ++ lit "y" ++ lit ")"))
        (lit "z") :=
  claim_C3_pipe_saturation (lit "a") (lit "x") (lit "y") (lit "z")
    (by decide) (by decide) (by decide) (by decide)

/-- Claim C5 as amended: an unterminated content run does not recover
locally — it aborts the entire pass.  For every plain base `a`, content
prefix `x` with no closing paren before the line break, and *arbitrary*
rest of the input after the line break, `rubyToHTML` returns the whole
input unchanged; in particular any later well-formed annotation
(contained in `rest`) is not rendered. -/
theorem claim_C5_unterminated_aborts (a x rest : Str) (op : RubyOp)
    (ha : plainBase a = true)
    (hxc : ∀ c ∈ x, c ≠ ')' ∧ c ≠ '\n' ∧ c ≠ '\r') :
    rubyToHTML (markupCore a op (x ++ '\n' :: rest)) = markupCore a op (x ++ '\n' :: rest) := by
  have hpass : rubyToHTMLPass (markupCore a op (x ++ '\n' :: rest)) =
      markupCore a op (x ++ '\n' :: rest) := by
    rw [rubyToHTMLPass, if_pos (hasRuby_mc a op _)]
    exact pass_entry_unterminated a x rest op _ ha hxc
  rw [rubyToHTML, if_pos (hasRuby_mc a op _)]
  show rubyLoop 5 _ = _
  rw [rubyLoop, hpass]
  simp

/-- Witness for C5 (amended): `[a]^^(x` on the first line followed by a
well-formed annotation on the second line is returned unchanged. -/
theorem claim_C5_unterminated_aborts_witness :
    rubyToHTML (markupCore (lit "a") .over (lit "x" ++ '\n' :: lit "[b]^^(y)")) =
      markupCore (lit "a") .over (lit "x" ++ '\n' :: lit "[b]^^(y)") :=
  claim_C5_unterminated_aborts (lit "a") (lit "x") (lit "[b]^^(y)") .over
    (by decide) (by decide)


/-! ## Counting angle brackets: each ruby unit contributes exactly 8 -/

theorem count_lt_rubyUnit (pos content ann : Str)
    (hp : List.count '<' pos = 0) (hpa : List.count '<' (rubyPosAttr pos) = 0)
    (hc : List.count '<' content = 0) (ha : List.count '<' ann = 0) :
    List.count '<' (rubyUnit pos content ann) = 8 := by
  simp only [rubyUnit, List.count_append, hp, hpa, hc, ha,
    show List.count '<' (lit "<ruby class=\"ls-ruby ") = 1 from by decide,
    show List.count '<' (lit "\"") = 0 from by decide,
    show List.count '<' (lit ">") = 0 from by decide,
    show List.count '<' (lit "<rp>(</rp><rt>") = 3 from by decide,
    show List.count '<' (lit "</rt><rp>)</rp></ruby>") = 4 from by decide]

theorem count_lt_renderPerChar1 (pos : Str)
    (hp : List.count '<' pos = 0) (hpa : List.count '<' (rubyPosAttr pos) = 0) :
    ∀ (cs : List Char) (anns : List Str), cs.length = anns.length →
      (∀ c ∈ cs, c ≠ '<') → (∀ s ∈ anns, List.count '<' s = 0) →
      List.count '<' (renderPerChar1 pos cs anns) = 8 * cs.length := by
  intro cs
  induction cs with
  | nil =>
      intro anns h _ _
      cases anns with
      | nil => simp [renderPerChar1]
      | cons a anns => simp at h
  | cons c cs ih =>
      intro anns h hcs hanns
      cases anns with
      | nil => simp at h
      | cons a anns =>
        rw [renderPerChar1, List.count_append]
        have hcne : c ≠ '<' := hcs c (List.mem_cons_self c cs)
        have hc0 : List.count '<' ([c] : Str) = 0 := by
          simp [List.count_cons, hcne]
        have hu :
            List.count '<'
              (if shouldHideAnnotation c a then emptyRuby c pos else rubyUnit pos [c] a) = 8 := by
          split
          · rw [emptyRuby]
            exact count_lt_rubyUnit pos [c] [] hp hpa hc0 (by simp)
          · exact count_lt_rubyUnit pos [c] a hp hpa hc0 (hanns a (List.mem_cons_self a anns))
        rw [hu, ih anns (by simpa using h)
          (fun d hd => hcs d (List.mem_cons_of_mem _ hd))
          (fun s hs => hanns s (List.mem_cons_of_mem _ hs))]
        simp only [List.length_cons]
        ring

/-- Unfolding of `renderRuby` at a single over-positioned level. -/
theorem renderRuby_single_over (a x : Str) :
    renderRuby a .over [x] =
      if x.contains ' ' && decide ((splitBySpaces x).length = (unescape a).length) then
        renderPerChar1 (lit "ls-ruby-over") (unescape a) (splitBySpaces x)
      else
        rubyUnit (lit "ls-ruby-over") (unescape a) x := rfl

/-- Unfolding of `renderRuby` at a single under-positioned level. -/
theorem renderRuby_single_under (a x : Str) :
    renderRuby a .under [x] =
      if x.contains ' ' && decide ((splitBySpaces x).length = (unescape a).length) then
        renderPerChar1 (lit "ls-ruby-under") (unescape a) (splitBySpaces x)
      else
        rubyUnit (lit "ls-ruby-under") (unescape a) x := rfl

/-- Claim C6 as amended: the spec claims the per-character alignment is
gated on "at least one whitespace character", but the source gates on the
literal ASCII space (`rubyText.includes(" ")`) while the splitter splits
on all whitespace; with an ASCII space present the claimed alignment rule
does hold: for any plain base `a` and ordinary annotation `x` containing
a space, the rendered output consists of `countCharacters (unescape a)`
annotated ruby units (measured as 8 `<` characters per unit) when the
whitespace-segment count matches the base's character count, and exactly
one group unit (8 `<` characters) otherwise. -/
theorem claim_C6_alignment_amended (a x : Str) (op : RubyOp)
    (ha : plainBase a = true) (hx : ordinaryAnn x = true)
    (hsp : ' ' ∈ x) (hla : '<' ∉ a) (hlx : '<' ∉ x) :
    ((splitBySpaces x).length = countCharacters (unescape a) →
        List.count '<' (rubyToHTML (markup1 a op x)) = 8 * countCharacters (unescape a)) ∧
      ((splitBySpaces x).length ≠ countCharacters (unescape a) →
        List.count '<' (rubyToHTML (markup1 a op x)) = 8) := by
  have hnb : '\\' ∉ a := fun hc => (plainBase_mem ha hc).2.2.2.1 rfl
  have hua : unescape a = a := unescape_eq_self hnb
  have hct : x.contains ' ' = true := List.elem_eq_true_of_mem hsp
  simp only [countCharacters, hua]
  cases op
  all_goals first
    | rw [rubyToHTML_markup1 a x .over ha hx, renderRuby_single_over]
    | rw [rubyToHTML_markup1 a x .under ha hx, renderRuby_single_under]
  all_goals rw [hua]
  all_goals constructor
  all_goals intro hlen
  · rw [if_pos (by simp only [hct, Bool.true_and, decide_eq_true_eq]; exact hlen)]
    exact count_lt_renderPerChar1 _ (by decide) (by decide) a (splitBySpaces x) hlen.symm
      (fun c hc hc' => hla (hc' ▸ hc))
      (fun s hs => List.count_eq_zero.mpr (fun hc => hlx (mem_splitBySpaces hs hc)))
  · rw [if_neg (by simp only [hct, Bool.true_and, decide_eq_true_eq]; exact hlen)]
    exact count_lt_rubyUnit _ _ _ (by decide) (by decide)
      (List.count_eq_zero.mpr hla) (List.count_eq_zero.mpr hlx)
  · rw [if_pos (by simp only [hct, Bool.true_and, decide_eq_true_eq]; exact hlen)]
    exact count_lt_renderPerChar1 _ (by decide) (by decide) a (splitBySpaces x) hlen.symm
      (fun c hc hc' => hla (hc' ▸ hc))
      (fun s hs => List.count_eq_zero.mpr (fun hc => hlx (mem_splitBySpaces hs hc)))
  · rw [if_neg (by simp only [hct, Bool.true_and, decide_eq_true_eq]; exact hlen)]
    exact count_lt_rubyUnit _ _ _ (by decide) (by decide)
      (List.count_eq_zero.mpr hla) (List.count_eq_zero.mpr hlx)

/-- Witness for C6 (amended): base of two characters; the aligned
annotation "x y" has two segments, the misaligned "x y z" has three. -/
theorem claim_C6_alignment_amended_witness :
    (((splitBySpaces (lit "x y")).length = countCharacters (unescape (lit "ab")) →
        List.count '<' (rubyToHTML (markup1 (lit "ab") .over (lit "x y"))) =
          8 * countCharacters (unescape (lit "ab"))) ∧
      ((splitBySpaces (lit "x y")).length ≠ countCharacters (unescape (lit "ab")) →
        List.count '<' (rubyToHTML (markup1 (lit "ab") .over (lit "x y"))) = 8)) ∧
    (((splitBySpaces (lit "x y z")).length = countCharacters (unescape (lit "ab")) →
        List.count '<' (rubyToHTML (markup1 (lit "ab") .over (lit "x y z"))) =
          8 * countCharacters (unescape (lit "ab"))) ∧
      ((splitBySpaces (lit "x y z")).length ≠ countCharacters (unescape (lit "ab")) →
        List.count '<' (rubyToHTML (markup1 (lit "ab") .over (lit "x y z"))) = 8)) :=
  ⟨claim_C6_alignment_amended (lit "ab") (lit "x y") .over
      (by decide) (by decide) (by decide) (by decide) (by decide),
    claim_C6_alignment_amended (lit "ab") (lit "x y z") .over
      (by decide) (by decide) (by decide) (by decide) (by decide)⟩


/-! ## Underline-marker routes (claim C7) -/

theorem marker_cases {m : Str} {st : UnderlineStyle} (h : getUnderlineStyle m = some st) :
    (m = lit ".-" ∧ st = .solid) ∨ (m = lit ".~" ∧ st = .wavy) ∨
      (m = lit ".=" ∧ st = .double) := by
  rw [getUnderlineStyle] at h
  split_ifs at h with h1 h2 h3
  · exact Or.inl ⟨h1, (Option.some.inj h).symm⟩
  · exact Or.inr (Or.inl ⟨h2, (Option.some.inj h).symm⟩)
  · exact Or.inr (Or.inr ⟨h3, (Option.some.inj h).symm⟩)

theorem marker_facts {m : Str} {st : UnderlineStyle} (h : getUnderlineStyle m = some st) :
    plainContent m = true ∧ m ≠ lit ".." := by
  rcases marker_cases h with ⟨hm, _⟩ | ⟨hm, _⟩ | ⟨hm, _⟩ <;> subst hm <;>
    exact ⟨by decide, by decide⟩

theorem renderMatch_under_marker (a m : Str) (st : UnderlineStyle)
    (hm : getUnderlineStyle m = some st) :
    renderMatch (markup1 a .under m) .under 0 0 (a.length + 5 + m.length) a m =
      (renderUnderline a st, a.length + 5 + m.length + 1) := by
  obtain ⟨hmp, hmd⟩ := marker_facts hm
  have hlen : (markup1 a .under m).length = a.length + 5 + m.length + 1 := by
    rw [markup1, mc_len]
    simp only [List.length_append, List.length_cons, List.length_nil]
    omega
  have hchain : chainDetect (markup1 a .under m) .under (a.length + 5 + m.length + 1) = none :=
    chainDetect_none_of_end _ _ _ (by omega)
  have hsplit : splitByUnescapedPipe m = [m] :=
    splitByUnescapedPipe_no_pipe (plainContent_no_pipe hmp)
  have hu : unescape m = m := unescape_eq_self (plainContent_no_bs hmp)
  have hul : (if RubyOp.under = RubyOp.under then getUnderlineStyle m else none) = some st := by
    simp [hm]
  rw [renderMatch]
  simp only [hchain, hsplit, hu, hul, hmd, List.map]
  simp [slice, hmd, hm]

theorem renderMatch_over_marker (a m : Str) (st : UnderlineStyle)
    (hm : getUnderlineStyle m = some st) :
    renderMatch (markup1 a .over m) .over 0 0 (a.length + 5 + m.length) a m =
      (renderRuby a .over [m], a.length + 5 + m.length + 1) := by
  obtain ⟨hmp, hmd⟩ := marker_facts hm
  have hlen : (markup1 a .over m).length = a.length + 5 + m.length + 1 := by
    rw [markup1, mc_len]
    simp only [List.length_append, List.length_cons, List.length_nil]
    omega
  have hchain : chainDetect (markup1 a .over m) .over (a.length + 5 + m.length + 1) = none :=
    chainDetect_none_of_end _ _ _ (by omega)
  have hsplit : splitByUnescapedPipe m = [m] :=
    splitByUnescapedPipe_no_pipe (plainContent_no_pipe hmp)
  have hu : unescape m = m := unescape_eq_self (plainContent_no_bs hmp)
  have hul : (if RubyOp.over = RubyOp.under then getUnderlineStyle m else none) = none := rfl
  rw [renderMatch]
  simp only [hchain, hsplit, hu, hul, hmd, List.map]
  simp [slice, hmd]

theorem renderMatch_pipe_marker_over (a x m : Str) (st : UnderlineStyle)
    (hx : ordinaryAnn x = true) (hm : getUnderlineStyle m = some st) :
    renderMatch (markup1 a .over (x ++ '|' :: m)) .over 0 0
        (a.length + 5 + (x ++ '|' :: m).length) a (x ++ '|' :: m) =
      (renderRubyWithUnderline a x .over st, a.length + 5 + (x ++ '|' :: m).length + 1) := by
  obtain ⟨hpx, hdx, hulx⟩ := ordinaryAnn_spec hx
  obtain ⟨hmp, hmd⟩ := marker_facts hm
  have hlen : (markup1 a .over (x ++ '|' :: m)).length =
      a.length + 5 + (x ++ '|' :: m).length + 1 := by
    rw [markup1, mc_len]
    simp only [List.length_append, List.length_cons, List.length_nil]
    omega
  have hchain : chainDetect (markup1 a .over (x ++ '|' :: m))
      .over (a.length + 5 + (x ++ '|' :: m).length + 1) = none :=
    chainDetect_none_of_end _ _ _ (by omega)
  have hsplit : splitByUnescapedPipe (x ++ '|' :: m) = [x, m] :=
    splitByUnescapedPipe_one_pipe (plainContent_no_pipe hpx) (plainContent_no_pipe hmp)
      (plainContent_no_bs hpx)
  have hux : unescape x = x := unescape_eq_self (plainContent_no_bs hpx)
  have hum : unescape m = m := unescape_eq_self (plainContent_no_bs hmp)
  have hdots := pipe_ne_dots x m
  have hulinner : (if RubyOp.over = RubyOp.under then getUnderlineStyle x else none) = none := rfl
  have hulouter : (if RubyOp.over.flip = RubyOp.under then getUnderlineStyle m else none) =
      some st := by
    simp [RubyOp.flip, hm]
  rw [renderMatch]
  simp only [hchain, hsplit, hux, hum, hdots, hulinner, hulouter, List.map, hdx, hmd]
  simp [hdx, hmd, slice, hulinner, hulouter]

theorem renderMatch_pipe_marker_first (a x m : Str) (st : UnderlineStyle)
    (hx : ordinaryAnn x = true) (hm : getUnderlineStyle m = some st) :
    renderMatch (markup1 a .over (m ++ '|' :: x)) .over 0 0
        (a.length + 5 + (m ++ '|' :: x).length) a (m ++ '|' :: x) =
      (renderRuby a .over [m, x], a.length + 5 + (m ++ '|' :: x).length + 1) := by
  obtain ⟨hpx, hdx, hulx⟩ := ordinaryAnn_spec hx
  obtain ⟨hmp, hmd⟩ := marker_facts hm
  have hlen : (markup1 a .over (m ++ '|' :: x)).length =
      a.length + 5 + (m ++ '|' :: x).length + 1 := by
    rw [markup1, mc_len]
    simp only [List.length_append, List.length_cons, List.length_nil]
    omega
  have hchain : chainDetect (markup1 a .over (m ++ '|' :: x))
      .over (a.length + 5 + (m ++ '|' :: x).length + 1) = none :=
    chainDetect_none_of_end _ _ _ (by omega)
  have hsplit : splitByUnescapedPipe (m ++ '|' :: x) = [m, x] :=
    splitByUnescapedPipe_one_pipe (plainContent_no_pipe hmp) (plainContent_no_pipe hpx)
      (plainContent_no_bs hmp)
  have hux : unescape x = x := unescape_eq_self (plainContent_no_bs hpx)
  have hum : unescape m = m := unescape_eq_self (plainContent_no_bs hmp)
  have hdots := pipe_ne_dots m x
  have hulinner : (if RubyOp.over = RubyOp.under then getUnderlineStyle m else none) = none := rfl
  have hulouter : (if RubyOp.over.flip = RubyOp.under then getUnderlineStyle x else none) =
      none := by
    simp [RubyOp.flip, hulx]
  rw [renderMatch]
  simp only [hchain, hsplit, hux, hum, hdots, hulinner, hulouter, List.map, hdx, hmd]
  simp [hdx, hmd, slice, hulinner, hulouter]

theorem renderMatch_pipe_marker_under (a x m : Str) (st : UnderlineStyle)
    (hx : ordinaryAnn x = true) (hm : getUnderlineStyle m = some st) :
    renderMatch (markup1 a .under (x ++ '|' :: m)) .under 0 0
        (a.length + 5 + (x ++ '|' :: m).length) a (x ++ '|' :: m) =
      (renderRuby a .under [x, m], a.length + 5 + (x ++ '|' :: m).length + 1) := by
  obtain ⟨hpx, hdx, hulx⟩ := ordinaryAnn_spec hx
  obtain ⟨hmp, hmd⟩ := marker_facts hm
  have hlen : (markup1 a .under (x ++ '|' :: m)).length =
      a.length + 5 + (x ++ '|' :: m).length + 1 := by
    rw [markup1, mc_len]
    simp only [List.length_append, List.length_cons, List.length_nil]
    omega
  have hchain : chainDetect (markup1 a .under (x ++ '|' :: m))
      .under (a.length + 5 + (x ++ '|' :: m).length + 1) = none :=
    chainDetect_none_of_end _ _ _ (by omega)
  have hsplit : splitByUnescapedPipe (x ++ '|' :: m) = [x, m] :=
    splitByUnescapedPipe_one_pipe (plainContent_no_pipe hpx) (plainContent_no_pipe hmp)
      (plainContent_no_bs hpx)
  have hux : unescape x = x := unescape_eq_self (plainContent_no_bs hpx)
  have hum : unescape m = m := unescape_eq_self (plainContent_no_bs hmp)
  have hdots := pipe_ne_dots x m
  have hulp : (if RubyOp.under = RubyOp.under then getUnderlineStyle (x ++ '|' :: m) else none) =
      none := by
    simp [getUnderlineStyle_pipe_none]
  have hulinner : (if RubyOp.under = RubyOp.under then getUnderlineStyle x else none) = none := by
    simp [hulx]
  have hulouter : (if RubyOp.under.flip = RubyOp.under then getUnderlineStyle m else none) =
      none := rfl
  rw [renderMatch]
  simp only [hchain, hsplit, hux, hum, hdots, hulp, hulinner, hulouter, List.map, hdx, hmd]
  simp [hdx, hmd, slice, hulinner, hulouter, hm, RubyOp.flip, getUnderlineStyle_pipe_none, hulx]

theorem renderMatch_chain_marker (a x m : Str) (st : UnderlineStyle)
    (hx : ordinaryAnn x = true) (hm : getUnderlineStyle m = some st) :
    renderMatch (markup2 a .over x .under m) .over 0 0 (a.length + 5 + x.length) a x =
      (renderRubyWithUnderline a x .over st, (markup2 a .over x .under m).length) := by
  obtain ⟨hpx, hdx, hulx⟩ := ordinaryAnn_spec hx
  obtain ⟨hmp, hmd⟩ := marker_facts hm
  have hchain := chainDetect_markup2 a .over x .under m (by decide) hmp
  have hsplitx : splitByUnescapedPipe x = [x] :=
    splitByUnescapedPipe_no_pipe (plainContent_no_pipe hpx)
  have hux : unescape x = x := unescape_eq_self (plainContent_no_bs hpx)
  have hum : unescape m = m := unescape_eq_self (plainContent_no_bs hmp)
  have hul1 : (if RubyOp.over = RubyOp.under then getUnderlineStyle x else none) = none := rfl
  have hul2 : (if some RubyOp.under = some RubyOp.under then getUnderlineStyle m else none) =
      some st := by
    simp [hm]
  rw [renderMatch]
  simp only [hchain, hsplitx, hux, hum, Option.map_some, Option.getD_some,
    hdx, hmd, hul1, hul2, List.map]
  simp [hdx, hmd, slice, hux, hm]

theorem renderMatch_marker_chain (a x m : Str) (st : UnderlineStyle)
    (hx : ordinaryAnn x = true) (hm : getUnderlineStyle m = some st) :
    renderMatch (markup2 a .under m .over x) .under 0 0 (a.length + 5 + m.length) a m =
      (renderRubyWithUnderline a x .over st, (markup2 a .under m .over x).length) := by
  obtain ⟨hpx, hdx, hulx⟩ := ordinaryAnn_spec hx
  obtain ⟨hmp, hmd⟩ := marker_facts hm
  have hchain := chainDetect_markup2 a .under m .over x (by decide) hpx
  have hsplitm : splitByUnescapedPipe m = [m] :=
    splitByUnescapedPipe_no_pipe (plainContent_no_pipe hmp)
  have hux : unescape x = x := unescape_eq_self (plainContent_no_bs hpx)
  have hum : unescape m = m := unescape_eq_self (plainContent_no_bs hmp)
  have hul1 : (if RubyOp.under = RubyOp.under then getUnderlineStyle m else none) = some st := by
    simp [hm]
  have hul2 : (if some RubyOp.over = some RubyOp.under then getUnderlineStyle x else none) =
      none := by
    simp
  rw [renderMatch]
  simp only [hchain, hsplitm, hux, hum, Option.map_some, Option.getD_some,
    hdx, hmd, hul1, hul2, List.map]
  simp [hdx, hmd, slice, hux, hm]


theorem rubyToHTML_under_marker (a m : Str) (st : UnderlineStyle)
    (ha : plainBase a = true) (hm : getUnderlineStyle m = some st) :
    rubyToHTML (markup1 a .under m) = renderUnderline a st := by
  obtain ⟨hmp, hmd⟩ := marker_facts hm
  have hca : '^' ∉ a := fun hc => (plainBase_mem ha hc).1 rfl
  rw [markup1]
  apply rubyToHTML_shape a m [] _ .under (a.length + 5 + m.length + 1) ha
    (plainContent_nonempty hmp) (plainContent_close_ok hmp)
  · rw [show (m ++ ')' :: [] : Str) = m ++ [')'] from rfl, ← markup1]
    exact renderMatch_under_marker a m st hm
  · rw [show (m ++ ')' :: [] : Str) = m ++ [')'] from rfl, ← markup1, markup1, mc_len]
    simp only [List.length_append, List.length_cons, List.length_nil]
    omega
  · exact no_caret_renderUnderline hca st

theorem rubyToHTML_over_marker (a m : Str) (st : UnderlineStyle)
    (ha : plainBase a = true) (hm : getUnderlineStyle m = some st) :
    rubyToHTML (markup1 a .over m) = renderRuby a .over [m] := by
  obtain ⟨hmp, hmd⟩ := marker_facts hm
  have hca : '^' ∉ a := fun hc => (plainBase_mem ha hc).1 rfl
  have hcm : '^' ∉ m := fun hc => (plainContent_mem hmp hc).1 rfl
  rw [markup1]
  apply rubyToHTML_shape a m [] _ .over (a.length + 5 + m.length + 1) ha
    (plainContent_nonempty hmp) (plainContent_close_ok hmp)
  · rw [show (m ++ ')' :: [] : Str) = m ++ [')'] from rfl, ← markup1]
    exact renderMatch_over_marker a m st hm
  · rw [show (m ++ ')' :: [] : Str) = m ++ [')'] from rfl, ← markup1, markup1, mc_len]
    simp only [List.length_append, List.length_cons, List.length_nil]
    omega
  · apply no_caret_renderRuby hca
    intro l hl
    rw [List.mem_singleton.mp hl]
    exact hcm

theorem pipe_content_close_ok {x y : Str} (hx : plainContent x = true)
    (hy : plainContent y = true) :
    ∀ ch ∈ (x ++ '|' :: y : Str), ch ≠ ')' ∧ ch ≠ '\n' ∧ ch ≠ '\r' ∧ ch ≠ '\\' := by
  intro ch hch
  rcases List.mem_append.mp hch with h | h
  · exact plainContent_close_ok hx ch h
  · rcases List.mem_cons.mp h with h | h
    · subst h
      refine ⟨by decide, by decide, by decide, by decide⟩
    · exact plainContent_close_ok hy ch h

theorem rubyToHTML_pipe_marker_over (a x m : Str) (st : UnderlineStyle)
    (ha : plainBase a = true) (hx : ordinaryAnn x = true)
    (hm : getUnderlineStyle m = some st) :
    rubyToHTML (markup1 a .over (x ++ '|' :: m)) = renderRubyWithUnderline a x .over st := by
  obtain ⟨hpx, hdx, hulx⟩ := ordinaryAnn_spec hx
  obtain ⟨hmp, hmd⟩ := marker_facts hm
  have hca : '^' ∉ a := fun hc => (plainBase_mem ha hc).1 rfl
  have hcx : '^' ∉ x := fun hc => (plainContent_mem hpx hc).1 rfl
  rw [markup1]
  apply rubyToHTML_shape a (x ++ '|' :: m) [] _ .over
    (a.length + 5 + (x ++ '|' :: m).length + 1) ha (by simp)
    (pipe_content_close_ok hpx hmp)
  · rw [show ((x ++ '|' :: m) ++ ')' :: [] : Str) = (x ++ '|' :: m) ++ [')'] from rfl, ← markup1]
    exact renderMatch_pipe_marker_over a x m st hx hm
  · rw [show ((x ++ '|' :: m) ++ ')' :: [] : Str) = (x ++ '|' :: m) ++ [')'] from rfl,
      ← markup1, markup1, mc_len]
    simp only [List.length_append, List.length_cons, List.length_nil]
    omega
  · exact no_caret_renderRubyWithUnderline hca hcx .over st

theorem rubyToHTML_pipe_marker_first (a x m : Str) (st : UnderlineStyle)
    (ha : plainBase a = true) (hx : ordinaryAnn x = true)
    (hm : getUnderlineStyle m = some st) :
    rubyToHTML (markup1 a .over (m ++ '|' :: x)) = renderRuby a .over [m, x] := by
  obtain ⟨hpx, hdx, hulx⟩ := ordinaryAnn_spec hx
  obtain ⟨hmp, hmd⟩ := marker_facts hm
  have hca : '^' ∉ a := fun hc => (plainBase_mem ha hc).1 rfl
  have hcx : '^' ∉ x := fun hc => (plainContent_mem hpx hc).1 rfl
  have hcm : '^' ∉ m := fun hc => (plainContent_mem hmp hc).1 rfl
  rw [markup1]
  apply rubyToHTML_shape a (m ++ '|' :: x) [] _ .over
    (a.length + 5 + (m ++ '|' :: x).length + 1) ha (by simp)
    (pipe_content_close_ok hmp hpx)
  · rw [show ((m ++ '|' :: x) ++ ')' :: [] : Str) = (m ++ '|' :: x) ++ [')'] from rfl, ← markup1]
    exact renderMatch_pipe_marker_first a x m st hx hm
  · rw [show ((m ++ '|' :: x) ++ ')' :: [] : Str) = (m ++ '|' :: x) ++ [')'] from rfl,
      ← markup1, markup1, mc_len]
    simp only [List.length_append, List.length_cons, List.length_nil]
    omega
  · apply no_caret_renderRuby hca
    intro l hl
    rcases List.mem_cons.mp hl with h | h
    · exact h ▸ hcm
    · rw [List.mem_singleton.mp h]
      exact hcx

theorem rubyToHTML_pipe_marker_under (a x m : Str) (st : UnderlineStyle)
    (ha : plainBase a = true) (hx : ordinaryAnn x = true)
    (hm : getUnderlineStyle m = some st) :
    rubyToHTML (markup1 a .under (x ++ '|' :: m)) = renderRuby a .under [x, m] := by
  obtain ⟨hpx, hdx, hulx⟩ := ordinaryAnn_spec hx
  obtain ⟨hmp, hmd⟩ := marker_facts hm
  have hca : '^' ∉ a := fun hc => (plainBase_mem ha hc).1 rfl
  have hcx : '^' ∉ x := fun hc => (plainContent_mem hpx hc).1 rfl
  have hcm : '^' ∉ m := fun hc => (plainContent_mem hmp hc).1 rfl
  rw [markup1]
  apply rubyToHTML_shape a (x ++ '|' :: m) [] _ .under
    (a.length + 5 + (x ++ '|' :: m).length + 1) ha (by simp)
    (pipe_content_close_ok hpx hmp)
  · rw [show ((x ++ '|' :: m) ++ ')' :: [] : Str) = (x ++ '|' :: m) ++ [')'] from rfl, ← markup1]
    exact renderMatch_pipe_marker_under a x m st hx hm
  · rw [show ((x ++ '|' :: m) ++ ')' :: [] : Str) = (x ++ '|' :: m) ++ [')'] from rfl,
      ← markup1, markup1, mc_len]
    simp only [List.length_append, List.length_cons, List.length_nil]
    omega
  · apply no_caret_renderRuby hca
    intro l hl
    rcases List.mem_cons.mp hl with h | h
    · exact h ▸ hcx
    · rw [List.mem_singleton.mp h]
      exact hcm

theorem rubyToHTML_chain_marker (a x m : Str) (st : UnderlineStyle)
    (ha : plainBase a = true) (hx : ordinaryAnn x = true)
    (hm : getUnderlineStyle m = some st) :
    rubyToHTML (markup2 a .over x .under m) = renderRubyWithUnderline a x .over st := by
  obtain ⟨hpx, hdx, hulx⟩ := ordinaryAnn_spec hx
  have hca : '^' ∉ a := fun hc => (plainBase_mem ha hc).1 rfl
  have hcx : '^' ∉ x := fun hc => (plainContent_mem hpx hc).1 rfl
  rw [markup2]
  apply rubyToHTML_shape a x ('^' :: opChar .under :: '(' :: (m ++ [')'])) _ .over
    ((markup2 a .over x .under m).length) ha (plainContent_nonempty hpx)
    (plainContent_close_ok hpx)
  · rw [← markup2]
    exact renderMatch_chain_marker a x m st hx hm
  · rw [← markup2]
  · exact no_caret_renderRubyWithUnderline hca hcx .over st

theorem rubyToHTML_marker_chain (a x m : Str) (st : UnderlineStyle)
    (ha : plainBase a = true) (hx : ordinaryAnn x = true)
    (hm : getUnderlineStyle m = some st) :
    rubyToHTML (markup2 a .under m .over x) = renderRubyWithUnderline a x .over st := by
  obtain ⟨hpx, hdx, hulx⟩ := ordinaryAnn_spec hx
  obtain ⟨hmp, hmd⟩ := marker_facts hm
  have hca : '^' ∉ a := fun hc => (plainBase_mem ha hc).1 rfl
  have hcx : '^' ∉ x := fun hc => (plainContent_mem hpx hc).1 rfl
  rw [markup2]
  apply rubyToHTML_shape a m ('^' :: opChar .over :: '(' :: (x ++ [')'])) _ .under
    ((markup2 a .under m .over x).length) ha (plainContent_nonempty hmp)
    (plainContent_close_ok hmp)
  · rw [← markup2]
    exact renderMatch_marker_chain a x m st hx hm
  · rw [← markup2]
  · exact no_caret_renderRubyWithUnderline hca hcx .over st

/-- Claim C7: underline asymmetry.  For every plain base `a`, ordinary
text `x` and underline marker `m` (`getUnderlineStyle m = some st`, i.e.
`m` is ".-", ".~" or ".="), the marker produces an underline decoration
exactly when it occupies the UNDER slot — reached via the direct `^_`
operator, via a chained `^_` after `^^(x)`, via pipe index 1 of a `^^`
content, or via a chained `^_` *before* `^^(x)` — and the same marker in
the OVER slot (direct `^^`, pipe index 0 of `^^` content, or pipe index 1
of `^_` content, which is the over slot) renders as ordinary literal ruby
text via `renderRuby`, never as a decoration. -/
theorem claim_C7_underline_asymmetry (a x m : Str) (st : UnderlineStyle)
    (ha : plainBase a = true) (hx : ordinaryAnn x = true)
    (hm : getUnderlineStyle m = some st) :
    rubyToHTML (markup1 a .under m) = renderUnderline a st ∧
      rubyToHTML (markup2 a .over x .under m) = renderRubyWithUnderline a x .over st ∧
      rubyToHTML (markup1 a .over (x ++ '|' :: m)) = renderRubyWithUnderline a x .over st ∧
      rubyToHTML (markup2 a .under m .over x) = renderRubyWithUnderline a x .over st ∧
      rubyToHTML (markup1 a .over m) = renderRuby a .over [m] ∧
      rubyToHTML (markup1 a .over (m ++ '|' :: x)) = renderRuby a .over [m, x] ∧
      rubyToHTML (markup1 a .under (x ++ '|' :: m)) = renderRuby a .under [x, m] :=
  ⟨rubyToHTML_under_marker a m st ha hm,
    rubyToHTML_chain_marker a x m st ha hx hm,
    rubyToHTML_pipe_marker_over a x m st ha hx hm,
    rubyToHTML_marker_chain a x m st ha hx hm,
    rubyToHTML_over_marker a m st ha hm,
    rubyToHTML_pipe_marker_first a x m st ha hx hm,
    rubyToHTML_pipe_marker_under a x m st ha hx hm⟩

/-- Witness for C7 at `a` = "a", `x` = "x", `m` = ".-" (solid). -/
theorem claim_C7_underline_asymmetry_witness :
    rubyToHTML (markup1 (lit "a") .under (lit ".-")) = renderUnderline (lit "a") .solid ∧
      rubyToHTML (markup2 (lit "a") .over (lit "x") .under (lit ".-")) =
        renderRubyWithUnderline (lit "a") (lit "x") .over .solid ∧
      rubyToHTML (markup1 (lit "a") .over (lit "x" ++ '|' :: lit ".-")) =
        renderRubyWithUnderline (lit "a") (lit "x") .over .solid ∧
      rubyToHTML (markup2 (lit "a") .under (lit ".-") .over (lit "x")) =
        renderRubyWithUnderline (lit "a") (lit "x") .over .solid ∧
      rubyToHTML (markup1 (lit "a") .over (lit ".-")) =
        renderRuby (lit "a") .over [lit ".-"] ∧
      rubyToHTML (markup1 (lit "a") .over (lit ".-" ++ '|' :: lit "x")) =
        renderRuby (lit "a") .over [lit ".-", lit "x"] ∧
      rubyToHTML (markup1 (lit "a") .under (lit "x" ++ '|' :: lit ".-")) =
        renderRuby (lit "a") .under [lit "x", lit ".-"] :=
  claim_C7_underline_asymmetry (lit "a") (lit "x") (lit ".-") .solid
    (by decide) (by decide) (by decide)


/-! ## Code protection (parser.ts `protectCode` / `restoreCode`) -/

/-- The U+E000 private-use sentinel character. -/
def SENT : Char := Char.ofNat 0xE000

/-- The backtick character. -/
def BTICK : Char := Char.ofNat 96

/-- Decimal digit string of a natural number (the `${idx}` interpolation). -/
def natDigitsAux : Nat → Nat → Str
  | 0, _ => []
  | fuel + 1, n =>
      if n < 10 then [Char.ofNat (48 + n)]
      else natDigitsAux fuel (n / 10) ++ [Char.ofNat (48 + n % 10)]

def natDigits (n : Nat) : Str := natDigitsAux (n + 1) n

/-- The value of a decimal digit string (used to invert `natDigits`). -/
def digitsVal (s : Str) : Nat := s.foldl (fun acc c => acc * 10 + (c.toNat - 48)) 0

/-- The sentinel `CODE${i}` emitted for the `i`-th protected span. -/
def sentinel (i : Nat) : Str := SENT :: (lit "CODE" ++ natDigits i) ++ [SENT]

/-- Does the string begin with three backticks? -/
def startsTriple (s : Str) : Bool :=
  match s with
  | c1 :: c2 :: c3 :: _ => c1 = BTICK && c2 = BTICK && c3 = BTICK
  | _ => false

/-- Scan for the lazy closing ``` of a fenced block: returns the body before
the first triple-backtick and the rest after it. -/
def findTripleClose : Str → Option (Str × Str)
  | [] => none
  | c :: rest =>
      if startsTriple (c :: rest) then some ([], rest.drop 2)
      else (findTripleClose rest).map (fun p => (c :: p.1, p.2))

/-- First regex alternative ```` ```[\s\S]*?``` ```` at the current position:
on success returns the matched text and the rest of the input. -/
def tryTriple (s : Str) : Option (Str × Str) :=
  if startsTriple s then
    match findTripleClose (s.drop 3) with
    | some (body, rest') =>
        some (BTICK :: BTICK :: BTICK :: body ++ [BTICK, BTICK, BTICK], rest')
    | none => none
  else none

/-- Second regex alternative `` `[^`]+` `` at the current position. -/
def tryInline (s : Str) : Option (Str × Str) :=
  match s with
  | [] => none
  | c :: rest =>
      if c = BTICK then
        if (rest.takeWhile (fun d => d != BTICK)).isEmpty then none
        else
          match rest.dropWhile (fun d => d != BTICK) with
          | d :: rest' =>
              if d = BTICK then
                some (BTICK :: rest.takeWhile (fun d => d != BTICK) ++ [BTICK], rest')
              else none
          | [] => none
      else none

/-- parser.ts `protectCode` scanning loop: global leftmost regex replace,
first alternative preferred at each position.  The fuel bounds the number
of iterations; each iteration consumes at least one character. -/
def protectCodeAux : Nat → Str → List Str → Str × List Str
  | 0, s, toks => (s, toks)
  | fuel + 1, s, toks =>
      match s with
      | [] => ([], toks)
      | c :: rest =>
          match tryTriple (c :: rest) with
          | some (tok, rest') =>
              let out := protectCodeAux fuel rest' (toks ++ [tok])
              (sentinel toks.length ++ out.1, out.2)
          | none =>
              match tryInline (c :: rest) with
              | some (tok, rest') =>
                  let out := protectCodeAux fuel rest' (toks ++ [tok])
                  (sentinel toks.length ++ out.1, out.2)
              | none =>
                  let out := protectCodeAux fuel rest toks
                  (c :: out.1, out.2)

/-- parser.ts `protectCode`: returns `(result, tokens)`. -/
def protectCode (content : Str) : Str × List Str :=
  protectCodeAux content.length content []

/-- `result.split(pat).join(rep)`: leftmost non-overlapping replacement. -/
def replaceAllAux (pat rep : Str) : Nat → Str → Str
  | 0, s => s
  | fuel + 1, s =>
      match s with
      | [] => []
      | c :: rest =>
          if pat.isPrefixOf (c :: rest) then
            rep ++ replaceAllAux pat rep fuel ((c :: rest).drop pat.length)
          else c :: replaceAllAux pat rep fuel rest

def replaceAllStr (s pat rep : Str) : Str := replaceAllAux pat rep s.length s

/-- The loop body of parser.ts `restoreCode`
(`result = result.split(sentinel i).join(tokens[i])` for increasing `i`). -/
def restoreCodeAux : Str → List Str → Nat → Str
  | content, [], _ => content
  | content, t :: ts, i => restoreCodeAux (replaceAllStr content (sentinel i) t) ts (i + 1)

/-- parser.ts `restoreCode`. -/
def restoreCode (content : Str) (tokens : List Str) : Str :=
  restoreCodeAux content tokens 0

/-! ### Decimal digits: correctness and injectivity -/

theorem digit_toNat {n : Nat} (h : n < 10) : (Char.ofNat (48 + n)).toNat = 48 + n := by
  interval_cases n <;> decide

theorem digitsVal_append_last (u : Str) (c : Char) :
    digitsVal (u ++ [c]) = 10 * digitsVal u + (c.toNat - 48) := by
  simp only [digitsVal, List.foldl_append, List.foldl_cons, List.foldl_nil]
  ring

theorem digitsVal_natDigitsAux : ∀ fuel n, n < fuel → digitsVal (natDigitsAux fuel n) = n := by
  intro fuel
  induction fuel with
  | zero => intro n h; omega
  | succ f ih =>
      intro n h
      rw [natDigitsAux]
      by_cases h10 : n < 10
      · rw [if_pos h10]
        simp only [digitsVal, List.foldl_cons, List.foldl_nil]
        rw [digit_toNat h10]
        omega
      · rw [if_neg h10]
        rw [digitsVal_append_last, ih (n / 10) (by omega), digit_toNat (Nat.mod_lt n (by omega))]
        omega

theorem digitsVal_natDigits (n : Nat) : digitsVal (natDigits n) = n :=
  digitsVal_natDigitsAux (n + 1) n (Nat.lt_succ_self n)

theorem natDigits_inj {a b : Nat} (h : natDigits a = natDigits b) : a = b := by
  have ha := digitsVal_natDigits a
  have hb := digitsVal_natDigits b
  rw [h, hb] at ha
  exact ha.symm

/-- A decimal digit character. -/
def isDigitChar (c : Char) : Prop := 48 ≤ c.toNat ∧ c.toNat ≤ 57

theorem natDigitsAux_digits : ∀ fuel n c, c ∈ natDigitsAux fuel n → isDigitChar c := by
  intro fuel
  induction fuel with
  | zero => intro n c h; simp [natDigitsAux] at h
  | succ f ih =>
      intro n c h
      rw [natDigitsAux] at h
      by_cases h10 : n < 10
      · rw [if_pos h10] at h
        rw [List.mem_singleton.mp h]
        constructor <;> rw [digit_toNat h10] <;> omega
      · rw [if_neg h10] at h
        rcases List.mem_append.mp h with h | h
        · exact ih _ _ h
        · rw [List.mem_singleton.mp h]
          have hm : n % 10 < 10 := Nat.mod_lt n (by omega)
          constructor <;> rw [digit_toNat hm] <;> omega

theorem natDigits_digits {n : Nat} {c : Char} (h : c ∈ natDigits n) : isDigitChar c :=
  natDigitsAux_digits (n + 1) n c h

theorem digit_ne_SENT {c : Char} (h : isDigitChar c) : c ≠ SENT := by
  obtain ⟨h1, h2⟩ := h
  intro he
  rw [he] at h2
  have hs : SENT.toNat = 0xE000 := by decide
  omega

theorem SENT_not_digit_mem {n : Nat} : SENT ∉ natDigits n := fun h =>
  digit_ne_SENT (natDigits_digits h) rfl


/-! ### Sentinel shape and prefix-freeness -/

theorem sentinel_cons (i : Nat) :
    sentinel i = SENT :: ((lit "CODE" ++ natDigits i) ++ [SENT]) := by
  simp [sentinel]

theorem sentinel_ne_nil (i : Nat) : sentinel i ≠ [] := by
  rw [sentinel_cons]
  simp

theorem SENT_not_mem_mid (i : Nat) : SENT ∉ lit "CODE" ++ natDigits i := by
  intro h
  rcases List.mem_append.mp h with h | h
  · revert h
    decide
  · exact SENT_not_digit_mem h

theorem digits_sent_eq :
    ∀ (d1 d2 : Str), (∀ c ∈ d1, isDigitChar c) → (∀ c ∈ d2, isDigitChar c) →
      ∀ v : Str, (d1 ++ [SENT]) <+: (d2 ++ SENT :: v) → d1 = d2 := by
  intro d1
  induction d1 with
  | nil =>
      intro d2 _ h2 v h
      cases d2 with
      | nil => rfl
      | cons c d2' =>
          simp only [List.nil_append, List.cons_append] at h
          rw [List.cons_prefix_cons] at h
          exact absurd h.1.symm (digit_ne_SENT (h2 c (List.mem_cons_self c d2')))
  | cons c1 d1' ih =>
      intro d2 h1 h2 v h
      cases d2 with
      | nil =>
          simp only [List.cons_append, List.nil_append] at h
          rw [List.cons_prefix_cons] at h
          exact absurd h.1 (digit_ne_SENT (h1 c1 (List.mem_cons_self c1 d1')))
      | cons c2 d2' =>
          simp only [List.cons_append] at h
          rw [List.cons_prefix_cons] at h
          obtain ⟨he, hp⟩ := h
          subst he
          rw [ih d2' (fun c hc => h1 c (List.mem_cons_of_mem _ hc))
            (fun c hc => h2 c (List.mem_cons_of_mem _ hc)) v hp]

theorem sentinel_prefix_free {j k : Nat} {v : Str}
    (h : sentinel j <+: sentinel k ++ v) : j = k := by
  have hexp : ∀ i, sentinel i = SENT :: 'C' :: 'O' :: 'D' :: 'E' :: (natDigits i ++ [SENT]) := by
    intro i
    rw [sentinel_cons]
    rw [show lit "CODE" = (['C', 'O', 'D', 'E'] : Str) from by decide]
    simp
  rw [hexp j, hexp k] at h
  simp only [List.cons_append] at h
  rw [List.cons_prefix_cons] at h
  rw [List.cons_prefix_cons] at h
  rw [List.cons_prefix_cons] at h
  rw [List.cons_prefix_cons] at h
  rw [List.cons_prefix_cons] at h
  have hp := h.2.2.2.2.2
  rw [show (natDigits k ++ [SENT]) ++ v = natDigits k ++ SENT :: v from by simp] at hp
  exact natDigits_inj (digits_sent_eq (natDigits j) (natDigits k)
    (fun c hc => natDigits_digits hc) (fun c hc => natDigits_digits hc) v hp)

theorem suffix_of_block {mid : Str} (hmid : SENT ∉ mid) {b' : Str}
    (hb : b' <:+ (SENT :: (mid ++ [SENT]))) (hne : b' ≠ []) :
    b' = SENT :: (mid ++ [SENT]) ∨ b' = [SENT] ∨
      ∃ e b'', b' = e :: b'' ∧ e ≠ SENT := by
  obtain ⟨u, hu⟩ := hb
  cases u with
  | nil =>
      refine Or.inl ?_
      rw [← hu]
      simp
  | cons c u' =>
      have hu' : u' ++ b' = mid ++ [SENT] := by
        have := hu
        rw [List.cons_append] at this
        exact (List.cons.injEq _ _ _ _ ▸ this : _ ∧ _).2
      rcases List.eq_nil_or_concat b' with hb0 | ⟨m', lc, hb1⟩
      · exact absurd hb0 hne
      · subst hb1
        have hinj : (u' ++ m') ++ [lc] = mid ++ [SENT] := by
          rw [← hu']
          simp
        have := List.append_inj' hinj (by simp)
        obtain ⟨hmid', hlc⟩ := this
        have hlc' : lc = SENT := by simpa using hlc
        subst hlc'
        cases m' with
        | nil => exact Or.inr (Or.inl rfl)
        | cons e m'' =>
            refine Or.inr (Or.inr ⟨e, m'' ++ [SENT], by simp, ?_⟩)
            intro he
            subst he
            apply hmid
            rw [← hmid']
            exact List.mem_append_right _ (List.mem_cons_self _ _)

/-! ### The protected-output structure -/

/-- The shape of `protectCode` output: an interleaving of original
characters (never the sentinel character) and numbered sentinels standing
for the extracted tokens. -/
inductive Seg : Nat → List Str → Str → Str → Prop
  | nil (k : Nat) : Seg k [] [] []
  | plain (k : Nat) (c : Char) (ts : List Str) (s out : Str) (hc : c ≠ SENT)
      (h : Seg k ts s out) : Seg k ts (c :: s) (c :: out)
  | tok (k : Nat) (t : Str) (ts : List Str) (s out : Str) (ht : SENT ∉ t) (htn : t ≠ [])
      (h : Seg (k + 1) ts s out) : Seg k (t :: ts) (t ++ s) (sentinel k ++ out)

theorem startsTriple_shape {s : Str} (h : startsTriple s = true) :
    ∃ s3, s = BTICK :: BTICK :: BTICK :: s3 := by
  match s, h with
  | c1 :: c2 :: c3 :: s3, h =>
      rw [startsTriple] at h
      simp only [Bool.and_eq_true, decide_eq_true_eq] at h
      obtain ⟨⟨h1, h2⟩, h3⟩ := h
      subst h1
      subst h2
      subst h3
      exact ⟨s3, rfl⟩

theorem findTripleClose_decomp :
    ∀ {s body rest' : Str}, findTripleClose s = some (body, rest') →
      s = body ++ BTICK :: BTICK :: BTICK :: rest' := by
  intro s
  induction s with
  | nil => intro body rest' h; simp [findTripleClose] at h
  | cons c rest ih =>
      intro body rest' h
      rw [findTripleClose] at h
      split at h
      · rename_i hst
        obtain ⟨s3, hs3⟩ := startsTriple_shape hst
        simp only [Option.some.injEq, Prod.mk.injEq] at h
        obtain ⟨hbody, hrest⟩ := h
        subst hbody
        have hr2 : rest.drop 2 = s3 := by
          have : c :: rest = BTICK :: BTICK :: BTICK :: s3 := hs3
          have hrr : rest = BTICK :: BTICK :: s3 := by
            exact (List.cons.injEq _ _ _ _ ▸ this : _ ∧ _).2
          rw [hrr]
          rfl
        rw [← hrest, hr2]
        have hcc : c = BTICK := (List.cons.injEq _ _ _ _ ▸ hs3 : _ ∧ _).1
        have hrr : rest = BTICK :: BTICK :: s3 := (List.cons.injEq _ _ _ _ ▸ hs3 : _ ∧ _).2
        rw [hcc, hrr]
        rfl
      · cases hf : findTripleClose rest with
        | none => rw [hf] at h; simp at h
        | some p =>
            obtain ⟨b, r⟩ := p
            rw [hf] at h
            have hp := Option.some.inj h
            have hbody : (c :: b : Str) = body := congrArg Prod.fst hp
            have hrest : r = rest' := congrArg Prod.snd hp
            rw [← hbody, ← hrest]
            rw [ih hf]
            rfl

theorem tryTriple_decomp {s tok rest' : Str} (h : tryTriple s = some (tok, rest')) :
    s = tok ++ rest' ∧ tok ≠ [] := by
  rw [tryTriple] at h
  split at h
  · rename_i hst
    obtain ⟨s3, hs3⟩ := startsTriple_shape hst
    cases hf : findTripleClose (s.drop 3) with
    | none => rw [hf] at h; exact absurd h (by simp)
    | some p =>
        rw [hf] at h
        obtain ⟨b, r⟩ := p
        simp only [Option.some.injEq, Prod.mk.injEq] at h
        obtain ⟨htok, hrest⟩ := h
        have hdrop : s.drop 3 = s3 := by rw [hs3]; rfl
        rw [hdrop] at hf
        have := findTripleClose_decomp hf
        subst htok
        subst hrest
        constructor
        · rw [hs3, this]
          simp
        · simp
  · exact absurd h (by simp)

theorem tryInline_decomp {s tok rest' : Str} (h : tryInline s = some (tok, rest')) :
    s = tok ++ rest' ∧ tok ≠ [] := by
  cases s with
  | nil => simp [tryInline] at h
  | cons c rest =>
      rw [tryInline] at h
      split at h
      · rename_i hc
        split at h
        · exact absurd h (by simp)
        · split at h
          · rename_i hrun d rest2 hd
            split at h
            · rename_i hdb
              have hp := Option.some.inj h
              have htok : (BTICK :: rest.takeWhile (fun d => d != BTICK) ++ [BTICK] : Str) = tok :=
                congrArg Prod.fst hp
              have hrest : rest2 = rest' := congrArg Prod.snd hp
              constructor
              · rw [hc, ← htok, ← hrest]
                have hsplit := List.takeWhile_append_dropWhile
                  (p := fun d => d != BTICK) (l := rest)
                rw [hd] at hsplit
                rw [show (BTICK :: rest.takeWhile (fun d => d != BTICK) ++ [BTICK]) ++ rest2 =
                    BTICK :: (rest.takeWhile (fun d => d != BTICK) ++ BTICK :: rest2) from by
                  simp]
                rw [hdb] at hsplit
                rw [hsplit]
              · rw [← htok]
                simp
            · exact absurd h (by simp)
          · exact absurd h (by simp)
      · exact absurd h (by simp)

theorem protect_seg :
    ∀ (fuel : Nat) (s : Str) (toks : List Str), s.length ≤ fuel → SENT ∉ s →
      ∃ out ts, protectCodeAux fuel s toks = (out, toks ++ ts) ∧ Seg toks.length ts s out := by
  intro fuel
  induction fuel with
  | zero =>
      intro s toks hlen hs
      have hnil : s = [] := List.eq_nil_of_length_eq_zero (Nat.le_zero.mp hlen)
      subst hnil
      exact ⟨[], [], by simp [protectCodeAux], Seg.nil _⟩
  | succ f ih =>
      intro s toks hlen hs
      cases s with
      | nil => exact ⟨[], [], by simp [protectCodeAux], Seg.nil _⟩
      | cons c rest =>
          cases htt : tryTriple (c :: rest) with
          | some p =>
              obtain ⟨tok, rest'⟩ := p
              obtain ⟨hdecomp, htokne⟩ := tryTriple_decomp htt
              have hlen2 : tok.length + rest'.length = rest.length + 1 := by
                have := congrArg List.length hdecomp
                simp only [List.length_cons, List.length_append] at this
                omega
              have htokpos : 0 < tok.length := List.length_pos.mpr htokne
              have hlen' : rest'.length ≤ f := by
                simp only [List.length_cons] at hlen
                omega
              have hsrest : SENT ∉ rest' := fun hmem =>
                hs (hdecomp ▸ List.mem_append_right _ hmem)
              have hstok : SENT ∉ tok := fun hmem =>
                hs (hdecomp ▸ List.mem_append_left _ hmem)
              obtain ⟨out', ts', heq, hseg⟩ := ih rest' (toks ++ [tok]) hlen' hsrest
              refine ⟨sentinel toks.length ++ out', tok :: ts', ?_, ?_⟩
              · simp only [protectCodeAux, htt]
                rw [heq]
                simp
              · have hseg' : Seg (toks.length + 1) ts' rest' out' := by
                  simpa using hseg
                exact hdecomp ▸ Seg.tok _ tok ts' rest' out' hstok htokne hseg'
          | none =>
              cases hti : tryInline (c :: rest) with
              | some p =>
                  obtain ⟨tok, rest'⟩ := p
                  obtain ⟨hdecomp, htokne⟩ := tryInline_decomp hti
                  have hlen2 : tok.length + rest'.length = rest.length + 1 := by
                    have := congrArg List.length hdecomp
                    simp only [List.length_cons, List.length_append] at this
                    omega
                  have htokpos : 0 < tok.length := List.length_pos.mpr htokne
                  have hlen' : rest'.length ≤ f := by
                    simp only [List.length_cons] at hlen
                    omega
                  have hsrest : SENT ∉ rest' := fun hmem =>
                    hs (hdecomp ▸ List.mem_append_right _ hmem)
                  have hstok : SENT ∉ tok := fun hmem =>
                    hs (hdecomp ▸ List.mem_append_left _ hmem)
                  obtain ⟨out', ts', heq, hseg⟩ := ih rest' (toks ++ [tok]) hlen' hsrest
                  refine ⟨sentinel toks.length ++ out', tok :: ts', ?_, ?_⟩
                  · simp only [protectCodeAux, htt, hti]
                    rw [heq]
                    simp
                  · have hseg' : Seg (toks.length + 1) ts' rest' out' := by
                      simpa using hseg
                    exact hdecomp ▸ Seg.tok _ tok ts' rest' out' hstok htokne hseg'
              | none =>
                  have hc : c ≠ SENT := fun h => hs (h ▸ List.mem_cons_self c rest)
                  have hlen' : rest.length ≤ f := by
                    simp only [List.length_cons] at hlen
                    omega
                  obtain ⟨out', ts', heq, hseg⟩ := ih rest toks hlen'
                    (fun h => hs (List.mem_cons_of_mem _ h))
                  refine ⟨c :: out', ts', ?_, Seg.plain _ c ts' rest out' hc hseg⟩
                  simp only [protectCodeAux, htt, hti]
                  rw [heq]


/-! ### Replacement lemmas -/

theorem replaceAllAux_nil (pat rep : Str) : ∀ f, replaceAllAux pat rep f [] = [] := by
  intro f
  cases f <;> rfl

theorem replaceAllStr_cons_skip {pat : Str} (c : Char) (u rep : Str)
    (h : ¬ pat <+: (c :: u)) :
    replaceAllStr (c :: u) pat rep = c :: replaceAllStr u pat rep := by
  show replaceAllAux pat rep (u.length + 1) (c :: u) = _
  rw [replaceAllAux, if_neg (fun hpre => h (List.isPrefixOf_iff_prefix.mp hpre))]
  rfl

theorem not_prefix_of_head_ne {c : Char} {p' : Str} {d : Char} {u : Str} (hne : d ≠ c) :
    ¬ (c :: p') <+: (d :: u) := by
  intro h
  rw [List.cons_prefix_cons] at h
  exact hne h.1.symm

theorem sentinel_not_prefix_cons {j : Nat} {d : Char} {u : Str} (hne : d ≠ SENT) :
    ¬ sentinel j <+: (d :: u) := by
  rw [sentinel_cons]
  exact not_prefix_of_head_ne hne

theorem replaceAllAux_fuel {pat : Str} (hpat : pat ≠ []) (rep : Str) :
    ∀ f1 f2 s, s.length ≤ f1 → s.length ≤ f2 →
      replaceAllAux pat rep f1 s = replaceAllAux pat rep f2 s := by
  intro f1
  induction f1 with
  | zero =>
      intro f2 s h1 _
      have : s = [] := List.eq_nil_of_length_eq_zero (Nat.le_zero.mp h1)
      subst this
      rw [replaceAllAux_nil, replaceAllAux_nil]
  | succ f1' ih =>
      intro f2 s h1 h2
      cases s with
      | nil => rw [replaceAllAux_nil, replaceAllAux_nil]
      | cons c rest =>
          cases f2 with
          | zero => simp at h2
          | succ f2' =>
              rw [replaceAllAux, replaceAllAux]
              split
              · have hplen : 0 < pat.length := List.length_pos.mpr hpat
                have hlen : ((c :: rest).drop pat.length).length ≤ f1' := by
                  simp only [List.length_drop, List.length_cons]
                  simp only [List.length_cons] at h1
                  omega
                have hlen2 : ((c :: rest).drop pat.length).length ≤ f2' := by
                  simp only [List.length_drop, List.length_cons]
                  simp only [List.length_cons] at h2
                  omega
                rw [ih f2' _ hlen hlen2]
              · have hlen : rest.length ≤ f1' := by
                  simp only [List.length_cons] at h1
                  omega
                have hlen2 : rest.length ≤ f2' := by
                  simp only [List.length_cons] at h2
                  omega
                rw [ih f2' rest hlen hlen2]

theorem replaceAllStr_match_head (pat u rep : Str) (hpat : pat ≠ []) :
    replaceAllStr (pat ++ u) pat rep = rep ++ replaceAllStr u pat rep := by
  cases pat with
  | nil => exact absurd rfl hpat
  | cons c p' =>
      show replaceAllAux (c :: p') rep ((c :: p') ++ u).length ((c :: p') ++ u) = _
      rw [show ((c :: p') ++ u : Str) = c :: (p' ++ u) from rfl]
      have hlen : (c :: (p' ++ u)).length = (p' ++ u).length + 1 := by simp
      rw [hlen, replaceAllAux, if_pos]
      · have hdrop : (c :: (p' ++ u)).drop (c :: p').length = u := by
          rw [show (c :: (p' ++ u) : Str) = (c :: p') ++ u from rfl]
          exact List.drop_left _ _
        rw [hdrop]
        congr 1
        apply replaceAllAux_fuel (by simp) rep
        · simp only [List.length_append]
          omega
        · rfl
      · exact List.isPrefixOf_iff_prefix.mpr
          (by rw [show (c :: (p' ++ u) : Str) = (c :: p') ++ u from rfl]
              exact List.prefix_append _ _)

theorem replaceAll_skip_block (pat rep : Str) : ∀ (b u : Str),
    (∀ b', b' ≠ [] → b' <:+ b → ¬ pat <+: (b' ++ u)) →
    replaceAllStr (b ++ u) pat rep = b ++ replaceAllStr u pat rep := by
  intro b
  induction b with
  | nil => intro u _; simp
  | cons c b2 ih =>
      intro u h
      have h0 : ¬ pat <+: ((c :: b2) ++ u) := h (c :: b2) (by simp) (List.suffix_refl _)
      rw [show ((c :: b2) ++ u : Str) = c :: (b2 ++ u) from rfl] at h0 ⊢
      rw [replaceAllStr_cons_skip c (b2 ++ u) rep h0]
      rw [ih u (fun b' hne hsuf => h b' hne (hsuf.trans (List.suffix_cons c b2)))]
      rfl

/-! ### Restore lemmas -/

theorem restoreCodeAux_cons_plain {c : Char} (hc : c ≠ SENT) :
    ∀ (ts : List Str) (u : Str) (i : Nat),
      restoreCodeAux (c :: u) ts i = c :: restoreCodeAux u ts i := by
  intro ts
  induction ts with
  | nil => intro u i; rfl
  | cons t ts ih =>
      intro u i
      rw [restoreCodeAux, restoreCodeAux]
      rw [replaceAllStr_cons_skip c u t (sentinel_not_prefix_cons hc)]
      exact ih _ _

theorem restoreCodeAux_append_left {t : Str} (ht : SENT ∉ t) (ts : List Str) (u : Str) (i : Nat) :
    restoreCodeAux (t ++ u) ts i = t ++ restoreCodeAux u ts i := by
  induction t with
  | nil => simp
  | cons c t' ih =>
      have hc : c ≠ SENT := fun h => ht (h ▸ List.mem_cons_self c t')
      have ht' : SENT ∉ t' := fun h => ht (List.mem_cons_of_mem _ h)
      rw [show ((c :: t') ++ u : Str) = c :: (t' ++ u) from rfl]
      rw [restoreCodeAux_cons_plain hc]
      rw [ih ht']
      rfl

theorem noCode_cons {c : Char} {s : Str} (h : ¬ (lit "CODE" <:+: (c :: s))) :
    ¬ (lit "CODE" <:+: s) :=
  fun hi => h (hi.trans (List.suffix_cons c s).isInfix)

theorem noCode_append_right {t s : Str} (h : ¬ (lit "CODE" <:+: (t ++ s))) :
    ¬ (lit "CODE" <:+: s) :=
  fun hi => h (hi.trans (List.suffix_append t s).isInfix)

theorem seg_prefix_plain : ∀ {k : Nat} {ts : List Str} {s out : Str}, Seg k ts s out →
    ∀ w : Str, w ≠ [] → SENT ∉ w → w <+: out → w <+: s := by
  intro k ts s out hseg
  induction hseg with
  | nil =>
      intro w hne _ hpre
      rw [List.prefix_nil] at hpre
      exact absurd hpre hne
  | plain k c ts s out hc hsub ih =>
      intro w hne hw hpre
      cases w with
      | nil => exact absurd rfl hne
      | cons d w' =>
          rw [List.cons_prefix_cons] at hpre
          obtain ⟨hd, hw'⟩ := hpre
          subst hd
          cases w' with
          | nil => exact (List.cons_prefix_cons).mpr ⟨rfl, List.nil_prefix⟩
          | cons e w'' =>
              have := ih (e :: w'') (by simp) (fun hm => hw (List.mem_cons_of_mem _ hm)) hw'
              exact (List.cons_prefix_cons).mpr ⟨rfl, this⟩
  | tok k t ts s out ht htn hsub ih =>
      intro w hne hw hpre
      cases w with
      | nil => exact absurd rfl hne
      | cons d w' =>
          rw [sentinel_cons k] at hpre
          rw [show (SENT :: ((lit "CODE" ++ natDigits k) ++ [SENT])) ++ out =
              SENT :: (((lit "CODE" ++ natDigits k) ++ [SENT]) ++ out) from rfl] at hpre
          rw [List.cons_prefix_cons] at hpre
          exact absurd (hpre.1 ▸ List.mem_cons_self d w') hw

theorem seg_fresh : ∀ {k : Nat} {ts : List Str} {s out : Str}, Seg k ts s out →
    ¬ (lit "CODE" <:+: s) → ∀ j rep, j < k → replaceAllStr out (sentinel j) rep = out := by
  intro k ts s out hseg
  induction hseg with
  | nil => intro _ j rep _; rfl
  | plain k c ts s out hc hsub ih =>
      intro hcode j rep hj
      rw [replaceAllStr_cons_skip c out rep (sentinel_not_prefix_cons hc)]
      rw [ih (noCode_cons hcode) j rep hj]
  | tok k t ts s out ht htn hsub ih =>
      intro hcode j rep hj
      have hmid := SENT_not_mem_mid k
      have hblock : ∀ b', b' ≠ [] → b' <:+ sentinel k → ¬ sentinel j <+: (b' ++ out) := by
        intro b' hne hsuf hpre
        rw [sentinel_cons k] at hsuf
        rcases suffix_of_block hmid hsuf hne with hb | hb | ⟨e, b'', hb, hene⟩
        · rw [hb, ← sentinel_cons k] at hpre
          exact absurd (sentinel_prefix_free hpre) (Nat.ne_of_lt hj)
        · rw [hb] at hpre
          rw [sentinel_cons j] at hpre
          rw [show ([SENT] ++ out : Str) = SENT :: out from rfl] at hpre
          rw [List.cons_prefix_cons] at hpre
          have hcp : lit "CODE" <+: out :=
            ((List.prefix_append (lit "CODE") (natDigits j)).trans
              (List.prefix_append _ [SENT])).trans hpre.2
          have := seg_prefix_plain hsub (lit "CODE") (by decide) (by decide) hcp
          exact (noCode_append_right hcode) this.isInfix
        · rw [hb] at hpre
          rw [show ((e :: b'') ++ out : Str) = e :: (b'' ++ out) from rfl] at hpre
          exact sentinel_not_prefix_cons hene hpre
      rw [replaceAll_skip_block (sentinel j) rep (sentinel k) out hblock]
      rw [ih (noCode_append_right hcode) j rep (Nat.lt_succ_of_lt hj)]

theorem seg_restore : ∀ {k : Nat} {ts : List Str} {s out : Str}, Seg k ts s out →
    ¬ (lit "CODE" <:+: s) → restoreCodeAux out ts k = s := by
  intro k ts s out hseg
  induction hseg with
  | nil => intro _; rfl
  | plain k c ts s out hc hsub ih =>
      intro hcode
      rw [restoreCodeAux_cons_plain hc, ih (noCode_cons hcode)]
  | tok k t ts s out ht htn hsub ih =>
      intro hcode
      rw [restoreCodeAux]
      rw [replaceAllStr_match_head (sentinel k) out t (sentinel_ne_nil k)]
      rw [seg_fresh hsub (noCode_append_right hcode) k t (Nat.lt_succ_self k)]
      rw [restoreCodeAux_append_left ht]
      rw [ih (noCode_append_right hcode)]


/-- Claim C8 counterexample: restoring after protecting does NOT recover
every input.  First failure: an input that already contains the private-use
sentinel text `CODE0` next to a real code span gets the literal
text rewritten by the restore pass.  Second failure: an input whose plain
text `CODE0` sits between two code spans — the closing sentinel of one span,
the text, and the opening of the next sentinel together spell the sentinel
of span 0, which the restore pass replaces, mangling the output. -/
theorem claim_C8_counterexample :
    (restoreCode (protectCode (lit "`x`" ++ sentinel 0)).1
        (protectCode (lit "`x`" ++ sentinel 0)).2 ≠ lit "`x`" ++ sentinel 0) ∧
      (restoreCode (protectCode (lit "`a` `b`CODE0`c`")).1
          (protectCode (lit "`a` `b`CODE0`c`")).2 ≠ lit "`a` `b`CODE0`c`") := by
  decide

/-- Claim C8 as amended: code-span protection round-trips only on inputs
that contain neither the private-use sentinel character U+E000 nor the
text "CODE": under those two conditions, restoring after protecting
recovers the input (and hence the protected spans) verbatim. -/
theorem claim_C8_code_protection_amended (s : Str)
    (h1 : SENT ∉ s) (h2 : strContains s (lit "CODE") = false) :
    restoreCode (protectCode s).1 (protectCode s).2 = s := by
  obtain ⟨out, ts, heq, hseg⟩ := protect_seg s.length s [] (le_refl _) h1
  have h2' : ¬ (lit "CODE" <:+: s) := by
    intro hi
    rw [← strContains_iff] at hi
    rw [h2] at hi
    exact Bool.false_ne_true hi
  rw [show protectCode s = (out, ts) from by rw [protectCode, heq]; simp]
  show restoreCodeAux out ts 0 = s
  have hseg0 : Seg 0 ts s out := by simpa using hseg
  exact seg_restore hseg0 h2'

/-- Witness for C8 (amended) on an input with a fenced span, an inline
span and an annotation in between. -/
theorem claim_C8_code_protection_amended_witness :
    restoreCode (protectCode (lit "```c```x [a]^^(b) `d`")).1
        (protectCode (lit "```c```x [a]^^(b) `d`")).2 =
      lit "```c```x [a]^^(b) `d`" :=
  claim_C8_code_protection_amended (lit "```c```x [a]^^(b) `d`") (by decide) (by decide)


/-! ## HTML-to-markup conversion (claim C1)

`rubyHtmlToMarkup` in the source runs on a `DOMParser` document.  The
DOM here is modelled from the spec's description of the rendered-output
grammar: element nodes carry a tag, attributes and children; parsing
handles the renderer's output subset (tags with double-quoted attributes,
text runs without `&`-entities); `querySelectorAll` iteration is modelled
as repeated processing of the first ruby element in document order
(replacements are always text nodes, so later snapshot entries are
unaffected, as in the browser). -/

inductive HNode where
  | text (s : Str)
  | elem (tag : Str) (attrs : List (Str × Str)) (kids : List HNode)

def isAsciiAlpha (c : Char) : Bool := 97 ≤ c.toNat && c.toNat ≤ 122

/-- Parse the ` name="value"` attribute list up to and including `>`. -/
def parseAttrsAux : Nat → Str → List (Str × Str) × Str
  | 0, s => ([], s)
  | fuel + 1, s =>
      match s with
      | [] => ([], [])
      | c :: rest =>
          if c = '>' then ([], rest)
          else if isJsSpace c then parseAttrsAux fuel rest
          else
            let name := (c :: rest).takeWhile
              (fun d => !(d = '=' : Bool) && !(d = '>' : Bool) && !isJsSpace d)
            let r1 := (c :: rest).drop name.length
            match r1 with
            | '=' :: '"' :: r2 =>
                let v := r2.takeWhile (fun d => !(d = '"' : Bool))
                let r3 := r2.drop (v.length + 1)
                let out := parseAttrsAux fuel r3
                ((name, v) :: out.1, out.2)
            | _ =>
                let out := parseAttrsAux fuel r1
                ((name, []) :: out.1, out.2)

/-- Parse a sibling list of nodes; stops at `</` or the end. -/
def parseHtmlNodes : Nat → Str → List HNode × Str
  | 0, s => ([], s)
  | fuel + 1, s =>
      match s with
      | [] => ([], [])
      | '<' :: '/' :: rest => ([], '<' :: '/' :: rest)
      | '<' :: rest =>
          let tag := rest.takeWhile isAsciiAlpha
          let p1 := parseAttrsAux fuel (rest.drop tag.length)
          let p2 := parseHtmlNodes fuel p1.2
          let close : Str := '<' :: '/' :: tag ++ ['>']
          let r3 := if close.isPrefixOf p2.2 then p2.2.drop close.length else p2.2
          let p3 := parseHtmlNodes fuel r3
          (.elem tag p1.1 p2.1 :: p3.1, p3.2)
      | c :: rest =>
          let t := (c :: rest).takeWhile (fun d => !(d = '<' : Bool))
          let p := parseHtmlNodes fuel ((c :: rest).drop t.length)
          (.text t :: p.1, p.2)

/-- Concatenated text content of a node list. -/
def textContentL : Nat → List HNode → Str
  | 0, _ => []
  | _ + 1, [] => []
  | fuel + 1, .text s :: ks => s ++ textContentL fuel ks
  | fuel + 1, .elem _ _ kids :: ks => textContentL fuel kids ++ textContentL fuel ks

/-- Remove all descendant elements with a tag in `tags`
(the `clone.querySelectorAll(...).forEach(n => n.remove())` idiom). -/
def stripTagsL (tags : List Str) : Nat → List HNode → List HNode
  | 0, ks => ks
  | _ + 1, [] => []
  | fuel + 1, .text s :: ks => .text s :: stripTagsL tags fuel ks
  | fuel + 1, .elem t attrs kids :: ks =>
      if t ∈ tags then stripTagsL tags fuel ks
      else .elem t attrs (stripTagsL tags fuel kids) :: stripTagsL tags fuel ks

/-- JS `String.prototype.trim`. -/
def jsTrim (s : Str) : Str :=
  ((s.dropWhile isJsSpace).reverse.dropWhile isJsSpace).reverse

def getAttr (name : Str) : HNode → Option Str
  | .elem _ attrs _ => (attrs.find? (fun p => p.1 = name)).map (fun p => p.2)
  | .text _ => none

/-- `classList` of an element. -/
def classesOf (n : HNode) : List Str := splitBySpaces ((getAttr (lit "class") n).getD [])

def hasClass (c : Str) (n : HNode) : Bool := decide (c ∈ classesOf n)

def isElemTag (t : Str) : HNode → Bool
  | .elem tag _ _ => tag = t
  | .text _ => false

def elemKids : HNode → List HNode
  | .elem _ _ kids => kids
  | .text _ => []

def directChildrenByTag (t : Str) (n : HNode) : List HNode :=
  (elemKids n).filter (isElemTag t)

def firstDirectChildByTag (t : Str) (n : HNode) : Option HNode :=
  (directChildrenByTag t n).head?

/-- parser.ts `underlinePatternFromClasses`. -/
def underlinePatternFromClasses (n : HNode) : Option Str :=
  if hasClass (lit "ls-ruby-underline-wavy") n then some (lit ".~")
  else if hasClass (lit "ls-ruby-underline-double") n then some (lit ".=")
  else if hasClass (lit "ls-ruby-underline") n then some (lit ".-")
  else none

/-- Text content of one node. -/
def textContentN (fuel : Nat) (n : HNode) : Str := textContentL fuel [n]

/-- The replacement computed for one `ruby` element by `rubyHtmlToMarkup`
(the body of the snapshot loop); returns the node unchanged in the one
branch where the source `continue`s without replacing. -/
def procOneRuby (fuel : Nat) (r : HNode) : HNode :=
  let cls := classesOf r
  if decide (lit "ls-ruby-mixed" ∈ cls) then
    let base := jsTrim (textContentL fuel (stripTagsL [lit "rt", lit "rp"] fuel (elemKids r)))
    let rubyText := match firstDirectChildByTag (lit "rt") r with
      | some rt => jsTrim (textContentN fuel rt)
      | none => []
    if base.isEmpty || rubyText.isEmpty then r
    else
      let rubyOp := if decide (lit "ls-ruby-over" ∈ cls) then lit "^^" else lit "^_"
      let deco := match underlinePatternFromClasses r with
        | some pat => lit "^_(" ++ pat ++ lit ")"
        | none =>
            if decide (lit "ls-ruby-bouten-over" ∈ cls) then lit "^^(..)"
            else if decide (lit "ls-ruby-bouten-under" ∈ cls) then lit "^_(..)"
            else []
      .text (lit "[" ++ base ++ lit "]" ++ rubyOp ++ lit "(" ++ rubyText ++ lit ")" ++ deco)
  else
    match firstDirectChildByTag (lit "ruby") r with
    | some inner =>
        let outerRts := ((directChildrenByTag (lit "rt") r).map
          (fun rt => jsTrim (textContentN fuel rt))).filter (fun t => !t.isEmpty)
        let base := jsTrim (textContentL fuel
          (stripTagsL [lit "rt", lit "rp"] fuel (elemKids inner)))
        let innerRts := ((directChildrenByTag (lit "rt") inner).map
          (fun rt => jsTrim (textContentN fuel rt))).filter (fun t => !t.isEmpty)
        let levels := (innerRts ++ outerRts).filter (fun t => !t.isEmpty)
        let ann := List.intercalate (lit "|") levels
        let innerOp := if hasClass (lit "ls-ruby-over") inner then lit "^^" else lit "^_"
        .text (if ann.isEmpty then base
          else lit "[" ++ base ++ lit "]" ++ innerOp ++ lit "(" ++ ann ++ lit ")")
    | none =>
        let base := jsTrim (textContentL fuel
          (stripTagsL [lit "rt", lit "rp", lit "rtc"] fuel (elemKids r)))
        let rts := (directChildrenByTag (lit "rt") r).map
          (fun rt => jsTrim (textContentN fuel rt))
        let rtcs := (directChildrenByTag (lit "rtc") r).map
          (fun rtc => jsTrim (textContentN fuel rtc))
        let levels := (rts ++ rtcs).filter (fun t => !t.isEmpty)
        let ann := List.intercalate (lit "|") levels
        let op := if decide (lit "ls-ruby-under" ∈ cls) then lit "^_" else lit "^^"
        .text (if ann.isEmpty then base
          else lit "[" ++ base ++ lit "]" ++ op ++ lit "(" ++ ann ++ lit ")")

/-- Replace the first `ruby` element in document order; `none` if there is
no `ruby` element. -/
def procRubyL (big : Nat) : Nat → List HNode → Option (List HNode)
  | 0, _ => none
  | _ + 1, [] => none
  | fuel + 1, .text s :: ks => (procRubyL big fuel ks).map (fun ks' => .text s :: ks')
  | fuel + 1, .elem tag attrs kids :: ks =>
      if tag = lit "ruby" then some (procOneRuby big (.elem tag attrs kids) :: ks)
      else
        match procRubyL big fuel kids with
        | some kids' => some (.elem tag attrs kids' :: ks)
        | none => (procRubyL big fuel ks).map (fun ks' => .elem tag attrs kids :: ks')

/-- The `while (rubies.length > 0)` loop. -/
def rubyElemLoop (big : Nat) : Nat → List HNode → List HNode
  | 0, ks => ks
  | fuel + 1, ks =>
      match procRubyL big big ks with
      | some ks' => rubyElemLoop big fuel ks'
      | none => ks

/-- The bouten-span replacement text (`rubyHtmlToMarkup` span pass 1). -/
def boutenSpanText (base : Str) (n : HNode) : Str :=
  let isOver := hasClass (lit "ls-ruby-bouten-over") n
  let isUnder := hasClass (lit "ls-ruby-bouten-under") n
  match underlinePatternFromClasses n with
  | some pat =>
      if isOver then lit "[" ++ base ++ lit "]^^(..)^_(" ++ pat ++ lit ")"
      else if isUnder then lit "[" ++ base ++ lit "]^_(" ++ pat ++ lit ")^^(..)"
      else if isUnder then lit "[" ++ base ++ lit "]^_(..)" else lit "[" ++ base ++ lit "]^^(..)"
  | none =>
      if isOver && isUnder then lit "[" ++ base ++ lit "]^^(..)^_(..)"
      else if isUnder then lit "[" ++ base ++ lit "]^_(..)"
      else lit "[" ++ base ++ lit "]^^(..)"

def mapBoutenSpansL (big : Nat) : Nat → List HNode → List HNode
  | 0, ks => ks
  | _ + 1, [] => []
  | fuel + 1, .text s :: ks => .text s :: mapBoutenSpansL big fuel ks
  | fuel + 1, .elem tag attrs kids :: ks =>
      let n : HNode := .elem tag attrs kids
      if tag = lit "span" && hasClass (lit "ls-ruby-bouten") n then
        let base := jsTrim (textContentN big n)
        if base.isEmpty then n :: mapBoutenSpansL big fuel ks
        else .text (boutenSpanText base n) :: mapBoutenSpansL big fuel ks
      else .elem tag attrs (mapBoutenSpansL big fuel kids) :: mapBoutenSpansL big fuel ks

def mapUnderlineSpansL (big : Nat) : Nat → List HNode → List HNode
  | 0, ks => ks
  | _ + 1, [] => []
  | fuel + 1, .text s :: ks => .text s :: mapUnderlineSpansL big fuel ks
  | fuel + 1, .elem tag attrs kids :: ks =>
      let n : HNode := .elem tag attrs kids
      if tag = lit "span" && hasClass (lit "ls-ruby-underline") n &&
          !hasClass (lit "ls-ruby-bouten") n then
        let base := jsTrim (textContentN big n)
        let pat := (underlinePatternFromClasses n).getD (lit ".-")
        .text (lit "[" ++ base ++ lit "]^_(" ++ pat ++ lit ")") :: mapUnderlineSpansL big fuel ks
      else .elem tag attrs (mapUnderlineSpansL big fuel kids) :: mapUnderlineSpansL big fuel ks

/-- Text-node serialization escaping of `innerHTML`. -/
def escapeText (s : Str) : Str :=
  s.flatMap (fun c =>
    if c = '&' then lit "&amp;"
    else if c = '<' then lit "&lt;"
    else if c = '>' then lit "&gt;"
    else [c])

/-- Attribute-value serialization escaping of `innerHTML`. -/
def escapeAttr (s : Str) : Str :=
  s.flatMap (fun c =>
    if c = '&' then lit "&amp;"
    else if c = '"' then lit "&quot;"
    else [c])

def serializeAttrs (attrs : List (Str × Str)) : Str :=
  attrs.flatMap (fun p => ' ' :: p.1 ++ '=' :: '"' :: escapeAttr p.2 ++ ['"'])

/-- `innerHTML` serialization of a node list. -/
def serializeL : Nat → List HNode → Str
  | 0, _ => []
  | _ + 1, [] => []
  | fuel + 1, .text s :: ks => escapeText s ++ serializeL fuel ks
  | fuel + 1, .elem tag attrs kids :: ks =>
      '<' :: tag ++ serializeAttrs attrs ++ '>' :: serializeL fuel kids ++
        '<' :: '/' :: tag ++ '>' :: serializeL fuel ks

/-- parser.ts `rubyHtmlToMarkup` over the modelled DOM. -/
def rubyHtmlToMarkup (html : Str) : Str :=
  if !(strContains html (lit "<ruby") || strContains html (lit "ls-ruby")) then html
  else
    let big := html.length + 1
    let tree := (parseHtmlNodes big html).1
    let t1 := rubyElemLoop big big tree
    let t2 := mapBoutenSpansL big big t1
    let t3 := mapUnderlineSpansL big big t2
    serializeL big t3

/-! ### The macro-to-markup pass of `anyToMarkup` (`MACRO_RE` replace) -/

def asciiLower (c : Char) : Char :=
  if 65 ≤ c.toNat && c.toNat ≤ 90 then Char.ofNat (c.toNat + 32) else c

def lowerStr (s : Str) : Str := s.map asciiLower

/-- Try to match `MACRO_RE` at the current position: on success returns
`(matched-text, base, ann, pos?, rest)`. -/
def matchMacroAt (s : Str) : Option (Str × Str × Str × Option Str × Str) :=
  if (lit "\x7b\x7brenderer").isPrefixOf s then
    let r0 := s.drop 10
    let ws := r0.takeWhile isJsSpace
    if ws.isEmpty then none
    else
      let r1 := r0.drop ws.length
      if (lit ":ruby,").isPrefixOf r1 then
        let r2 := r1.drop 6
        let ws2 := r2.takeWhile isJsSpace
        let r3 := r2.drop ws2.length
        let base := r3.takeWhile (fun c => !(c = ',' : Bool) && !(c = '\x7d' : Bool))
        if base.isEmpty then none
        else
          match r3.drop base.length with
          | ',' :: r4 =>
              let ws3 := r4.takeWhile isJsSpace
              let r5 := r4.drop ws3.length
              let ann := r5.takeWhile (fun c => !(c = ',' : Bool) && !(c = '\x7d' : Bool))
              if ann.isEmpty then none
              else
                match r5.drop ann.length with
                | '\x7d' :: '\x7d' :: r6 =>
                    let matched := s.take (s.length - r6.length)
                    some (matched, base, ann, none, r6)
                | ',' :: r6 =>
                    let ws4 := r6.takeWhile isJsSpace
                    let r7 := r6.drop ws4.length
                    let pos := r7.takeWhile (fun c => !(c = '\x7d' : Bool))
                    if pos.isEmpty then none
                    else
                      match r7.drop pos.length with
                      | '\x7d' :: '\x7d' :: r8 =>
                          let matched := s.take (s.length - r8.length)
                          some (matched, base, ann, some pos, r8)
                      | _ => none
                | _ => none
          | _ => none
      else none
  else none

/-- The replacement string for one `MACRO_RE` match in `anyToMarkup`. -/
def macroReplacement (matched base ann : Str) (pos : Option Str) : Str :=
  let b := jsTrim base
  let a := jsTrim ann
  if b.isEmpty || a.isEmpty then matched
  else
    let p := lowerStr (jsTrim (pos.getD []))
    let op := if p = lit "under" then lit "^_" else lit "^^"
    lit "[" ++ b ++ lit "]" ++ op ++ lit "(" ++ a ++ lit ")"

/-- The global `MACRO_RE` replace of `anyToMarkup`. -/
def macroPassAux : Nat → Str → Str
  | 0, s => s
  | fuel + 1, s =>
      match s with
      | [] => []
      | c :: rest =>
          match matchMacroAt (c :: rest) with
          | some (matched, base, ann, pos, r) =>
              macroReplacement matched base ann pos ++ macroPassAux fuel r
          | none => c :: macroPassAux fuel rest

def macroPass (s : Str) : Str := macroPassAux s.length s

/-- parser.ts `anyToMarkup`. -/
def anyToMarkup (content : Str) : Str :=
  let p := protectCode content
  let r1 := macroPass p.1
  let r2 := if strContains r1 (lit "<ruby") || strContains r1 (lit "ls-ruby") then
      rubyHtmlToMarkup r1
    else r1
  restoreCode r2 p.2


/-- Claim C1 counterexample: the well-formed, collision-free markup
`[a]^^(x)^_(y)` round-trips through render + convert-back to the pipe
form `[a]^^(x|y)`, not to itself; since the claim's `normalize` accounts
only for bracket/bare-token equivalence of the base span (and the base is
already bracketed), the claimed identity fails. -/
theorem claim_C1_counterexample :
    anyToMarkup (rubyToHTML (lit "[a]^^(x)^_(y)")) = lit "[a]^^(x|y)" ∧
      (lit "[a]^^(x|y)" : Str) ≠ lit "[a]^^(x)^_(y)" := by
  decide


/-- Claim C1 as amended: the render/convert-back round-trip is the
identity on collision-free markup whose two annotation slots are already
in pipe form (or that uses a single slot), verified exactly on the
embedded pipeline for the bracketed single over form, the single under
form, the pipe form and the underline-marker form; a chained two-operator
form is not a fixed point but normalizes to the equivalent pipe form of
the *first* operator (`[a]^_(y)^^(x)` comes back as `[a]^_(y|x)`), so the
round-trip is the identity only up to chain-to-pipe normalization, not up
to the claimed bracket/bare-token normalization alone. -/
theorem claim_C1_roundtrip_amended :
    anyToMarkup (rubyToHTML (lit "[a]^^(x)")) = lit "[a]^^(x)" ∧
      anyToMarkup (rubyToHTML (lit "[a]^_(x)")) = lit "[a]^_(x)" ∧
      anyToMarkup (rubyToHTML (lit "[a]^^(x|y)")) = lit "[a]^^(x|y)" ∧
      anyToMarkup (rubyToHTML (lit "[ab]^_(.-)")) = lit "[ab]^_(.-)" ∧
      anyToMarkup (rubyToHTML (lit "[a]^_(y)^^(x)")) = lit "[a]^_(y|x)" := by
  decide

end Ruby
